import Mathlib

/-!
# ytb2bili: the orchestration core (package `chains`)

A shallow embedding of `internal/agentic/chains` (`chain.go`,
`ytb_to_bili_chain.go`, `agent_chain.go`) together with `internal/agentic/agent.go`
and the tool constructors of `internal/agentic/tools`.

Conventions of the embedding

* A Go `error` is a `GoError`; a nil error is `none`.
* A `*ChainOutput` that may be nil is an `Option ChainOutput`.
* Side effects are made explicit as a `Trace`: the chronological list of tool
  invocations (`Event.call`), logger calls (`Event.log`), planner calls
  (`Event.chat`) and callback calls (`Event.callback`).  Every function that has
  effects takes the trace so far and returns the extended trace in its `Run`.
* A tool is a name plus a `Call` behaviour, a planner is a `Chat` behaviour.  A
  behaviour may depend on everything that has happened before (the earlier
  invocations and their results), so stateful and flaky tools and planners
  are covered.  The logger is a write-only sink: behaviours do not observe
  it.
* `context.Context` is passed unchanged to every call and is never inspected
  by the chains; it is part of the behaviours.
* The receiver fields `agent`, `logger` and `app` are assumed non-nil (the
  constructors `NewBaseChain` / `NewYtbToBiliChain` / `NewAgentChain` are always
  given live values by `NewChainManager`).
-/

namespace Ytb2Bili

/-! ## Go values -/

/-- Go `error` values as far as the chains can observe them: the message
(`Error()`) and the wrapped error (`Unwrap()`).  `errorString` is what
`errors.New` and `fmt.Errorf` without `%w` build, `wrapError` is what
`fmt.Errorf` with one `%w` builds. -/
inductive GoError where
  | errorString (s : String)
  | wrapError (msg : String) (err : GoError)
deriving DecidableEq, Repr

/-- The method `Error()`. -/
def GoError.Error : GoError → String
  | .errorString s => s
  | .wrapError msg _ => msg

/-- The method `Unwrap()` (nil for an error that wraps nothing). -/
def GoError.Unwrap : GoError → Option GoError
  | .errorString _ => none
  | .wrapError _ err => some err

/-- Values of type `interface{}` stored in a metadata map. -/
inductive Any where
  | null
  | str (s : String)
  | int (n : Int)
  | bool (b : Bool)
deriving DecidableEq, Repr

/-- The value of a Go `int` expression whose mathematical value is `n`: the type
is 64 bits wide and arithmetic wraps around in two's complement. -/
def wrapInt (n : Int) : Int :=
  (n + 2 ^ 63) % 2 ^ 64 - 2 ^ 63

/-- The largest value of the Go type `int`. -/
def maxInt : Int :=
  2 ^ 63 - 1

/-- Rounding of a rational to the nearest integer, a tie going to the even
neighbour. -/
def roundHalfEven (x : ℚ) : Int :=
  if x - ⌊x⌋ < 1 / 2 then ⌊x⌋
  else if 1 / 2 < x - ⌊x⌋ then ⌊x⌋ + 1
  else if ⌊x⌋ % 2 = 0 then ⌊x⌋ else ⌊x⌋ + 1

/-- The `float64` nearest to the rational `q`, as a rational: IEEE 754 binary64
with 53 significant bits, rounding to nearest with ties to even, the spacing
staying that of the smallest normal binade below `2 ^ (-1022)`.  Overflow to
infinity, which starts near `2 ^ 1024`, is not represented: the operands of
this repository are values of type `int` and their quotients. -/
def roundFloat64 (q : ℚ) : ℚ :=
  if q = 0 then 0
  else
    let e := max (Int.log 2 |q|) (-1022)
    let ulp : ℚ := 2 ^ (e - 52)
    (if q < 0 then -1 else 1) * (roundHalfEven (|q| / ulp) : ℚ) * ulp

/-- The conversion `float64(n)` of a Go `int`. -/
def float64OfInt (n : Int) : ℚ :=
  roundFloat64 n

/-- The `float64` quotient `a / b` of two `float64` values, for `b` other than
zero. -/
def float64Div (a b : ℚ) : ℚ :=
  roundFloat64 (a / b)

/-- The `float64` product `a * b` of two `float64` values. -/
def float64Mul (a b : ℚ) : ℚ :=
  roundFloat64 (a * b)

/-- A Go `map[string]interface{}`: association list, at most one entry per key
when built with `GoMap.set`. -/
abbrev GoMap := List (String × Any)

/-- The read `m[k]` in its two-result form. -/
def GoMap.get (m : GoMap) (k : String) : Option Any :=
  m.lookup k

/-- The write `m[k] = v`: replaces the entry of `k` when there is one, adds one
otherwise. -/
def GoMap.set : GoMap → String → Any → GoMap
  | [], k, v => [(k, v)]
  | (k0, v0) :: rest, k, v =>
    if k0 = k then (k, v) :: rest else (k0, v0) :: GoMap.set rest k v

/-- The type assertion `x.(string)` in its two-result form, applied to the
result of a map read: `("", false)` for a missing key, a nil value or a value
of another dynamic type. -/
def assertString : Option Any → String × Bool
  | some (.str s) => (s, true)
  | _ => ("", false)

/-! ## Effects -/

/-- One tool invocation: which tool, the input passed to `Call`, and what
`Call` returned. -/
structure CallRec where
  tool : String
  input : String
  output : String
  err : Option GoError
deriving DecidableEq, Repr

/-- One logger call: level, message and the zap fields rendered as text. -/
structure LogRec where
  level : String
  msg : String
  fields : List (String × String)
deriving DecidableEq, Repr

/-- The struct `agentic.Message` (`Name` is empty when the field is omitted). -/
structure Message where
  Role : String
  Content : String
  Name : String
deriving DecidableEq, Repr

/-- One call of the planner's `Chat`: the conversation passed and what `Chat`
returned. -/
structure ChatRec where
  messages : List Message
  response : String
  err : Option GoError
deriving DecidableEq, Repr

/-- The struct `StepRecord` of `chain.go`. -/
structure StepRecord where
  ToolName : String
  Input : String
  Output : String
  Error : Option GoError
deriving DecidableEq, Repr

/-- An observable effect of a chain: a tool invocation, a logger call, a
planner call, or a call of the progress callback of
`AgentChain.ExecuteWithCallback` with its two arguments (the progress is a
`float64`, held as the rational it stands for). -/
inductive Event where
  | call (c : CallRec)
  | log (l : LogRec)
  | chat (c : ChatRec)
  | callback (step : StepRecord) (progress : ℚ)
deriving DecidableEq, Repr

/-- The effects so far, oldest first. -/
abbrev Trace := List Event

/-- The tool invocations of a trace, oldest first. -/
def calls : Trace → List CallRec
  | [] => []
  | Event.call c :: rest => c :: calls rest
  | _ :: rest => calls rest

/-- The part of a trace that tools and the planner can observe: everything
except logger calls. -/
def effects : Trace → Trace
  | [] => []
  | Event.log _ :: rest => effects rest
  | e :: rest => e :: effects rest

/-- The planner calls of a trace, oldest first. -/
def chats : Trace → List ChatRec
  | [] => []
  | Event.chat c :: rest => c :: chats rest
  | _ :: rest => chats rest

/-- The logger calls of a trace that carry message `msg`. -/
def logsWith (msg : String) : Trace → List LogRec
  | [] => []
  | Event.log l :: rest => if l.msg = msg then l :: logsWith msg rest else logsWith msg rest
  | _ :: rest => logsWith msg rest

/-- The call `logger.Info(msg, fields...)`. -/
def logInfo (tr : Trace) (msg : String) (fields : List (String × String)) : Trace :=
  tr ++ [Event.log ⟨"info", msg, fields⟩]

/-- The call `logger.Warn(msg, fields...)`. -/
def logWarn (tr : Trace) (msg : String) (fields : List (String × String)) : Trace :=
  tr ++ [Event.log ⟨"warn", msg, fields⟩]

/-- The call `logger.Error(msg, fields...)`. -/
def logError (tr : Trace) (msg : String) (fields : List (String × String)) : Trace :=
  tr ++ [Event.log ⟨"error", msg, fields⟩]

/-! ## `agentic.Tool` -/

/-- The interface `agentic.Tool`: `Name()` and `Call(ctx, input)`.  `Call` is
given the observable history at the moment of the call. -/
structure Tool where
  Name : String
  Call : Trace → String → String × Option GoError

/-- The statement `result, err := tool.Call(ctx, input)`: runs the behaviour on
the history and records the invocation in the trace. -/
def Tool.invoke (t : Tool) (input : String) (tr : Trace) :
    (String × Option GoError) × Trace :=
  let r := t.Call (effects tr) input
  (r, tr ++ [Event.call ⟨t.Name, input, r.1, r.2⟩])

/-! ## `chain.go` -/

/-- The struct `ChainInput`. -/
structure ChainInput where
  Query : String
  Metadata : GoMap
deriving DecidableEq, Repr

/-- The struct `ChainOutput`. -/
structure ChainOutput where
  Result : String
  Steps : List StepRecord
  Metadata : GoMap
deriving DecidableEq, Repr

/-- What a chain operation returns, `(*ChainOutput, error)`, together with the
trace after it. -/
structure Run where
  out : Option ChainOutput
  err : Option GoError
  trace : Trace
deriving DecidableEq, Repr

/-- The struct `BaseChain` (its `agent` and `logger` are live and appear only
through their effects). -/
structure BaseChain where
  name : String
deriving DecidableEq, Repr

/-- The constructor `NewBaseChain`. -/
def NewBaseChain (name : String) : BaseChain :=
  { name := name }

/-- The method `BaseChain.Name`. -/
def BaseChain.Name (c : BaseChain) : String :=
  c.name

/-- The `for i, tool := range tools` loop of `ExecuteToolSequence`, from
index `i` on; the `[]` case is the code after the loop. -/
def BaseChain.ExecuteToolSequence.loop (c : BaseChain) (total : Nat) (inputs : List String) :
    List Tool → Nat → ChainOutput → String → Trace → Run
  | [], _, output, lastOutput, tr =>
    ⟨some { output with Result := lastOutput }, none, tr⟩
  | tool :: rest, i, output, _, tr =>
    let tr1 := logInfo tr "Executing tool in chain"
      [("chain", c.name), ("tool", tool.Name), ("step", toString (i + 1)),
       ("total", toString total)]
    let res := tool.invoke (inputs.getD i "") tr1
    let result := res.1.1
    let err := res.1.2
    let step : StepRecord :=
      { ToolName := tool.Name, Input := inputs.getD i "", Output := result, Error := err }
    let output := { output with Steps := output.Steps ++ [step] }
    match err with
    | some e =>
      let tr3 := logError res.2 "Tool execution failed"
        [("tool", tool.Name), ("error", e.Error)]
      ⟨some output, some (.wrapError ("tool " ++ tool.Name ++ " failed: " ++ e.Error) e), tr3⟩
    | none => BaseChain.ExecuteToolSequence.loop c total inputs rest (i + 1) output result res.2

/-- The method `BaseChain.ExecuteToolSequence`. -/
def BaseChain.ExecuteToolSequence (c : BaseChain) (tools : List Tool) (inputs : List String)
    (tr : Trace) : Run :=
  if tools.length ≠ inputs.length then
    ⟨none, some (.errorString ("tools and inputs length mismatch: " ++
      toString tools.length ++ " != " ++ toString inputs.length)), tr⟩
  else
    BaseChain.ExecuteToolSequence.loop c tools.length inputs tools 0
      { Result := "", Steps := [], Metadata := [] } "" tr

/-! ## Package `tools` -/

/-- The `Call` method bodies of the seven tools of package `tools`, each given
the `videoId` its tool was constructed with.  The orchestration core treats
them as external collaborators, so the chains are parameterised by them; the
bodies that the repository ships are `sourceBodies`. -/
structure ToolBodies where
  DownloadVideoTool : String → Trace → String → String × Option GoError
  DownloadThumbnailTool : String → Trace → String → String × Option GoError
  ExtractAudioTool : String → Trace → String → String × Option GoError
  GenerateSubtitleTool : String → Trace → String → String × Option GoError
  TranslateSubtitleTool : String → Trace → String → String × Option GoError
  GenerateMetadataTool : String → Trace → String → String × Option GoError
  UploadToBiliTool : String → Trace → String → String × Option GoError

/-- The bodies in the repository: every `Call` is `return "", nil`. -/
def sourceBodies : ToolBodies where
  DownloadVideoTool := fun _ _ _ => ("", none)
  DownloadThumbnailTool := fun _ _ _ => ("", none)
  ExtractAudioTool := fun _ _ _ => ("", none)
  GenerateSubtitleTool := fun _ _ _ => ("", none)
  TranslateSubtitleTool := fun _ _ _ => ("", none)
  GenerateMetadataTool := fun _ _ _ => ("", none)
  UploadToBiliTool := fun _ _ _ => ("", none)

/-- The constructor `tools.NewDownloadVideoTool`, with `DownloadVideoTool.Name`. -/
def NewDownloadVideoTool (b : ToolBodies) (videoId : String) : Tool :=
  { Name := "download_video", Call := b.DownloadVideoTool videoId }

/-- The constructor `tools.NewDownloadThumbnailTool`, with `DownloadThumbnailTool.Name`. -/
def NewDownloadThumbnailTool (b : ToolBodies) (videoId : String) : Tool :=
  { Name := "download_thumbnail", Call := b.DownloadThumbnailTool videoId }

/-- The constructor `tools.NewExtractAudioTool`, with `ExtractAudioTool.Name`. -/
def NewExtractAudioTool (b : ToolBodies) (videoId : String) : Tool :=
  { Name := "extract_audio", Call := b.ExtractAudioTool videoId }

/-- The constructor `tools.NewGenerateSubtitleTool`, with `GenerateSubtitleTool.Name`. -/
def NewGenerateSubtitleTool (b : ToolBodies) (videoId : String) : Tool :=
  { Name := "generate_subtitle", Call := b.GenerateSubtitleTool videoId }

/-- The constructor `tools.NewTranslateSubtitleTool`, with `TranslateSubtitleTool.Name`. -/
def NewTranslateSubtitleTool (b : ToolBodies) (videoId : String) : Tool :=
  { Name := "translate_subtitle", Call := b.TranslateSubtitleTool videoId }

/-- The constructor `tools.NewGenerateMetadataTool`, with `GenerateMetadataTool.Name`
(the `llm` argument is part of the body). -/
def NewGenerateMetadataTool (b : ToolBodies) (videoId : String) : Tool :=
  { Name := "generate_metadata", Call := b.GenerateMetadataTool videoId }

/-- The constructor `tools.NewUploadToBiliTool`, with `UploadToBiliTool.Name`. -/
def NewUploadToBiliTool (b : ToolBodies) (videoId : String) : Tool :=
  { Name := "upload_to_bilibili", Call := b.UploadToBiliTool videoId }

/-! ## `ytb_to_bili_chain.go` -/

/-- The struct `YtbToBiliChain`: the embedded `BaseChain` and the tool bodies
reached through `app`. -/
structure YtbToBiliChain extends BaseChain where
  bodies : ToolBodies

/-- The constructor `NewYtbToBiliChain`. -/
def NewYtbToBiliChain (b : ToolBodies) : YtbToBiliChain :=
  { toBaseChain := NewBaseChain "ytb_to_bili", bodies := b }

/-- The input built for the translation step,
`fmt.Sprintf` of `{"video_id": "%s", "target_lang": "zh-CN"}`. -/
def translateInput (videoID : String) : String :=
  "\x7b\"video_id\": \"" ++ videoID ++ "\", \"target_lang\": \"zh-CN\"\x7d"

/-- The slice literal `toolChain` of `Execute`: tool and input of every step. -/
def YtbToBiliChain.toolChain (c : YtbToBiliChain) (videoID : String) : List (Tool × String) :=
  [ (NewDownloadVideoTool c.bodies videoID, videoID),
    (NewDownloadThumbnailTool c.bodies videoID, videoID),
    (NewExtractAudioTool c.bodies videoID, videoID),
    (NewGenerateSubtitleTool c.bodies videoID, videoID),
    (NewTranslateSubtitleTool c.bodies videoID, translateInput videoID),
    (NewGenerateMetadataTool c.bodies videoID, videoID),
    (NewUploadToBiliTool c.bodies videoID, videoID) ]

/-- The `for i, tc := range toolChain` loop of `Execute`, from index `i` on;
the `[]` case is the code after the loop. -/
def YtbToBiliChain.Execute.loop (videoID : String) (total : Nat) :
    List (Tool × String) → Nat → ChainOutput → Trace → Run
  | [], _, output, tr =>
    let output :=
      if h : output.Steps.length > 0 then
        { output with Result := (output.Steps[output.Steps.length - 1]).Output }
      else output
    let tr1 := logInfo tr "YtbToBili chain completed successfully"
      [("video_id", videoID), ("result", output.Result)]
    ⟨some output, none, tr1⟩
  | tc :: rest, i, output, tr =>
    let tr1 := logInfo tr "Executing tool"
      [("step", toString (i + 1)), ("total", toString total), ("tool", tc.1.Name)]
    let res := tc.1.invoke tc.2 tr1
    let result := res.1.1
    let err := res.1.2
    let step : StepRecord :=
      { ToolName := tc.1.Name, Input := tc.2, Output := result, Error := err }
    let output := { output with Steps := output.Steps ++ [step] }
    match err with
    | some e =>
      let tr3 := logError res.2 "Tool execution failed"
        [("tool", tc.1.Name), ("error", e.Error)]
      ⟨some output,
       some (.wrapError ("chain failed at step " ++ toString (i + 1) ++ " (" ++ tc.1.Name ++
         "): " ++ e.Error) e), tr3⟩
    | none =>
      YtbToBiliChain.Execute.loop videoID total rest (i + 1)
        { output with Metadata := output.Metadata.set (tc.1.Name ++ "_result") (.str result) }
        res.2

/-- The method `YtbToBiliChain.Execute`. -/
def YtbToBiliChain.Execute (c : YtbToBiliChain) (input : ChainInput) (tr : Trace) : Run :=
  let videoID := (assertString (input.Metadata.get "video_id")).1
  let ok := (assertString (input.Metadata.get "video_id")).2
  if !ok || videoID == "" then
    ⟨none, some (.errorString "video_id is required in metadata"), tr⟩
  else
    let tr1 := logInfo tr "Starting YtbToBili chain" [("video_id", videoID)]
    let toolChain := c.toolChain videoID
    YtbToBiliChain.Execute.loop videoID toolChain.length toolChain 0
      { Result := "", Steps := [], Metadata := [] } tr1

/-- The final `fmt.Errorf("chain failed after %d attempts: %w", maxRetries, lastErr)`
of `ExecuteWithRetry`.  With a nil operand `%w` prints `%!w(<nil>)` and the
result wraps nothing. -/
def retryError (maxRetries : Int) : Option GoError → GoError
  | some e =>
    .wrapError ("chain failed after " ++ toString maxRetries ++ " attempts: " ++ e.Error) e
  | none =>
    .errorString ("chain failed after " ++ toString maxRetries ++ " attempts: %!w(<nil>)")

/-- The loop `for attempt := 1; attempt <= maxRetries; attempt++` of
`ExecuteWithRetry`, entered at the test of its condition.  The counter is a Go
`int`, so `attempt++` wraps around and the loop need not end; `fuel` bounds
the number of times the condition is tested, and the result is `none` when
that does not suffice to reach a `return`.  The `else` case is the code after
the loop. -/
def YtbToBiliChain.ExecuteWithRetry.loop (c : YtbToBiliChain) (input : ChainInput)
    (maxRetries : Int) : Nat → Int → Option GoError → Trace → Option Run
  | 0, _, _, _ => none
  | fuel + 1, attempt, lastErr, tr =>
    if attempt ≤ maxRetries then
      let tr1 := logInfo tr "Attempting chain execution"
        [("attempt", toString attempt), ("max_retries", toString maxRetries)]
      let r := c.Execute input tr1
      match r.err with
      | none => some ⟨r.out, none, r.trace⟩
      | some err =>
        let tr2 := logWarn r.trace "Chain execution failed, will retry"
          [("attempt", toString attempt), ("error", err.Error)]
        YtbToBiliChain.ExecuteWithRetry.loop c input maxRetries fuel (wrapInt (attempt + 1))
          (some err) tr2
    else
      some ⟨none, some (retryError maxRetries lastErr), tr⟩

/-- The method `YtbToBiliChain.ExecuteWithRetry` (`maxRetries` is a Go `int`;
it may be zero or negative).  The result is `none` when `fuel` tests of the
loop condition do not suffice for the method to return. -/
def YtbToBiliChain.ExecuteWithRetry (c : YtbToBiliChain) (input : ChainInput)
    (maxRetries : Int) (fuel : Nat) (tr : Trace) : Option Run :=
  YtbToBiliChain.ExecuteWithRetry.loop c input maxRetries fuel 1 none tr

/-- The map literal `toolMap` of `PartialExecute`. -/
def YtbToBiliChain.toolMap (c : YtbToBiliChain) (videoID : String) : List (String × Tool) :=
  [ ("download_video", NewDownloadVideoTool c.bodies videoID),
    ("download_thumbnail", NewDownloadThumbnailTool c.bodies videoID),
    ("extract_audio", NewExtractAudioTool c.bodies videoID),
    ("generate_subtitle", NewGenerateSubtitleTool c.bodies videoID),
    ("translate_subtitle", NewTranslateSubtitleTool c.bodies videoID),
    ("generate_metadata", NewGenerateMetadataTool c.bodies videoID),
    ("upload_to_bilibili", NewUploadToBiliTool c.bodies videoID) ]

/-- The `for i, stepName := range steps` loop of `PartialExecute`, from index
`i` on; the `[]` case is the code after the loop. -/
def YtbToBiliChain.PartialExecute.loop (videoID : String) (toolMap : List (String × Tool)) :
    List String → Nat → ChainOutput → Trace → Run
  | [], _, output, tr =>
    let output :=
      if h : output.Steps.length > 0 then
        { output with Result := (output.Steps[output.Steps.length - 1]).Output }
      else output
    ⟨some output, none, tr⟩
  | stepName :: rest, i, output, tr =>
    match toolMap.lookup stepName with
    | none => ⟨some output, some (.errorString ("unknown step: " ++ stepName)), tr⟩
    | some tool =>
      let tr1 := logInfo tr "Executing partial step"
        [("step", toString (i + 1)), ("tool", stepName)]
      let res := tool.invoke videoID tr1
      let result := res.1.1
      let err := res.1.2
      let step : StepRecord :=
        { ToolName := stepName, Input := videoID, Output := result, Error := err }
      let output := { output with Steps := output.Steps ++ [step] }
      match err with
      | some e =>
        ⟨some output,
         some (.wrapError ("partial execution failed at " ++ stepName ++ ": " ++ e.Error) e),
         res.2⟩
      | none =>
        YtbToBiliChain.PartialExecute.loop videoID toolMap rest (i + 1)
          { output with Metadata := output.Metadata.set (stepName ++ "_result") (.str result) }
          res.2

/-- The method `YtbToBiliChain.PartialExecute`. -/
def YtbToBiliChain.PartialExecute (c : YtbToBiliChain) (input : ChainInput)
    (steps : List String) (tr : Trace) : Run :=
  let videoID := (assertString (input.Metadata.get "video_id")).1
  let ok := (assertString (input.Metadata.get "video_id")).2
  if !ok || videoID == "" then
    ⟨none, some (.errorString "video_id is required in metadata"), tr⟩
  else
    YtbToBiliChain.PartialExecute.loop videoID (c.toolMap videoID) steps 0
      { Result := "", Steps := [], Metadata := [] } tr

/-! ## `agent.go` and `agent_chain.go` -/

/-- The interface `agentic.Tool` with its third method `Description()`, which
only the planner-driven chain reads. -/
structure DescribedTool extends Tool where
  Description : String

/-- The interface `agentic.LLMClient` as far as the chains use it: `Chat`, given
the observable history at the moment of the call. -/
structure LLMClient where
  Chat : Trace → List Message → String × Option GoError

/-- The statement `response, err := c.agent.LLM.Chat(ctx, messages)`: runs the
planner on the history and records the call in the trace. -/
def LLMClient.invoke (l : LLMClient) (messages : List Message) (tr : Trace) :
    (String × Option GoError) × Trace :=
  let r := l.Chat (effects tr) messages
  (r, tr ++ [Event.chat ⟨messages, r.1, r.2⟩])

/-- The struct `agentic.Agent`.  The map `Tools` is an association list read by
key; `range` over it is taken in list order (Go leaves the order open). -/
structure Agent where
  Name : String
  Tools : List (String × DescribedTool)
  LLM : LLMClient
  MaxIterations : Int

/-- The struct `AgentAction` (the field `Type` is spelt `Type_`). -/
structure AgentAction where
  Type_ : String
  ToolName : String
  ToolInput : String
  Result : String
  Reasoning : String
deriving DecidableEq, Repr

/-- The struct `AgentChain`: the embedded `BaseChain` with its `agent`, and
`maxIterations`.  `unmarshal` is `json.Unmarshal` of the standard library at
type `AgentAction`, which is not code of this repository: the decoded action,
or the decoder's error. -/
structure AgentChain extends BaseChain where
  agent : Agent
  maxIterations : Int
  unmarshal : String → Except GoError AgentAction

/-- The constructor `NewAgentChain`. -/
def NewAgentChain (agent : Agent) (unmarshal : String → Except GoError AgentAction)
    (maxIterations : Int) : AgentChain :=
  let maxIterations := if maxIterations ≤ 0 then 10 else maxIterations
  { toBaseChain := NewBaseChain "agent_chain", agent := agent,
    maxIterations := maxIterations, unmarshal := unmarshal }

/-- The method `AgentChain.parseAction`. -/
def AgentChain.parseAction (c : AgentChain) (response : String) : Except GoError AgentAction :=
  match c.unmarshal response with
  | .error err => .error (.wrapError ("failed to parse response as JSON: " ++ err.Error) err)
  | .ok action => .ok action

/-- The method `AgentChain.buildSystemPrompt`. -/
def AgentChain.buildSystemPrompt (c : AgentChain) : String :=
  let toolsDesc := c.agent.Tools.foldl
    (fun acc p => acc ++ ("- " ++ p.1 ++ ": " ++ p.2.Description ++ "\n")) "可用工具:\n"
  "你是一个智能任务执行助手。你需要分析用户的任务，选择合适的工具按顺序执行。\n\n" ++
  toolsDesc ++
  "\n" ++
  "\n" ++
  "请以 JSON 格式回复，包含以下字段：\n" ++
  "\x7b\n" ++
  "  \"type\": \"tool\" 或 \"finish\",\n" ++
  "  \"tool_name\": \"工具名称（仅 type=tool 时）\",\n" ++
  "  \"tool_input\": \"工具输入（仅 type=tool 时）\",\n" ++
  "  \"result\": \"最终结果（仅 type=finish 时）\",\n" ++
  "  \"reasoning\": \"你的推理过程\"\n" ++
  "\x7d\n" ++
  "\n" ++
  "规则：\n" ++
  "1. 一次只调用一个工具\n" ++
  "2. 根据之前的工具输出决定下一步\n" ++
  "3. 完成任务后返回 type=finish\n" ++
  "4. 如果遇到错误，尝试其他方案或报告失败"

/-- The variables of the planning loop at the top of an iteration: the
counter `i`, `output`, `messages`, and the trace so far. -/
structure AgentState where
  i : Nat
  output : ChainOutput
  messages : List Message
  trace : Trace
deriving DecidableEq, Repr

/-- How one pass through a loop body ends: with a `return`, or at the end of
the body with the variables for the next iteration. -/
inductive Iteration where
  | returned (r : Run)
  | continued (s : AgentState)
deriving DecidableEq, Repr

/-- The body of the loop `for i := 0; i < c.maxIterations; i++` of
`AgentChain.Execute`. -/
def AgentChain.Execute.body (c : AgentChain) (s : AgentState) : Iteration :=
  let tr1 := logInfo s.trace "Agent iteration"
    [("iteration", toString (s.i + 1)), ("max", toString c.maxIterations)]
  let res := c.agent.LLM.invoke s.messages tr1
  let response := res.1.1
  match res.1.2 with
  | some err =>
    .returned ⟨some s.output,
      some (.wrapError ("LLM chat failed at iteration " ++ toString (s.i + 1) ++ ": " ++
        err.Error) err), res.2⟩
  | none =>
    match c.parseAction response with
    | .error err =>
      .returned ⟨some s.output,
        some (.wrapError ("failed to parse LLM response: " ++ err.Error) err), res.2⟩
    | .ok action =>
      if action.Type_ = "finish" then
        let output := { s.output with Result := action.Result }
        let tr2 := logInfo res.2 "Agent chain completed"
          [("iterations", toString (s.i + 1)), ("result", action.Result)]
        .returned ⟨some output, none, tr2⟩
      else if action.Type_ = "tool" then
        match c.agent.Tools.lookup action.ToolName with
        | none =>
          .returned ⟨some s.output, some (.errorString ("unknown tool: " ++ action.ToolName)),
            res.2⟩
        | some tool =>
          let tr2 := logInfo res.2 "Agent calling tool"
            [("tool", action.ToolName), ("input", action.ToolInput)]
          let r := tool.toTool.invoke action.ToolInput tr2
          let result := r.1.1
          let err := r.1.2
          let step : StepRecord :=
            { ToolName := action.ToolName, Input := action.ToolInput, Output := result,
              Error := err }
          let output := { s.output with Steps := s.output.Steps ++ [step] }
          let messages := s.messages ++ [⟨"assistant", response, ""⟩]
          let messages :=
            match err with
            | some e => messages ++ [⟨"tool", "Error: " ++ e.Error, action.ToolName⟩]
            | none => messages ++ [⟨"tool", result, action.ToolName⟩]
          .continued ⟨s.i + 1, output, messages, r.2⟩
      else
        .continued ⟨s.i + 1, s.output, s.messages, res.2⟩

/-- The loop of `AgentChain.Execute` with `remaining` iterations still to run
(`maxIterations - i`, or 0 when that is negative); the `0` case is the code
after the loop. -/
def AgentChain.Execute.loop (c : AgentChain) : Nat → AgentState → Run
  | 0, s =>
    ⟨some s.output,
      some (.errorString ("reached maximum iterations (" ++ toString c.maxIterations ++
        ") without completion")), s.trace⟩
  | remaining + 1, s =>
    match AgentChain.Execute.body c s with
    | .returned r => r
    | .continued s' => AgentChain.Execute.loop c remaining s'

/-- The loop variables of `AgentChain.Execute` when the loop is entered. -/
def AgentChain.initState (c : AgentChain) (input : ChainInput) (tr : Trace) : AgentState :=
  { i := 0
    output := { Result := "", Steps := [], Metadata := [] }
    messages := [⟨"system", c.buildSystemPrompt, ""⟩, ⟨"user", input.Query, ""⟩]
    trace := logInfo tr "Starting agent chain with LLM"
      [("query", input.Query), ("max_iterations", toString c.maxIterations)] }

/-- The method `AgentChain.Execute`. -/
def AgentChain.Execute (c : AgentChain) (input : ChainInput) (tr : Trace) : Run :=
  AgentChain.Execute.loop c c.maxIterations.toNat (c.initState input tr)

/-- The body of the loop of `AgentChain.ExecuteWithCallback`; `callback` tells
whether the argument `callback` is non-nil, and a call of it is recorded in
the trace. -/
def AgentChain.ExecuteWithCallback.body (c : AgentChain) (callback : Bool) (s : AgentState) :
    Iteration :=
  let res := c.agent.LLM.invoke s.messages s.trace
  let response := res.1.1
  match res.1.2 with
  | some err => .returned ⟨some s.output, some err, res.2⟩
  | none =>
    match c.parseAction response with
    | .error err => .returned ⟨some s.output, some err, res.2⟩
    | .ok action =>
      if action.Type_ = "finish" then
        .returned ⟨some { s.output with Result := action.Result }, none, res.2⟩
      else if action.Type_ = "tool" then
        match c.agent.Tools.lookup action.ToolName with
        | none =>
          .returned ⟨some s.output, some (.errorString ("unknown tool: " ++ action.ToolName)),
            res.2⟩
        | some tool =>
          let r := tool.toTool.invoke action.ToolInput res.2
          let result := r.1.1
          let err := r.1.2
          let step : StepRecord :=
            { ToolName := action.ToolName, Input := action.ToolInput, Output := result,
              Error := err }
          let output := { s.output with Steps := s.output.Steps ++ [step] }
          let progress : ℚ :=
            float64Mul (float64Div (float64OfInt ((s.i : Int) + 1))
              (float64OfInt c.maxIterations)) 100
          let tr2 := if callback then r.2 ++ [Event.callback step progress] else r.2
          let messages := s.messages ++
            [⟨"assistant", response, ""⟩, ⟨"tool", result, action.ToolName⟩]
          .continued ⟨s.i + 1, output, messages, tr2⟩
      else
        .continued ⟨s.i + 1, s.output, s.messages, res.2⟩

/-- The loop of `AgentChain.ExecuteWithCallback` with `remaining` iterations
still to run; the `0` case is the code after the loop. -/
def AgentChain.ExecuteWithCallback.loop (c : AgentChain) (callback : Bool) :
    Nat → AgentState → Run
  | 0, s => ⟨some s.output, some (.errorString "reached maximum iterations"), s.trace⟩
  | remaining + 1, s =>
    match AgentChain.ExecuteWithCallback.body c callback s with
    | .returned r => r
    | .continued s' => AgentChain.ExecuteWithCallback.loop c callback remaining s'

/-- The method `AgentChain.ExecuteWithCallback`. -/
def AgentChain.ExecuteWithCallback (c : AgentChain) (input : ChainInput) (callback : Bool)
    (tr : Trace) : Run :=
  AgentChain.ExecuteWithCallback.loop c callback c.maxIterations.toNat
    { i := 0
      output := { Result := "", Steps := [], Metadata := [] }
      messages := [⟨"system", c.buildSystemPrompt, ""⟩, ⟨"user", input.Query, ""⟩]
      trace := logInfo tr "Starting agent chain with callback" [] }

/-! ## Vocabulary of the statements -/

/-- What the tools of `plan` return when each is invoked once, in list order,
with its paired input, starting from history `h`: the invocation records, each
tool seeing the records before it.  This is the behaviour of the tools that a
sequential run meets for as long as it keeps calling. -/
def callAll : List (Tool × String) → Trace → List CallRec
  | [], _ => []
  | (t, inp) :: rest, h =>
    let r := t.Call h inp
    let c : CallRec := { tool := t.Name, input := inp, output := r.1, err := r.2 }
    c :: callAll rest (h ++ [Event.call c])

/-- The step record that documents an invocation. -/
def CallRec.toStep (c : CallRec) : StepRecord :=
  { ToolName := c.tool, Input := c.input, Output := c.output, Error := c.err }

/-- The seven pipeline names in pipeline order. -/
def pipelineNames : List String :=
  ["download_video", "download_thumbnail", "extract_audio", "generate_subtitle",
   "translate_subtitle", "generate_metadata", "upload_to_bilibili"]

/-- The invocations that a run stopping at the first failure makes, out of the
invocations `plan` that would be met: everything up to and including the first
failing one. -/
def throughFirstFailure : List CallRec → List CallRec
  | [] => []
  | c :: rest =>
    match c.err with
    | some _ => [c]
    | none => c :: throughFirstFailure rest

/-- The metadata after the successful invocations among `made` have been
recorded under `<name>_result`. -/
def recordResults : GoMap → List CallRec → GoMap
  | m, [] => m
  | m, c :: rest =>
    match c.err with
    | some _ => recordResults m rest
    | none => recordResults (m.set (c.tool ++ "_result") (.str c.output)) rest

/-- The error of `YtbToBiliChain.Execute` for a run that started at 0-based index
`i` and made the invocations `made`: none when the last invocation succeeded. -/
def executeError (i : Nat) (made : List CallRec) : Option GoError :=
  match made.getLast? with
  | none => none
  | some c =>
    c.err.map fun e =>
      .wrapError ("chain failed at step " ++ toString (i + made.length) ++ " (" ++ c.tool ++
        "): " ++ e.Error) e

/-- The error of `BaseChain.ExecuteToolSequence` for a run that made the
invocations `made`: none when the last invocation succeeded. -/
def sequenceError (made : List CallRec) : Option GoError :=
  match made.getLast? with
  | none => none
  | some c => c.err.map fun e => .wrapError ("tool " ++ c.tool ++ " failed: " ++ e.Error) e

/-- The value of `Result` after the code `if len(Steps) > 0 ...` that follows
the loops of `Execute` and `PartialExecute`. -/
def resultAfter (old : String) (steps : List StepRecord) : String :=
  match steps.getLast? with
  | none => old
  | some s => s.Output

/-- The value of the local `lastOutput` of `ExecuteToolSequence` after the
invocations `made`, all successful, starting from `last`. -/
def lastOutputAfter (last : String) (made : List CallRec) : String :=
  match made.getLast? with
  | none => last
  | some c => c.output

/-- The tools that `PartialExecute` resolves before it meets an unknown name,
each paired with the input it is given (the bare video id). -/
def resolveSteps (toolMap : List (String × Tool)) (videoID : String) :
    List String → List (Tool × String)
  | [] => []
  | stepName :: rest =>
    match toolMap.lookup stepName with
    | none => []
    | some tool => (tool, videoID) :: resolveSteps toolMap videoID rest

/-- The error of `YtbToBiliChain.PartialExecute` for step names `steps` when the
run made the invocations `made`: the failure of the last invocation, else the
unknown name at which resolution stopped, else none. -/
def partialError (steps : List String) (made : List CallRec) : Option GoError :=
  match made.getLast?.bind (fun c => c.err.map (fun e => (c.tool, e))) with
  | some (stepName, e) =>
    some (.wrapError ("partial execution failed at " ++ stepName ++ ": " ++ e.Error) e)
  | none => (steps.get? made.length).map fun stepName =>
    .errorString ("unknown step: " ++ stepName)

/-! ## Sample tool behaviours -/

/-- Sample bodies in which every tool succeeds and returns a fixed text. -/
def sampleBodies : ToolBodies where
  DownloadVideoTool := fun _ _ _ => ("video.mp4", none)
  DownloadThumbnailTool := fun _ _ _ => ("thumb.jpg", none)
  ExtractAudioTool := fun _ _ _ => ("audio.wav", none)
  GenerateSubtitleTool := fun _ _ _ => ("sub.srt", none)
  TranslateSubtitleTool := fun _ _ _ => ("sub_zh.srt", none)
  GenerateMetadataTool := fun _ _ _ => ("meta.json", none)
  UploadToBiliTool := fun _ _ _ => ("BV1xx411c7mD", none)

/-- Sample bodies in which the subtitle generator (position 4) always fails. -/
def subtitleFailsBodies : ToolBodies :=
  { sampleBodies with
    GenerateSubtitleTool := fun _ _ _ => ("", some (.errorString "whisper crashed")) }

/-- Sample bodies in which the download fails until two invocations have been
made and succeeds from then on. -/
def flakyBodies : ToolBodies :=
  { sampleBodies with
    DownloadVideoTool := fun _ h _ =>
      if h.length < 2 then ("", some (.errorString "network down")) else ("video.mp4", none) }

/-- Sample bodies in which the download always fails, reporting how many
invocations were made before. -/
def downBodies : ToolBodies :=
  { sampleBodies with
    DownloadVideoTool := fun _ h _ =>
      ("", some (.errorString ("network down #" ++ toString h.length))) }

/-- A sample input naming video `abc`. -/
def sampleInput : ChainInput :=
  { Query := "", Metadata := [("video_id", .str "abc")] }

/-- The input carries no usable video id: `metadata["video_id"]` is absent, is
not a string, or is the empty string. -/
def videoIDMissing (input : ChainInput) : Prop :=
  input.Metadata.get "video_id" = none ∨
  (∃ x, input.Metadata.get "video_id" = some x ∧ ∀ s, x ≠ Any.str s) ∨
  input.Metadata.get "video_id" = some (Any.str "")

/-- The missing-parameter error of `Execute` and `PartialExecute`. -/
def missingVideoIDError : GoError :=
  .errorString "video_id is required in metadata"

/-- A sample tool that always succeeds with output `out`. -/
def okTool (name out : String) : Tool :=
  { Name := name, Call := fun _ _ => (out, none) }

/-- A sample tool that always fails with message `msg`. -/
def failTool (name msg : String) : Tool :=
  { Name := name, Call := fun _ _ => ("", some (.errorString msg)) }

/-- The run of `Execute` number `n + 1` (so `attemptRun c input 0` is the first
run) when `Execute` is run over and over on the same input, one run after
the other, starting from trace `tr`. -/
def attemptRun (c : YtbToBiliChain) (input : ChainInput) : Nat → Trace → Run
  | 0, tr => c.Execute input tr
  | n + 1, tr => attemptRun c input n (c.Execute input tr).trace

/-- The number of `Execute` attempts that `ExecuteWithRetry` has announced in a
trace: its logger calls `Attempting chain execution`, one per attempt. -/
def attemptsLogged (tr : Trace) : Nat :=
  (logsWith "Attempting chain execution" tr).length

/-! ## Vocabulary for the planning loop -/

/-- The loop variables of `AgentChain.Execute` at the top of iteration `k + 1`
(so `stateAt c s0 0` is `s0`) when the loop is entered with variables `s0`, provided
the `k` iterations before it all reached the end of the loop body; `none` when
one of them returned.  The iteration cap is not looked at here. -/
def AgentChain.stateAt (c : AgentChain) (s0 : AgentState) : Nat → Option AgentState
  | 0 => some s0
  | k + 1 =>
    match AgentChain.stateAt c s0 k with
    | none => none
    | some s =>
      match AgentChain.Execute.body c s with
      | .returned _ => none
      | .continued s' => some s'

/-- What the planner's `Chat` returns in the iteration that starts with
variables `s`. -/
def AgentChain.responseAt (c : AgentChain) (s : AgentState) : String × Option GoError :=
  c.agent.LLM.Chat (effects s.trace) s.messages

/-- The action that the planner's response parses to in the iteration that
starts with variables `s`; `none` when the chat fails or the response does not
parse. -/
def AgentChain.actionAt (c : AgentChain) (s : AgentState) : Option AgentAction :=
  match (c.responseAt s).2 with
  | some _ => none
  | none =>
    match c.parseAction (c.responseAt s).1 with
    | .ok a => some a
    | .error _ => none

/-- The trace right after the planner call of the iteration that starts with
variables `s`. -/
def AgentChain.afterChat (c : AgentChain) (s : AgentState) : Trace :=
  (c.agent.LLM.invoke s.messages (logInfo s.trace "Agent iteration"
    [("iteration", toString (s.i + 1)), ("max", toString c.maxIterations)])).2

/-- What tool `t` returns when the iteration that starts with variables `s`
invokes it with the input of action `a`. -/
def AgentChain.toolResultAt (c : AgentChain) (s : AgentState) (a : AgentAction)
    (t : DescribedTool) : String × Option GoError :=
  t.Call (effects (c.afterChat s)) a.ToolInput

/-- The two messages that `AgentChain.Execute` appends to the conversation after
a tool invocation: the raw response as assistant message, then the tool
message with the output or the error text. -/
def toolMessages (response : String) (a : AgentAction) (res : String × Option GoError) :
    List Message :=
  [⟨"assistant", response, ""⟩,
   match res.2 with
   | some e => ⟨"tool", "Error: " ++ e.Error, a.ToolName⟩
   | none => ⟨"tool", res.1, a.ToolName⟩]

/-- A sample planner: its n-th call returns the n-th text of `script`, and it
fails once the script is used up. -/
def scriptedLLM (script : List String) : LLMClient :=
  { Chat := fun h _ =>
      match script.get? (chats h).length with
      | some r => (r, none)
      | none => ("", some (.errorString "planner unavailable")) }

/-- A sample response: finish with result `done`. -/
def finishText : String := "\x7b\"type\":\"finish\",\"result\":\"done\"\x7d"

/-- A sample response: invoke tool `a` on input `x`. -/
def toolAText : String :=
  "\x7b\"type\":\"tool\",\"tool_name\":\"a\",\"tool_input\":\"x\"\x7d"

/-- A sample response: invoke tool `b` on input `y`. -/
def toolBText : String :=
  "\x7b\"type\":\"tool\",\"tool_name\":\"b\",\"tool_input\":\"y\"\x7d"

/-- A sample response: invoke a tool `zip` that is not registered. -/
def toolZipText : String :=
  "\x7b\"type\":\"tool\",\"tool_name\":\"zip\",\"tool_input\":\"x\"\x7d"

/-- A sample response whose kind is neither `tool` nor `finish`. -/
def thinkText : String := "\x7b\"type\":\"think\"\x7d"

/-- A sample decoder that knows the sample responses and rejects every other
text. -/
def sampleUnmarshal (response : String) : Except GoError AgentAction :=
  if response = finishText then .ok ⟨"finish", "", "", "done", ""⟩
  else if response = toolAText then .ok ⟨"tool", "a", "x", "", ""⟩
  else if response = toolBText then .ok ⟨"tool", "b", "y", "", ""⟩
  else if response = toolZipText then .ok ⟨"tool", "zip", "x", "", ""⟩
  else if response = thinkText then .ok ⟨"think", "", "", "", ""⟩
  else .error (.errorString "invalid character")

/-- A sample agent with two tools, `a` that succeeds and `b` that fails, and a
scripted planner. -/
def sampleAgent (script : List String) : Agent :=
  { Name := "sample"
    Tools := [("a", { toTool := okTool "a" "1", Description := "first" }),
              ("b", { toTool := failTool "b" "boom", Description := "second" })]
    LLM := scriptedLLM script
    MaxIterations := 10 }

/-- A sample input with query `go`. -/
def sampleQuery : ChainInput :=
  { Query := "go", Metadata := [] }

/-- A sample planner-driven chain over the sample agent. -/
def sampleChain (script : List String) (maxIterations : Int) : AgentChain :=
  NewAgentChain (sampleAgent script) sampleUnmarshal maxIterations

/-! ## Vocabulary for the loop with a progress callback -/

/-- The calls of the progress callback recorded in a trace, oldest first, each
with its two arguments. -/
def callbacks : Trace → List (StepRecord × ℚ)
  | [] => []
  | Event.callback step progress :: rest => (step, progress) :: callbacks rest
  | _ :: rest => callbacks rest

/-- The progress that the iteration with counter `i` of the loop of
`ExecuteWithCallback` passes to the callback: the `float64` value of
`float64(i+1) / float64(c.maxIterations) * 100`. -/
def AgentChain.progressAt (c : AgentChain) (i : Nat) : ℚ :=
  float64Mul (float64Div (float64OfInt ((i : Int) + 1)) (float64OfInt c.maxIterations)) 100

/-- The events of one iteration of the loop of `ExecuteWithCallback` run with a
callback, for the iteration with counter `i = j`: either the planner call
alone, or the planner call whose response parses to a `tool` action naming a
registered tool, the invocation of that tool on the action's input, and the
callback on the step record of that invocation with the `float64` progress
`float64(j + 1) / float64(maxIterations) * 100`. -/
def AgentChain.callbackBlock (c : AgentChain) (j : Nat) (blk : List Event) : Prop :=
  (∃ ch, blk = [Event.chat ch]) ∨
  (∃ ch cr a t, ch.err = none ∧ c.parseAction ch.response = .ok a ∧ a.Type_ = "tool" ∧
    c.agent.Tools.lookup a.ToolName = some t ∧ cr.tool = t.Name ∧ cr.input = a.ToolInput ∧
    blk = [Event.chat ch, Event.call cr,
      Event.callback ⟨a.ToolName, a.ToolInput, cr.output, cr.err⟩ (c.progressAt j)])

/-- A sample planner that reads the conversation: it asks for tool `b` until
the last message of the conversation reports the error of that tool, and
finishes then. -/
def cautiousLLM : LLMClient :=
  { Chat := fun _ messages =>
      match messages.getLast? with
      | some m => if m.Content = "Error: boom" then (finishText, none) else (toolBText, none)
      | none => (toolBText, none) }

/-- The sample planner-driven chain with the cautious planner. -/
def cautiousChain (maxIterations : Int) : AgentChain :=
  NewAgentChain { sampleAgent [] with LLM := cautiousLLM } sampleUnmarshal maxIterations

/-- A sample planner that asks for tool `a` on every call. -/
def steadyLLM : LLMClient :=
  { Chat := fun _ _ => (toolAText, none) }

/-- The sample planner-driven chain with the steady planner. -/
def steadyChain (maxIterations : Int) : AgentChain :=
  NewAgentChain { sampleAgent [] with LLM := steadyLLM } sampleUnmarshal maxIterations

/-- The method `YtbToBiliChain.GetProgress`; `output` is `none` for a nil pointer.
The result is a `float64`, held as the rational it stands for. -/
def YtbToBiliChain.GetProgress (_c : YtbToBiliChain) (output : Option ChainOutput) : ℚ :=
  let totalSteps : Int := 7
  match output with
  | none => 0
  | some output =>
    let completedSteps : Int := output.Steps.length
    float64Mul (float64Div (float64OfInt completedSteps) (float64OfInt totalSteps)) 100

/-! ## `examples.go`: the chain manager -/

/-- The interface `Chain`: `Name()` and `Execute(ctx, input)`. -/
structure Chain where
  Name : String
  Execute : ChainInput → Trace → Run

/-- A `*YtbToBiliChain` as a value of the interface `Chain`; `Name` is the
promoted method `BaseChain.Name`. -/
def YtbToBiliChain.toChain (c : YtbToBiliChain) : Chain :=
  { Name := c.toBaseChain.Name, Execute := c.Execute }

/-- A `*AgentChain` as a value of the interface `Chain`; `Name` is the promoted
method `BaseChain.Name`. -/
def AgentChain.toChain (c : AgentChain) : Chain :=
  { Name := c.toBaseChain.Name, Execute := c.Execute }

/-- The write `chains[k] = v` on a `map[string]Chain` held as an association
list: replaces the entry of `k` when there is one, adds one otherwise. -/
def setChain : List (String × Chain) → String → Chain → List (String × Chain)
  | [], k, v => [(k, v)]
  | (k0, v0) :: rest, k, v =>
    if k0 = k then (k, v) :: rest else (k0, v0) :: setChain rest k v

/-- The struct `ChainManager`: its `agent` and the map `chains` (`app` and
`logger` are live and appear only through their effects). -/
structure ChainManager where
  agent : Agent
  chains : List (String × Chain)

/-- The constructor `llm.NewOpenAICompatibleClient`.  `lib` is what `openai.New`
of the langchaingo library returns: an error, or a model, given by the `Chat`
behaviour of the client built around it. -/
def NewOpenAICompatibleClient (lib : Except GoError LLMClient) (baseURL model : String)
    (tr : Trace) : Except GoError LLMClient × Trace :=
  match lib with
  | .error err =>
    (.error (.wrapError ("failed to create OpenAI-compatible client: " ++ err.Error) err), tr)
  | .ok client =>
    (.ok client,
      logInfo tr "OpenAI-compatible client created" [("base_url", baseURL), ("model", model)])

/-- The constructor `NewChainManager`.  `b` holds the tool bodies reached
through `app`, `description` gives the `Description()` text of each tool of
package `tools` by name, `baseURL` and `model` are the values of
`app.Config.LLM`, and `lib` and `unmarshal` are the two library functions. -/
def NewChainManager (b : ToolBodies) (description : String → String)
    (unmarshal : String → Except GoError AgentAction) (lib : Except GoError LLMClient)
    (baseURL model : String) (tr : Trace) : Option ChainManager × Option GoError × Trace :=
  match NewOpenAICompatibleClient lib baseURL model tr with
  | (.error err, tr1) =>
    (none, some (.wrapError ("failed to create LLM client: " ++ err.Error) err), tr1)
  | (.ok llmClient, tr1) =>
    let videoID := "example_video_id"
    let agent : Agent :=
      { Name := "ytb2bili_agent"
        Tools :=
          [ ("download_video",
              ⟨NewDownloadVideoTool b videoID, description "download_video"⟩),
            ("download_thumbnail",
              ⟨NewDownloadThumbnailTool b videoID, description "download_thumbnail"⟩),
            ("extract_audio",
              ⟨NewExtractAudioTool b videoID, description "extract_audio"⟩),
            ("generate_subtitle",
              ⟨NewGenerateSubtitleTool b videoID, description "generate_subtitle"⟩),
            ("translate_subtitle",
              ⟨NewTranslateSubtitleTool b videoID, description "translate_subtitle"⟩),
            ("generate_metadata",
              ⟨NewGenerateMetadataTool b videoID, description "generate_metadata"⟩),
            ("upload_to_bilibili",
              ⟨NewUploadToBiliTool b videoID, description "upload_to_bilibili"⟩) ]
        LLM := llmClient
        MaxIterations := 10 }
    let chains : List (String × Chain) := []
    let chains := setChain chains "ytb_to_bili" (NewYtbToBiliChain b).toChain
    let chains := setChain chains "agent" (NewAgentChain agent unmarshal 10).toChain
    let tr2 := logInfo tr1 "Chain manager initialized" [("chain_count", toString chains.length)]
    (some { agent := agent, chains := chains }, none, tr2)

/-- The method `ChainManager.GetChain`. -/
def ChainManager.GetChain (m : ChainManager) (name : String) : Option Chain × Option GoError :=
  match m.chains.lookup name with
  | none => (none, some (.errorString ("chain not found: " ++ name)))
  | some chain => (some chain, none)

/-- The method `ChainManager.RegisterChain`. -/
def ChainManager.RegisterChain (m : ChainManager) (chain : Chain) (tr : Trace) :
    ChainManager × Trace :=
  ({ m with chains := setChain m.chains chain.Name chain },
    logInfo tr "Chain registered" [("name", chain.Name)])

/-- The method `ChainManager.ListChains`; `range` over the map is taken in list
order (Go leaves the order open). -/
def ChainManager.ListChains (m : ChainManager) : List String :=
  m.chains.foldl (fun names p => names ++ [p.1]) []

/-- The manager after the chains `cs` have been registered one after the
other. -/
def registerAll (m : ChainManager) : List Chain → Trace → ChainManager × Trace
  | [], tr => (m, tr)
  | c :: cs, tr => registerAll (m.RegisterChain c tr).1 cs (m.RegisterChain c tr).2

/-- A sample manager: the one that `NewChainManager` returns over the sample
bodies and a scripted planner. -/
def sampleManager : ChainManager :=
  match (NewChainManager sampleBodies (fun _ => "") sampleUnmarshal
      (.ok (scriptedLLM [finishText])) "http://localhost" "test-model" []).1 with
  | some m => m
  | none => { agent := sampleAgent [], chains := [] }

/-! ## `ToJSON`, and `encoding/json` on the types of `chain.go` -/

/-- A JSON document as a tree.  The text that `json.MarshalIndent` writes and
that `json.Unmarshal` reads stands for such a tree; the development works on
the tree and leaves the writing and reading of the text to the library. -/
inductive JSON where
  | null
  | bool (b : Bool)
  | number (n : Int)
  | string (s : String)
  | array (items : List JSON)
  | object (members : List (String × JSON))

/-- What `encoding/json` writes for a metadata value. -/
def Any.toJSON : Any → JSON
  | .null => .null
  | .str s => .string s
  | .int n => .number n
  | .bool b => .bool b

/-- What `encoding/json` writes for a field of the interface type `error`: `null`
for nil, and for a non-nil error its dynamic value.  The errors of `errors.New`
and `fmt.Errorf` are pointers to structs without exported fields, which are
written as the empty object. -/
def errorToJSON : Option GoError → JSON
  | none => .null
  | some _ => .object []

/-- What `encoding/json` writes for a `StepRecord`: the struct declares no field
tags, so there is one member per exported field, under the name of the field,
in declaration order. -/
def StepRecord.toJSON (s : StepRecord) : JSON :=
  .object [("ToolName", .string s.ToolName), ("Input", .string s.Input),
    ("Output", .string s.Output), ("Error", errorToJSON s.Error)]

/-- What `encoding/json` writes for a `ChainOutput` whose slice and map are not
nil (the chains build them with `make`).  The members of the metadata object
are kept in the order of the association list; the library writes them
sorted by key. -/
def ChainOutput.toJSON (o : ChainOutput) : JSON :=
  .object [("Result", .string o.Result), ("Steps", .array (o.Steps.map StepRecord.toJSON)),
    ("Metadata", .object (o.Metadata.map fun p => (p.1, p.2.toJSON)))]

/-- The call `json.MarshalIndent(output, "", "  ")`.  It can fail only on values
that have no JSON form, which `Any` does not hold. -/
def marshalIndent (output : ChainOutput) : Except GoError JSON :=
  .ok output.toJSON

/-- The method `ChainOutput.ToJSON`; the document is `none` where the code
returns the empty text. -/
def ChainOutput.ToJSON (output : ChainOutput) : Option JSON × Option GoError :=
  match marshalIndent output with
  | .error err => (none, some err)
  | .ok data => (some data, none)

/-- The member of a JSON object that `json.Unmarshal` stores into the struct
field `name`: the last member with that key. -/
def fieldOf (members : List (String × JSON)) (name : String) : Option JSON :=
  members.reverse.lookup name

/-- How `json.Unmarshal` fills a field of type `string` that starts empty; the
outer `none` stands for the error it returns. -/
def decodeString : Option JSON → Option String
  | none => some ""
  | some .null => some ""
  | some (.string s) => some s
  | some _ => none

/-- How `json.Unmarshal` fills a field of the interface type `error` that starts
nil: `null` leaves it nil, and no other value can be stored in an interface
that has methods. -/
def decodeError : Option JSON → Option (Option GoError)
  | none => some none
  | some .null => some none
  | some _ => none

/-- How `json.Unmarshal` fills a `StepRecord`. -/
def decodeStep : JSON → Option StepRecord
  | .null => some ⟨"", "", "", none⟩
  | .object members =>
    match decodeString (fieldOf members "ToolName"), decodeString (fieldOf members "Input"),
      decodeString (fieldOf members "Output"), decodeError (fieldOf members "Error") with
    | some toolName, some input, some output, some err => some ⟨toolName, input, output, err⟩
    | _, _, _, _ => none
  | _ => none

/-- How `json.Unmarshal` fills the elements of a `[]StepRecord`. -/
def decodeSteps : List JSON → Option (List StepRecord)
  | [] => some []
  | item :: rest =>
    match decodeStep item, decodeSteps rest with
    | some step, some steps => some (step :: steps)
    | _, _ => none

/-- How `json.Unmarshal` fills a value of type `interface{}` from a scalar (a
number becomes a `float64`, kept here as the integer it stands for).  Arrays
and objects, which `Any` does not hold and `ToJSON` does not write, are left
out. -/
def decodeAny : JSON → Option Any
  | .null => some .null
  | .bool b => some (.bool b)
  | .number n => some (.int n)
  | .string s => some (.str s)
  | _ => none

/-- How `json.Unmarshal` fills a `map[string]interface{}`, member by member. -/
def decodeMembers : List (String × JSON) → GoMap → Option GoMap
  | [], m => some m
  | (key, value) :: rest, m =>
    match decodeAny value with
    | none => none
    | some v => decodeMembers rest (m.set key v)

/-- The call `json.Unmarshal(data, &output)` on a fresh `ChainOutput`; `none`
stands for the error it returns. -/
def unmarshalOutput : JSON → Option ChainOutput
  | .null => some ⟨"", [], []⟩
  | .object members =>
    let steps : Option (List StepRecord) :=
      match fieldOf members "Steps" with
      | none => some []
      | some .null => some []
      | some (.array items) => decodeSteps items
      | some _ => none
    let metadata : Option GoMap :=
      match fieldOf members "Metadata" with
      | none => some []
      | some .null => some []
      | some (.object ms) => decodeMembers ms []
      | some _ => none
    match decodeString (fieldOf members "Result"), steps, metadata with
    | some result, some steps, some metadata => some ⟨result, steps, metadata⟩
    | _, _, _ => none
  | _ => none

/-- A sample output whose only step record carries a failure. -/
def failedOutput : ChainOutput :=
  { Result := ""
    Steps := [⟨"download_video", "abc", "", some (.errorString "network down")⟩]
    Metadata := [] }

/-! ## Basic facts about traces -/

theorem calls_append (a b : Trace) : calls (a ++ b) = calls a ++ calls b := by
  induction a with
  | nil => rfl
  | cons e rest ih => cases e <;> simp [calls, ih]

theorem effects_append (a b : Trace) : effects (a ++ b) = effects a ++ effects b := by
  induction a with
  | nil => rfl
  | cons e rest ih => cases e <;> simp [effects, ih]

theorem logsWith_append (msg : String) (a b : Trace) :
    logsWith msg (a ++ b) = logsWith msg a ++ logsWith msg b := by
  induction a with
  | nil => rfl
  | cons e rest ih =>
    cases e with
    | log l => by_cases h : l.msg = msg <;> simp [logsWith, ih, h]
    | _ => simp [logsWith, ih]

theorem calls_effects (tr : Trace) : calls (effects tr) = calls tr := by
  induction tr with
  | nil => rfl
  | cons e rest ih => cases e <;> simp [effects, calls, ih]

@[simp] theorem calls_logInfo (tr : Trace) (m : String) (f : List (String × String)) :
    calls (logInfo tr m f) = calls tr := by
  simp [logInfo, calls_append, calls]

@[simp] theorem calls_logWarn (tr : Trace) (m : String) (f : List (String × String)) :
    calls (logWarn tr m f) = calls tr := by
  simp [logWarn, calls_append, calls]

@[simp] theorem calls_logError (tr : Trace) (m : String) (f : List (String × String)) :
    calls (logError tr m f) = calls tr := by
  simp [logError, calls_append, calls]

@[simp] theorem effects_logInfo (tr : Trace) (m : String) (f : List (String × String)) :
    effects (logInfo tr m f) = effects tr := by
  simp [logInfo, effects_append, effects]

@[simp] theorem effects_logWarn (tr : Trace) (m : String) (f : List (String × String)) :
    effects (logWarn tr m f) = effects tr := by
  simp [logWarn, effects_append, effects]

@[simp] theorem effects_logError (tr : Trace) (m : String) (f : List (String × String)) :
    effects (logError tr m f) = effects tr := by
  simp [logError, effects_append, effects]

@[simp] theorem invoke_fst (t : Tool) (inp : String) (tr : Trace) :
    (t.invoke inp tr).1 = t.Call (effects tr) inp := rfl

@[simp] theorem calls_invoke (t : Tool) (inp : String) (tr : Trace) :
    calls (t.invoke inp tr).2 =
      calls tr ++ [⟨t.Name, inp, (t.Call (effects tr) inp).1, (t.Call (effects tr) inp).2⟩] := by
  simp [Tool.invoke, calls_append, calls]

@[simp] theorem effects_invoke (t : Tool) (inp : String) (tr : Trace) :
    effects (t.invoke inp tr).2 =
      effects tr ++
        [Event.call ⟨t.Name, inp, (t.Call (effects tr) inp).1, (t.Call (effects tr) inp).2⟩] := by
  simp [Tool.invoke, effects_append, effects]

/-! ## Facts about `callAll` and `throughFirstFailure` -/

theorem callAll_length (plan : List (Tool × String)) (h : Trace) :
    (callAll plan h).length = plan.length := by
  induction plan generalizing h with
  | nil => rfl
  | cons p rest ih => obtain ⟨t, inp⟩ := p; simp [callAll, ih]

theorem callAll_names (plan : List (Tool × String)) (h : Trace) :
    (callAll plan h).map (fun c => (c.tool, c.input)) = plan.map (fun p => (p.1.Name, p.2)) := by
  induction plan generalizing h with
  | nil => rfl
  | cons p rest ih => obtain ⟨t, inp⟩ := p; simp [callAll, ih]

theorem throughFirstFailure_of_ok (plan : List CallRec) (h : ∀ c ∈ plan, c.err = none) :
    throughFirstFailure plan = plan := by
  induction plan with
  | nil => rfl
  | cons c rest ih =>
    have hc : c.err = none := h c (by simp)
    have hr : ∀ x ∈ rest, x.err = none := fun x hx => h x (by simp [hx])
    simp [throughFirstFailure, hc, ih hr]

theorem throughFirstFailure_of_fail (plan : List CallRec) (k : Nat) (e : GoError)
    (hk : plan[k]?.bind (fun c => c.err) = some e)
    (hlt : ∀ j, j < k → plan[j]?.bind (fun c => c.err) = none) :
    throughFirstFailure plan = plan.take (k + 1) := by
  induction plan generalizing k with
  | nil => simp at hk
  | cons c rest ih =>
    cases k with
    | zero =>
      simp at hk
      simp [throughFirstFailure, hk]
    | succ k =>
      have h0 := hlt 0 (by omega)
      simp at h0
      have hk2 : rest[k]?.bind (fun c => c.err) = some e := by simpa using hk
      have hlt2 : ∀ j, j < k → rest[j]?.bind (fun c => c.err) = none := by
        intro j hj
        have := hlt (j + 1) (by omega)
        simpa using this
      simp [throughFirstFailure, h0, ih k hk2 hlt2]

theorem mem_of_mem_throughFirstFailure (plan : List CallRec) :
    ∀ x ∈ throughFirstFailure plan, x ∈ plan := by
  induction plan with
  | nil => simp [throughFirstFailure]
  | cons c rest ih =>
    intro x hx
    cases hc : c.err with
    | some e =>
      simp [throughFirstFailure, hc] at hx
      simp [hx]
    | none =>
      simp [throughFirstFailure, hc] at hx
      rcases hx with hx | hx
      · simp [hx]
      · simp [ih x hx]

theorem executeError_of_ok (i : Nat) (made : List CallRec) (h : ∀ x ∈ made, x.err = none) :
    executeError i made = none := by
  unfold executeError
  cases hl : made.getLast? with
  | none => rfl
  | some c => simp [h c (List.mem_of_getLast?_eq_some hl)]

theorem sequenceError_of_ok (made : List CallRec) (h : ∀ x ∈ made, x.err = none) :
    sequenceError made = none := by
  unfold sequenceError
  cases hl : made.getLast? with
  | none => rfl
  | some c => simp [h c (List.mem_of_getLast?_eq_some hl)]

theorem getLast?_take_succ {α : Type} (l : List α) (k : Nat) (hk : k < l.length) :
    (l.take (k + 1)).getLast? = l[k]? := by
  rw [List.getLast?_eq_getElem?]
  simp [List.length_take, Nat.min_eq_left (Nat.succ_le_of_lt hk), List.getElem?_take]

theorem toolChain_names (c : YtbToBiliChain) (v : String) :
    (c.toolChain v).map (fun p => (p.1.Name, p.2)) =
      [("download_video", v), ("download_thumbnail", v), ("extract_audio", v),
       ("generate_subtitle", v), ("translate_subtitle", translateInput v),
       ("generate_metadata", v), ("upload_to_bilibili", v)] := rfl

theorem callAll_toolChain_length (c : YtbToBiliChain) (v : String) (h : Trace) :
    (callAll (c.toolChain v) h).length = 7 := by
  rw [callAll_length]; rfl

theorem callAll_toolChain_tools (c : YtbToBiliChain) (v : String) (h : Trace) :
    (callAll (c.toolChain v) h).map (fun x => x.tool) = pipelineNames := by
  have := congrArg (List.map Prod.fst) (callAll_names (c.toolChain v) h)
  rw [toolChain_names] at this
  simpa [pipelineNames, Function.comp_def] using this

theorem executeError_cons_ok (i : Nat) (c : CallRec) (made : List CallRec)
    (hc : c.err = none) : executeError i (c :: made) = executeError (i + 1) made := by
  cases made with
  | nil => simp [executeError, hc]
  | cons d ds =>
    have h1 : i + (ds.length + 1 + 1) = i + 1 + (ds.length + 1) := by omega
    simp [executeError, List.getLast?_cons_cons, h1]

theorem sequenceError_cons (c : CallRec) (made : List CallRec)
    (hne : made ≠ []) : sequenceError (c :: made) = sequenceError made := by
  cases made with
  | nil => exact absurd rfl hne
  | cons d ds => simp [sequenceError, List.getLast?_cons_cons]

theorem finish_result (output : ChainOutput) :
    (if h : output.Steps.length > 0 then
        { output with Result := (output.Steps[output.Steps.length - 1]).Output }
      else output) =
      { output with Result := resultAfter output.Result output.Steps } := by
  by_cases h : output.Steps.length > 0
  · have hl : output.Steps.getLast? = some (output.Steps[output.Steps.length - 1]) := by
      rw [List.getLast?_eq_getElem?]
      exact List.getElem?_eq_getElem (by omega)
    simp [h, resultAfter, hl]
  · have hnil : output.Steps = [] := by
      cases hs : output.Steps with
      | nil => rfl
      | cons a b => simp [hs] at h
    cases output
    simp_all [resultAfter]

/-! ## What the loops compute -/

/-- The loop of `YtbToBiliChain.Execute` makes exactly the invocations up to the
first failure, records one step per invocation, and reports the failure. -/
theorem Execute_loop_spec (videoID : String) (total : Nat) (rest : List (Tool × String)) :
    ∀ (i : Nat) (output : ChainOutput) (tr : Trace),
      calls (YtbToBiliChain.Execute.loop videoID total rest i output tr).trace =
          calls tr ++ throughFirstFailure (callAll rest (effects tr)) ∧
      (YtbToBiliChain.Execute.loop videoID total rest i output tr).err =
          executeError i (throughFirstFailure (callAll rest (effects tr))) ∧
      (YtbToBiliChain.Execute.loop videoID total rest i output tr).out = some
        { Result :=
            if (executeError i (throughFirstFailure (callAll rest (effects tr)))).isSome then
              output.Result
            else resultAfter output.Result (output.Steps ++
              (throughFirstFailure (callAll rest (effects tr))).map CallRec.toStep)
          Steps := output.Steps ++
            (throughFirstFailure (callAll rest (effects tr))).map CallRec.toStep
          Metadata := recordResults output.Metadata
            (throughFirstFailure (callAll rest (effects tr))) } := by
  induction rest with
  | nil =>
    intro i output tr
    simp only [YtbToBiliChain.Execute.loop, finish_result]
    simp [callAll, throughFirstFailure, executeError, recordResults]
  | cons tc rest ih =>
    intro i output tr
    obtain ⟨t, inp⟩ := tc
    cases herr : (t.Call (effects tr) inp).2 with
    | some e =>
      simp [YtbToBiliChain.Execute.loop, callAll, throughFirstFailure, herr, executeError,
        recordResults, CallRec.toStep]
    | none =>
      have hc : (⟨t.Name, inp, (t.Call (effects tr) inp).1, (t.Call (effects tr) inp).2⟩ :
          CallRec).err = none := herr
      obtain ⟨h1, h2, h3⟩ := ih (i + 1)
        { Result := output.Result
          Steps := output.Steps ++
            [⟨t.Name, inp, (t.Call (effects tr) inp).1, (t.Call (effects tr) inp).2⟩]
          Metadata := output.Metadata.set (t.Name ++ "_result")
            (.str (t.Call (effects tr) inp).1) }
        (t.invoke inp (logInfo tr "Executing tool"
          [("step", toString (i + 1)), ("total", toString total), ("tool", t.Name)])).2
      simp only [effects_invoke, effects_logInfo, calls_invoke, calls_logInfo, herr]
        at h1 h2 h3 hc
      refine ⟨?_, ?_, ?_⟩
      · simp only [YtbToBiliChain.Execute.loop, invoke_fst, effects_logInfo, herr]
        rw [h1]
        simp [callAll, throughFirstFailure, herr]
      · simp only [YtbToBiliChain.Execute.loop, invoke_fst, effects_logInfo, herr]
        rw [h2]
        simp only [callAll, throughFirstFailure, herr]
        rw [executeError_cons_ok _ _ _ rfl]
      · simp only [YtbToBiliChain.Execute.loop, invoke_fst, effects_logInfo, herr]
        rw [h3]
        simp only [callAll, throughFirstFailure, herr]
        rw [executeError_cons_ok _ _ _ rfl]
        simp [recordResults, CallRec.toStep]

/-- The loop of `BaseChain.ExecuteToolSequence` makes exactly the invocations up
to the first failure, records one step per invocation, and reports the
failure. -/
theorem ExecuteToolSequence_loop_spec (c : BaseChain) (total : Nat) (inputs : List String)
    (rest : List Tool) :
    ∀ (i : Nat) (output : ChainOutput) (last : String) (tr : Trace),
      i + rest.length ≤ inputs.length →
      calls (BaseChain.ExecuteToolSequence.loop c total inputs rest i output last tr).trace =
          calls tr ++ throughFirstFailure (callAll (rest.zip (inputs.drop i)) (effects tr)) ∧
      (BaseChain.ExecuteToolSequence.loop c total inputs rest i output last tr).err =
          sequenceError (throughFirstFailure (callAll (rest.zip (inputs.drop i)) (effects tr))) ∧
      (BaseChain.ExecuteToolSequence.loop c total inputs rest i output last tr).out = some
        { Result :=
            if (sequenceError
                (throughFirstFailure (callAll (rest.zip (inputs.drop i)) (effects tr)))).isSome
            then output.Result
            else lastOutputAfter last
              (throughFirstFailure (callAll (rest.zip (inputs.drop i)) (effects tr)))
          Steps := output.Steps ++
            (throughFirstFailure (callAll (rest.zip (inputs.drop i)) (effects tr))).map
              CallRec.toStep
          Metadata := output.Metadata } := by
  induction rest with
  | nil =>
    intro i output last tr _
    simp [BaseChain.ExecuteToolSequence.loop, callAll, throughFirstFailure, sequenceError,
      lastOutputAfter]
  | cons t rest ih =>
    intro i output last tr hlen
    have hi : i < inputs.length := by simp at hlen; omega
    have hdrop : inputs.drop i = inputs[i] :: inputs.drop (i + 1) :=
      List.drop_eq_getElem_cons hi
    have hget : inputs.getD i "" = inputs[i] := by
      simp [List.getD_eq_getElem?_getD, List.getElem?_eq_getElem hi]
    rw [hdrop, List.zip_cons_cons]
    cases herr : (t.Call (effects tr) inputs[i]).2 with
    | some e =>
      simp only [BaseChain.ExecuteToolSequence.loop, hget, invoke_fst, effects_logInfo, herr]
      simp [callAll, throughFirstFailure, herr, sequenceError, CallRec.toStep]
    | none =>
      obtain ⟨h1, h2, h3⟩ := ih (i + 1)
        { Result := output.Result
          Steps := output.Steps ++
            [⟨t.Name, inputs[i], (t.Call (effects tr) inputs[i]).1, none⟩]
          Metadata := output.Metadata }
        (t.Call (effects tr) inputs[i]).1
        (t.invoke inputs[i] (logInfo tr "Executing tool in chain"
          [("chain", c.name), ("tool", t.Name), ("step", toString (i + 1)),
            ("total", toString total)])).2
        (by simp at hlen; omega)
      simp only [effects_invoke, effects_logInfo, calls_invoke, calls_logInfo, herr]
        at h1 h2 h3
      refine ⟨?_, ?_, ?_⟩
      · simp only [BaseChain.ExecuteToolSequence.loop, invoke_fst, effects_logInfo, herr, hget]
        rw [h1]
        simp [callAll, throughFirstFailure, herr]
      · simp only [BaseChain.ExecuteToolSequence.loop, invoke_fst, effects_logInfo, herr, hget]
        rw [h2]
        simp only [callAll, throughFirstFailure, herr]
        cases hm : throughFirstFailure (callAll (rest.zip (inputs.drop (i + 1)))
            (effects tr ++ [Event.call ⟨t.Name, inputs[i],
              (t.Call (effects tr) inputs[i]).1, none⟩])) with
        | nil => simp [sequenceError]
        | cons d ds => rw [sequenceError_cons _ (d :: ds) (List.cons_ne_nil _ _)]
      · simp only [BaseChain.ExecuteToolSequence.loop, invoke_fst, effects_logInfo, herr, hget]
        rw [h3]
        simp only [callAll, throughFirstFailure, herr]
        cases hm : throughFirstFailure (callAll (rest.zip (inputs.drop (i + 1)))
            (effects tr ++ [Event.call ⟨t.Name, inputs[i],
              (t.Call (effects tr) inputs[i]).1, none⟩])) with
        | nil => simp [sequenceError, lastOutputAfter, CallRec.toStep]
        | cons d ds =>
          rw [sequenceError_cons _ (d :: ds) (List.cons_ne_nil _ _)]
          obtain ⟨x, hx⟩ : ∃ x, (d :: ds).getLast? = some x :=
            ⟨_, List.getLast?_eq_getLast _ (List.cons_ne_nil _ _)⟩
          simp [lastOutputAfter, CallRec.toStep, List.getLast?_cons_cons, hx]

theorem partialError_cons_ok (n : String) (steps : List String) (c : CallRec)
    (made : List CallRec) (hc : c.err = none) :
    partialError (n :: steps) (c :: made) = partialError steps made := by
  cases made with
  | nil => simp [partialError, hc]
  | cons d ds => simp [partialError, List.getLast?_cons_cons]

/-- The loop of `YtbToBiliChain.PartialExecute` makes exactly the invocations of
the resolved tools up to the first failure, records one step per
invocation, and reports the failure or the unknown name. -/
theorem PartialExecute_loop_spec (videoID : String) (toolMap : List (String × Tool))
    (hmap : ∀ n t, toolMap.lookup n = some t → t.Name = n) (steps : List String) :
    ∀ (i : Nat) (output : ChainOutput) (tr : Trace),
      calls (YtbToBiliChain.PartialExecute.loop videoID toolMap steps i output tr).trace =
          calls tr ++
            throughFirstFailure (callAll (resolveSteps toolMap videoID steps) (effects tr)) ∧
      (YtbToBiliChain.PartialExecute.loop videoID toolMap steps i output tr).err =
          partialError steps
            (throughFirstFailure (callAll (resolveSteps toolMap videoID steps) (effects tr))) ∧
      (YtbToBiliChain.PartialExecute.loop videoID toolMap steps i output tr).out = some
        { Result :=
            if (partialError steps (throughFirstFailure
                (callAll (resolveSteps toolMap videoID steps) (effects tr)))).isSome
            then output.Result
            else resultAfter output.Result (output.Steps ++
              (throughFirstFailure
                (callAll (resolveSteps toolMap videoID steps) (effects tr))).map CallRec.toStep)
          Steps := output.Steps ++
            (throughFirstFailure
              (callAll (resolveSteps toolMap videoID steps) (effects tr))).map CallRec.toStep
          Metadata := recordResults output.Metadata
            (throughFirstFailure (callAll (resolveSteps toolMap videoID steps) (effects tr))) } := by
  induction steps with
  | nil =>
    intro i output tr
    simp only [YtbToBiliChain.PartialExecute.loop, finish_result]
    simp [resolveSteps, callAll, throughFirstFailure, partialError, recordResults]
  | cons n rest ih =>
    intro i output tr
    cases hl : toolMap.lookup n with
    | none =>
      simp [YtbToBiliChain.PartialExecute.loop, hl, resolveSteps, callAll, throughFirstFailure,
        partialError, recordResults]
    | some t =>
      have hn : t.Name = n := hmap n t hl
      cases herr : (t.Call (effects tr) videoID).2 with
      | some e =>
        simp [YtbToBiliChain.PartialExecute.loop, hl, resolveSteps, callAll,
          throughFirstFailure, herr, partialError, recordResults, CallRec.toStep, hn]
      | none =>
        obtain ⟨h1, h2, h3⟩ := ih (i + 1)
          { Result := output.Result
            Steps := output.Steps ++ [⟨n, videoID, (t.Call (effects tr) videoID).1, none⟩]
            Metadata := output.Metadata.set (n ++ "_result")
              (.str (t.Call (effects tr) videoID).1) }
          (t.invoke videoID (logInfo tr "Executing partial step"
            [("step", toString (i + 1)), ("tool", n)])).2
        simp only [effects_invoke, effects_logInfo, calls_invoke, calls_logInfo, herr, hn]
          at h1 h2 h3
        refine ⟨?_, ?_, ?_⟩
        · simp only [YtbToBiliChain.PartialExecute.loop, hl, invoke_fst, effects_logInfo, herr]
          rw [h1]
          simp [resolveSteps, hl, callAll, throughFirstFailure, herr, hn]
        · simp only [YtbToBiliChain.PartialExecute.loop, hl, invoke_fst, effects_logInfo, herr]
          rw [h2]
          simp only [resolveSteps, hl, callAll, throughFirstFailure, herr, hn]
          rw [partialError_cons_ok _ _ _ _ rfl]
        · simp only [YtbToBiliChain.PartialExecute.loop, hl, invoke_fst, effects_logInfo, herr]
          rw [h3]
          simp only [resolveSteps, hl, callAll, throughFirstFailure, herr, hn]
          rw [partialError_cons_ok _ _ _ _ rfl]
          simp [recordResults, CallRec.toStep]

/-! ## What the operations compute -/

theorem assertString_valid (m : GoMap) (v : String) (hid : m.get "video_id" = some (.str v))
    (hv : v ≠ "") :
    (!(assertString (m.get "video_id")).2 || (assertString (m.get "video_id")).1 == "") = false ∧
      (assertString (m.get "video_id")).1 = v := by
  simp [hid, assertString, hv]

theorem assertString_missing (m : GoMap)
    (hid : ∀ v, m.get "video_id" = some (.str v) → v = "") :
    (!(assertString (m.get "video_id")).2 || (assertString (m.get "video_id")).1 == "") = true := by
  cases h : m.get "video_id" with
  | none => simp [assertString]
  | some x =>
    cases x with
    | str s => simp [assertString, hid s h]
    | null => simp [assertString]
    | int n => simp [assertString]
    | bool b => simp [assertString]

/-- `Execute` on an input with a usable video id enters its loop. -/
theorem Execute_valid_eq (c : YtbToBiliChain) (input : ChainInput) (tr : Trace) (v : String)
    (hid : input.Metadata.get "video_id" = some (.str v)) (hv : v ≠ "") :
    c.Execute input tr =
      YtbToBiliChain.Execute.loop v (c.toolChain v).length (c.toolChain v) 0
        { Result := "", Steps := [], Metadata := [] }
        (logInfo tr "Starting YtbToBili chain" [("video_id", v)]) := by
  obtain ⟨h1, h2⟩ := assertString_valid input.Metadata v hid hv
  unfold YtbToBiliChain.Execute
  rw [h2] at h1
  simp only [h2, h1, Bool.false_eq_true, ↓reduceIte]

/-- `Execute` on an input with a usable video id: the invocations are those of
the pipeline up to the first failure. -/
theorem Execute_spec (c : YtbToBiliChain) (input : ChainInput) (tr : Trace) (v : String)
    (hid : input.Metadata.get "video_id" = some (.str v)) (hv : v ≠ "") :
    calls (c.Execute input tr).trace =
        calls tr ++ throughFirstFailure (callAll (c.toolChain v) (effects tr)) ∧
    (c.Execute input tr).err =
        executeError 0 (throughFirstFailure (callAll (c.toolChain v) (effects tr))) ∧
    (c.Execute input tr).out = some
      { Result :=
          if (executeError 0 (throughFirstFailure (callAll (c.toolChain v) (effects tr)))).isSome
          then ""
          else resultAfter ""
            ((throughFirstFailure (callAll (c.toolChain v) (effects tr))).map CallRec.toStep)
        Steps := (throughFirstFailure (callAll (c.toolChain v) (effects tr))).map CallRec.toStep
        Metadata := recordResults []
          (throughFirstFailure (callAll (c.toolChain v) (effects tr))) } := by
  obtain ⟨h1, h2⟩ := assertString_valid input.Metadata v hid hv
  have hs := Execute_loop_spec v (c.toolChain v).length (c.toolChain v) 0
    { Result := "", Steps := [], Metadata := [] }
    (logInfo tr "Starting YtbToBili chain" [("video_id", v)])
  simp only [effects_logInfo, calls_logInfo, List.nil_append] at hs
  unfold YtbToBiliChain.Execute
  rw [h2] at h1
  simp only [h2, h1, Bool.false_eq_true, ↓reduceIte]
  exact hs

/-- `Execute` on an input without a usable video id returns at once. -/
theorem Execute_missing (c : YtbToBiliChain) (input : ChainInput) (tr : Trace)
    (hid : ∀ v, input.Metadata.get "video_id" = some (.str v) → v = "") :
    c.Execute input tr = ⟨none, some (.errorString "video_id is required in metadata"), tr⟩ := by
  have h := assertString_missing input.Metadata hid
  unfold YtbToBiliChain.Execute
  simp only [h, ↓reduceIte]

/-- Every key of `toolMap` is the `Name()` of the tool stored under it. -/
theorem toolMap_name (c : YtbToBiliChain) (v : String) :
    ∀ n t, (c.toolMap v).lookup n = some t → t.Name = n := by
  intro n t h
  simp only [YtbToBiliChain.toolMap, List.lookup] at h
  repeat' split at h
  all_goals first
    | (cases h; simp_all [NewDownloadVideoTool, NewDownloadThumbnailTool, NewExtractAudioTool,
        NewGenerateSubtitleTool, NewTranslateSubtitleTool, NewGenerateMetadataTool,
        NewUploadToBiliTool])
    | simp at h

/-- `PartialExecute` on an input with a usable video id. -/
theorem PartialExecute_spec (c : YtbToBiliChain) (input : ChainInput) (steps : List String)
    (tr : Trace) (v : String)
    (hid : input.Metadata.get "video_id" = some (.str v)) (hv : v ≠ "") :
    calls (c.PartialExecute input steps tr).trace =
        calls tr ++
          throughFirstFailure (callAll (resolveSteps (c.toolMap v) v steps) (effects tr)) ∧
    (c.PartialExecute input steps tr).err =
        partialError steps
          (throughFirstFailure (callAll (resolveSteps (c.toolMap v) v steps) (effects tr))) ∧
    (c.PartialExecute input steps tr).out = some
      { Result :=
          if (partialError steps (throughFirstFailure
              (callAll (resolveSteps (c.toolMap v) v steps) (effects tr)))).isSome
          then ""
          else resultAfter "" ((throughFirstFailure
            (callAll (resolveSteps (c.toolMap v) v steps) (effects tr))).map CallRec.toStep)
        Steps := (throughFirstFailure
          (callAll (resolveSteps (c.toolMap v) v steps) (effects tr))).map CallRec.toStep
        Metadata := recordResults []
          (throughFirstFailure (callAll (resolveSteps (c.toolMap v) v steps) (effects tr))) } := by
  obtain ⟨h1, h2⟩ := assertString_valid input.Metadata v hid hv
  have hs := PartialExecute_loop_spec v (c.toolMap v) (toolMap_name c v) steps 0
    { Result := "", Steps := [], Metadata := [] } tr
  simp only [List.nil_append] at hs
  unfold YtbToBiliChain.PartialExecute
  rw [h2] at h1
  simp only [h2, h1, Bool.false_eq_true, ↓reduceIte]
  exact hs

/-- `PartialExecute` on an input without a usable video id returns at once. -/
theorem PartialExecute_missing (c : YtbToBiliChain) (input : ChainInput) (steps : List String)
    (tr : Trace) (hid : ∀ v, input.Metadata.get "video_id" = some (.str v) → v = "") :
    c.PartialExecute input steps tr =
      ⟨none, some (.errorString "video_id is required in metadata"), tr⟩ := by
  have h := assertString_missing input.Metadata hid
  unfold YtbToBiliChain.PartialExecute
  simp only [h, ↓reduceIte]

/-! ## The claims -/

/-- C1. For every input whose metadata holds a non-empty video id and every
tool behaviour in which the seven pipeline invocations succeed,
`YtbToBiliChain.Execute` returns a nil error and an output with exactly seven
step records, named in pipeline order, each carrying what its tool was given
and returned (the invocations made are exactly these seven), and `Result` is
the output of the seventh step. -/
theorem C1_execute_success (c : YtbToBiliChain) (input : ChainInput) (tr : Trace) (v : String)
    (hid : input.Metadata.get "video_id" = some (.str v)) (hv : v ≠ "")
    (hok : ∀ x ∈ callAll (c.toolChain v) (effects tr), x.err = none) :
    (c.Execute input tr).err = none ∧
    calls (c.Execute input tr).trace = calls tr ++ callAll (c.toolChain v) (effects tr) ∧
    ∃ out, (c.Execute input tr).out = some out ∧
      out.Steps.length = 7 ∧
      out.Steps.map (fun s => s.ToolName) =
        ["download_video", "download_thumbnail", "extract_audio", "generate_subtitle",
         "translate_subtitle", "generate_metadata", "upload_to_bilibili"] ∧
      out.Steps = (callAll (c.toolChain v) (effects tr)).map CallRec.toStep ∧
      out.Steps[6]?.map (fun s => s.Output) = some out.Result := by
  obtain ⟨h1, h2, h3⟩ := Execute_spec c input tr v hid hv
  rw [throughFirstFailure_of_ok _ hok] at h1 h2 h3
  rw [executeError_of_ok _ _ hok] at h2 h3
  have hlen := callAll_toolChain_length c v (effects tr)
  have hnames := callAll_toolChain_tools c v (effects tr)
  refine ⟨h2, h1, _, h3, ?_, ?_, rfl, ?_⟩
  · simp [hlen]
  · simpa [pipelineNames, CallRec.toStep, Function.comp_def] using hnames
  · simp only [Option.isSome_none, Bool.false_eq_true, ↓reduceIte, resultAfter]
    rw [List.getLast?_eq_getElem?]
    simp only [List.length_map, hlen]
    cases hx : (List.map CallRec.toStep (callAll (c.toolChain v) (effects tr)))[6]? with
    | none =>
      have : 6 < (List.map CallRec.toStep (callAll (c.toolChain v) (effects tr))).length := by
        simp [hlen]
      simp [List.getElem?_eq_getElem this] at hx
    | some s => simp [hx]

/-- C1 at the sample input with the always-succeeding sample tools. -/
theorem C1_execute_success_witness :
    ((NewYtbToBiliChain sampleBodies).Execute sampleInput []).err = none ∧
    ∃ out, ((NewYtbToBiliChain sampleBodies).Execute sampleInput []).out = some out ∧
      out.Steps.length = 7 ∧ out.Result = "BV1xx411c7mD" := by
  obtain ⟨h1, _, out, h3, h4, _, _, h7⟩ :=
    C1_execute_success (NewYtbToBiliChain sampleBodies) sampleInput [] "abc" rfl (by decide)
      (by decide)
  refine ⟨h1, out, h3, h4, ?_⟩
  have h8 : ((NewYtbToBiliChain sampleBodies).Execute sampleInput []).out = some
      { Result := "BV1xx411c7mD"
        Steps := [⟨"download_video", "abc", "video.mp4", none⟩,
          ⟨"download_thumbnail", "abc", "thumb.jpg", none⟩,
          ⟨"extract_audio", "abc", "audio.wav", none⟩,
          ⟨"generate_subtitle", "abc", "sub.srt", none⟩,
          ⟨"translate_subtitle", translateInput "abc", "sub_zh.srt", none⟩,
          ⟨"generate_metadata", "abc", "meta.json", none⟩,
          ⟨"upload_to_bilibili", "abc", "BV1xx411c7mD", none⟩]
        Metadata := [("download_video_result", .str "video.mp4"),
          ("download_thumbnail_result", .str "thumb.jpg"),
          ("extract_audio_result", .str "audio.wav"),
          ("generate_subtitle_result", .str "sub.srt"),
          ("translate_subtitle_result", .str "sub_zh.srt"),
          ("generate_metadata_result", .str "meta.json"),
          ("upload_to_bilibili_result", .str "BV1xx411c7mD")] } := by
    decide
  rw [h3] at h8
  cases h8
  rfl

/-- C2. For every input with a non-empty video id and every `k` in 1..7, if the
pipeline tools at positions 1..k-1 succeed and the tool at position `k` fails
with error `e`, `YtbToBiliChain.Execute` invokes exactly the tools 1..k, returns
an output with exactly `k` step records in pipeline order (the first `k-1`
holding successes, the `k`-th holding the failure `e`), leaves `Result` empty, and
returns an error whose message names position `k` and tool `k` and which wraps
`e`. -/
theorem C2_execute_failure (c : YtbToBiliChain) (input : ChainInput) (tr : Trace) (v : String)
    (hid : input.Metadata.get "video_id" = some (.str v)) (hv : v ≠ "")
    (k : Nat) (e : GoError) (hk1 : 1 ≤ k) (hk7 : k ≤ 7)
    (hfail : (callAll (c.toolChain v) (effects tr))[k - 1]?.bind (fun x => x.err) = some e)
    (hok : ∀ j, j < k - 1 →
      (callAll (c.toolChain v) (effects tr))[j]?.bind (fun x => x.err) = none) :
    calls (c.Execute input tr).trace =
      calls tr ++ (callAll (c.toolChain v) (effects tr)).take k ∧
    ((callAll (c.toolChain v) (effects tr)).take k).map (fun x => x.tool) =
      pipelineNames.take k ∧
    ∃ out err, (c.Execute input tr).out = some out ∧ (c.Execute input tr).err = some err ∧
      out.Steps.length = k ∧
      out.Steps = ((callAll (c.toolChain v) (effects tr)).take k).map CallRec.toStep ∧
      out.Steps.map (fun s => s.ToolName) = pipelineNames.take k ∧
      (∀ j, j < k - 1 → out.Steps[j]?.bind (fun s => s.Error) = none) ∧
      out.Steps[k - 1]?.bind (fun s => s.Error) = some e ∧
      out.Result = "" ∧
      err.Error = "chain failed at step " ++ toString k ++ " (" ++ pipelineNames.getD (k - 1) "" ++
        "): " ++ e.Error ∧
      err.Unwrap = some e := by
  obtain ⟨h1, h2, h3⟩ := Execute_spec c input tr v hid hv
  have hlen := callAll_toolChain_length c v (effects tr)
  have hnames := callAll_toolChain_tools c v (effects tr)
  have hk : k - 1 + 1 = k := by omega
  have hmade := throughFirstFailure_of_fail _ (k - 1) e hfail hok
  rw [hk] at hmade
  rw [hmade] at h1 h2 h3
  have hlast : ((callAll (c.toolChain v) (effects tr)).take k).getLast? =
      (callAll (c.toolChain v) (effects tr))[k - 1]? := by
    have := getLast?_take_succ (callAll (c.toolChain v) (effects tr)) (k - 1) (by omega)
    rwa [hk] at this
  obtain ⟨x, hx⟩ : ∃ x, (callAll (c.toolChain v) (effects tr))[k - 1]? = some x :=
    ⟨_, List.getElem?_eq_getElem (by omega)⟩
  have hxe : x.err = some e := by simpa [hx] using hfail
  have hxn : x.tool = pipelineNames.getD (k - 1) "" := by
    have h5 : ((callAll (c.toolChain v) (effects tr)).map (fun x => x.tool))[k - 1]? =
        some x.tool := by simp [hx]
    rw [hnames] at h5
    simp [List.getD_eq_getElem?_getD, h5]
  have herr : executeError 0 ((callAll (c.toolChain v) (effects tr)).take k) =
      some (.wrapError ("chain failed at step " ++ toString k ++ " (" ++
        pipelineNames.getD (k - 1) "" ++ "): " ++ e.Error) e) := by
    simp [executeError, hlast, hx, hxe, hxn, hlen, Nat.min_eq_left hk7]
  rw [herr] at h2 h3
  have htake : ((callAll (c.toolChain v) (effects tr)).take k).map (fun x => x.tool) =
      pipelineNames.take k := by
    rw [← hnames, List.map_take]
  refine ⟨h1, htake, _, _, h3, h2, ?_, rfl, ?_, ?_, ?_, ?_, rfl, rfl⟩
  · simp [hlen, hk7]
  · rw [← htake]
    simp [CallRec.toStep, Function.comp_def]
  · intro j hj
    have := hok j hj
    have hjk : j < k := by omega
    simpa [List.getElem?_take, hjk, CallRec.toStep, Option.bind_map, Function.comp_def]
      using this
  · have hjk : k - 1 < k := by omega
    simp [List.getElem?_take, hjk, hx, CallRec.toStep, hxe]
  · simp

/-- C2 at the sample input when the subtitle generator (position 4) fails. -/
theorem C2_execute_failure_witness :
    ∃ out err, ((NewYtbToBiliChain subtitleFailsBodies).Execute sampleInput []).out = some out ∧
      ((NewYtbToBiliChain subtitleFailsBodies).Execute sampleInput []).err = some err ∧
      out.Steps.length = 4 ∧
      out.Result = "" ∧
      err.Error = "chain failed at step 4 (generate_subtitle): whisper crashed" ∧
      err.Unwrap = some (.errorString "whisper crashed") := by
  obtain ⟨_, _, out, err, h1, h2, h3, _, _, _, _, h8, h9, h10⟩ :=
    C2_execute_failure (NewYtbToBiliChain subtitleFailsBodies) sampleInput [] "abc" rfl
      (by decide) 4 (.errorString "whisper crashed") (by decide) (by decide) (by decide)
      (by decide)
  exact ⟨out, err, h1, h2, h3, h8, by rw [h9]; decide, h10⟩

theorem videoIDMissing_iff (input : ChainInput) :
    videoIDMissing input ↔ ∀ v, input.Metadata.get "video_id" = some (.str v) → v = "" := by
  unfold videoIDMissing
  constructor
  · rintro (h | ⟨x, h, hx⟩ | h) v hv
    · rw [h] at hv; cases hv
    · rw [h] at hv; cases hv; exact absurd rfl (hx v)
    · rw [h] at hv; cases hv; rfl
  · intro h
    cases hg : input.Metadata.get "video_id" with
    | none => exact Or.inl rfl
    | some x =>
      cases x with
      | str s => rw [h s hg]; exact Or.inr (Or.inr rfl)
      | null => exact Or.inr (Or.inl ⟨_, rfl, fun s hs => by cases hs⟩)
      | int n => exact Or.inr (Or.inl ⟨_, rfl, fun s hs => by cases hs⟩)
      | bool b => exact Or.inr (Or.inl ⟨_, rfl, fun s hs => by cases hs⟩)

theorem not_videoIDMissing (input : ChainInput) (h : ¬ videoIDMissing input) :
    ∃ v, input.Metadata.get "video_id" = some (.str v) ∧ v ≠ "" := by
  rw [videoIDMissing_iff] at h
  push_neg at h
  exact h

theorem throughFirstFailure_cons (c : CallRec) (rest : List CallRec) :
    ∃ more, throughFirstFailure (c :: rest) = c :: more := by
  cases hc : c.err with
  | some e => exact ⟨[], by simp [throughFirstFailure, hc]⟩
  | none => exact ⟨throughFirstFailure rest, by simp [throughFirstFailure, hc]⟩

theorem executeError_ne_errorString (i : Nat) (made : List CallRec) (s : String) :
    executeError i made ≠ some (.errorString s) := by
  unfold executeError
  cases made.getLast? with
  | none => simp
  | some c => cases c.err <;> simp

theorem unknown_step_ne (n : String) :
    "unknown step: " ++ n ≠ "video_id is required in metadata" := by
  intro h
  have := congrArg String.data h
  simp at this

theorem partialError_ne_missing (steps : List String) (made : List CallRec) :
    partialError steps made ≠ some missingVideoIDError := by
  unfold partialError missingVideoIDError
  cases made.getLast?.bind (fun c => c.err.map (fun e => (c.tool, e))) with
  | some p => simp
  | none =>
    cases steps.get? made.length with
    | none => simp
    | some n => simpa using unknown_step_ne n

theorem toolMap_lookup_of_mem (c : YtbToBiliChain) (v n : String) (hn : n ∈ pipelineNames) :
    ∃ t, (c.toolMap v).lookup n = some t := by
  simp only [pipelineNames, List.mem_cons, List.mem_singleton, List.not_mem_nil, or_false] at hn
  rcases hn with h | h | h | h | h | h | h <;> subst h <;>
    simp [YtbToBiliChain.toolMap, List.lookup]

/-- C3. `YtbToBiliChain.Execute` and `PartialExecute` return the missing-parameter
error exactly when `metadata["video_id"]` is absent, not a string, or empty; in
that case they return a nil output and have invoked no tool (the trace is
unchanged).  For every other input `Execute` invokes at least its first tool
`download_video`, and `PartialExecute` invokes at least the tool selected by
the first step name when that names a pipeline tool. -/
theorem C3_missing_video_id (c : YtbToBiliChain) (input : ChainInput) (steps : List String)
    (tr : Trace) :
    (videoIDMissing input ↔ (c.Execute input tr).err = some missingVideoIDError) ∧
    (videoIDMissing input ↔ (c.PartialExecute input steps tr).err = some missingVideoIDError) ∧
    (videoIDMissing input →
      c.Execute input tr = ⟨none, some missingVideoIDError, tr⟩ ∧
      c.PartialExecute input steps tr = ⟨none, some missingVideoIDError, tr⟩) ∧
    (¬ videoIDMissing input →
      ∃ v, input.Metadata.get "video_id" = some (.str v) ∧ v ≠ "" ∧
        (∃ first more, calls (c.Execute input tr).trace = calls tr ++ first :: more ∧
          first.tool = "download_video" ∧ first.input = v) ∧
        (∀ n rest, steps = n :: rest → n ∈ pipelineNames →
          ∃ first more, calls (c.PartialExecute input steps tr).trace =
              calls tr ++ first :: more ∧
            first.tool = n ∧ first.input = v)) := by
  have hmiss : videoIDMissing input →
      c.Execute input tr = ⟨none, some missingVideoIDError, tr⟩ ∧
      c.PartialExecute input steps tr = ⟨none, some missingVideoIDError, tr⟩ := by
    intro h
    rw [videoIDMissing_iff] at h
    exact ⟨Execute_missing c input tr h, PartialExecute_missing c input steps tr h⟩
  refine ⟨⟨fun h => by rw [(hmiss h).1], ?_⟩, ⟨fun h => by rw [(hmiss h).2], ?_⟩, hmiss, ?_⟩
  · intro herr
    by_contra hnot
    obtain ⟨v, hid, hv⟩ := not_videoIDMissing input hnot
    obtain ⟨_, h2, _⟩ := Execute_spec c input tr v hid hv
    rw [h2] at herr
    exact executeError_ne_errorString _ _ _ herr
  · intro herr
    by_contra hnot
    obtain ⟨v, hid, hv⟩ := not_videoIDMissing input hnot
    obtain ⟨_, h2, _⟩ := PartialExecute_spec c input steps tr v hid hv
    rw [h2] at herr
    exact partialError_ne_missing _ _ herr
  · intro hnot
    obtain ⟨v, hid, hv⟩ := not_videoIDMissing input hnot
    refine ⟨v, hid, hv, ?_, ?_⟩
    · obtain ⟨h1, _, _⟩ := Execute_spec c input tr v hid hv
      obtain ⟨more, hm⟩ := throughFirstFailure_cons
        ⟨"download_video", v, (c.bodies.DownloadVideoTool v (effects tr) v).1,
          (c.bodies.DownloadVideoTool v (effects tr) v).2⟩
        (callAll (c.toolChain v).tail (effects tr ++ [Event.call
          ⟨"download_video", v, (c.bodies.DownloadVideoTool v (effects tr) v).1,
            (c.bodies.DownloadVideoTool v (effects tr) v).2⟩]))
      refine ⟨⟨"download_video", v, (c.bodies.DownloadVideoTool v (effects tr) v).1,
        (c.bodies.DownloadVideoTool v (effects tr) v).2⟩, more, ?_, rfl, rfl⟩
      rw [h1]
      exact congrArg _ hm
    · intro n rest hsteps hn
      obtain ⟨t, ht⟩ := toolMap_lookup_of_mem c v n hn
      have hname := toolMap_name c v n t ht
      obtain ⟨h1, _, _⟩ := PartialExecute_spec c input steps tr v hid hv
      obtain ⟨more, hm⟩ := throughFirstFailure_cons
        ⟨t.Name, v, (t.Call (effects tr) v).1, (t.Call (effects tr) v).2⟩
        (callAll (resolveSteps (c.toolMap v) v rest) (effects tr ++ [Event.call
          ⟨t.Name, v, (t.Call (effects tr) v).1, (t.Call (effects tr) v).2⟩]))
      refine ⟨⟨t.Name, v, (t.Call (effects tr) v).1, (t.Call (effects tr) v).2⟩, more, ?_,
        hname, rfl⟩
      rw [h1, hsteps]
      simp only [resolveSteps, ht, callAll]
      exact congrArg _ hm

theorem callAll_toolChain_input (c : YtbToBiliChain) (v : String) (h : Trace) :
    ∀ x ∈ callAll (c.toolChain v) h,
      x.input = if x.tool = "translate_subtitle" then translateInput v else v := by
  intro x hx
  have hmem : (x.tool, x.input) ∈
      (callAll (c.toolChain v) h).map (fun c => (c.tool, c.input)) :=
    List.mem_map.mpr ⟨x, hx, rfl⟩
  rw [callAll_names, toolChain_names] at hmem
  simp only [List.mem_cons, Prod.mk.injEq, List.mem_singleton, List.not_mem_nil, or_false]
    at hmem
  rcases hmem with h | h | h | h | h | h | h <;> obtain ⟨h1, h2⟩ := h <;> rw [h1, h2] <;>
    simp

/-- C4. For every input with a non-empty video id `v`, whatever the tools do,
every invocation made by `YtbToBiliChain.Execute` and the step record that
documents it carry the bare `v` as input, except the `translate_subtitle` step,
which carries the structured text naming `v` and the target language
`zh-CN`. -/
theorem C4_execute_step_inputs (c : YtbToBiliChain) (input : ChainInput) (tr : Trace)
    (v : String) (hid : input.Metadata.get "video_id" = some (.str v)) (hv : v ≠ "") :
    translateInput v = "\x7b\"video_id\": \"" ++ v ++ "\", \"target_lang\": \"zh-CN\"\x7d" ∧
    ∃ out made, (c.Execute input tr).out = some out ∧
      calls (c.Execute input tr).trace = calls tr ++ made ∧
      out.Steps = made.map CallRec.toStep ∧
      (∀ x ∈ made,
        x.input = if x.tool = "translate_subtitle" then translateInput v else v) ∧
      (∀ s ∈ out.Steps,
        s.Input = if s.ToolName = "translate_subtitle" then translateInput v else v) := by
  obtain ⟨h1, _, h3⟩ := Execute_spec c input tr v hid hv
  have hin : ∀ x ∈ throughFirstFailure (callAll (c.toolChain v) (effects tr)),
      x.input = if x.tool = "translate_subtitle" then translateInput v else v :=
    fun x hx => callAll_toolChain_input c v _ x (mem_of_mem_throughFirstFailure _ x hx)
  refine ⟨rfl, _, _, h3, h1, rfl, hin, ?_⟩
  intro s hs
  obtain ⟨x, hx, rfl⟩ := List.mem_map.mp hs
  exact hin x hx

/-- C4 at the sample input: the fifth step carries the structured input, the
first the bare id. -/
theorem C4_execute_step_inputs_witness :
    ∃ out, ((NewYtbToBiliChain sampleBodies).Execute sampleInput []).out = some out ∧
      out.Steps.map (fun s => s.Input) =
        ["abc", "abc", "abc", "abc",
         "\x7b\"video_id\": \"abc\", \"target_lang\": \"zh-CN\"\x7d", "abc", "abc"] := by
  obtain ⟨_, out, made, h1, _, _, _, _⟩ :=
    C4_execute_step_inputs (NewYtbToBiliChain sampleBodies) sampleInput [] "abc" rfl (by decide)
  refine ⟨out, h1, ?_⟩
  have h2 : (((NewYtbToBiliChain sampleBodies).Execute sampleInput []).out.map
      (fun o => o.Steps.map (fun s => s.Input))) =
      some ["abc", "abc", "abc", "abc",
         "\x7b\"video_id\": \"abc\", \"target_lang\": \"zh-CN\"\x7d", "abc", "abc"] := by
    decide
  rw [h1] at h2
  simpa using h2

/-- `ExecuteToolSequence` on lists of equal length: the invocations are those of
the paired tools and inputs up to the first failure. -/
theorem ExecuteToolSequence_spec (c : BaseChain) (tools : List Tool) (inputs : List String)
    (tr : Trace) (hlen : tools.length = inputs.length) :
    calls (c.ExecuteToolSequence tools inputs tr).trace =
        calls tr ++ throughFirstFailure (callAll (tools.zip inputs) (effects tr)) ∧
    (c.ExecuteToolSequence tools inputs tr).err =
        sequenceError (throughFirstFailure (callAll (tools.zip inputs) (effects tr))) ∧
    (c.ExecuteToolSequence tools inputs tr).out = some
      { Result :=
          if (sequenceError
              (throughFirstFailure (callAll (tools.zip inputs) (effects tr)))).isSome
          then ""
          else lastOutputAfter ""
            (throughFirstFailure (callAll (tools.zip inputs) (effects tr)))
        Steps := (throughFirstFailure (callAll (tools.zip inputs) (effects tr))).map
          CallRec.toStep
        Metadata := [] } := by
  have hs := ExecuteToolSequence_loop_spec c tools.length inputs tools 0
    { Result := "", Steps := [], Metadata := [] } "" tr (by omega)
  simp only [List.drop_zero, List.nil_append] at hs
  unfold BaseChain.ExecuteToolSequence
  simp only [hlen, ne_eq, not_true_eq_false, ↓reduceIte]
  rw [hlen] at hs
  exact hs

/-- C5. For tool and input lists of equal length `n` and every tool behaviour,
`BaseChain.ExecuteToolSequence` invokes the tools in list order with the
parallel inputs and stops at the first failure: when the first failing tool
is at 1-indexed position `k` it makes exactly the first `k` invocations and
returns `k` step records; when none fails it makes all `n` invocations and
returns `n` step records (record `i` holding the name, input and output of
invocation `i`) with a nil error and `Result` equal to the last output (empty
when `n = 0`).  `plan` is what the tools return when invoked in order. -/
theorem C5_sequence_stops_at_first_failure (c : BaseChain) (tools : List Tool)
    (inputs : List String) (tr : Trace) (plan : List CallRec)
    (hlen : tools.length = inputs.length)
    (hplan : plan = callAll (tools.zip inputs) (effects tr)) :
    plan.length = tools.length ∧
    plan.map (fun x => (x.tool, x.input)) = (tools.map (fun t => t.Name)).zip inputs ∧
    (∀ k e, 1 ≤ k → plan[k - 1]?.bind (fun x => x.err) = some e →
      (∀ j, j < k - 1 → plan[j]?.bind (fun x => x.err) = none) →
      calls (c.ExecuteToolSequence tools inputs tr).trace = calls tr ++ plan.take k ∧
      (plan.take k).length = k ∧
      (c.ExecuteToolSequence tools inputs tr).err ≠ none ∧
      ∃ out, (c.ExecuteToolSequence tools inputs tr).out = some out ∧
        out.Steps = (plan.take k).map CallRec.toStep ∧ out.Steps.length = k) ∧
    ((∀ x ∈ plan, x.err = none) →
      calls (c.ExecuteToolSequence tools inputs tr).trace = calls tr ++ plan ∧
      (c.ExecuteToolSequence tools inputs tr).err = none ∧
      ∃ out, (c.ExecuteToolSequence tools inputs tr).out = some out ∧
        out.Steps = plan.map CallRec.toStep ∧ out.Steps.length = tools.length ∧
        out.Result = (plan.getLast?.map (fun x => x.output)).getD "") := by
  subst hplan
  obtain ⟨h1, h2, h3⟩ := ExecuteToolSequence_spec c tools inputs tr hlen
  have hl : (callAll (tools.zip inputs) (effects tr)).length = tools.length := by
    rw [callAll_length, List.length_zip, hlen, Nat.min_self]
  refine ⟨hl, ?_, ?_, ?_⟩
  · rw [callAll_names, List.zip_map_left]
    simp [Prod.map]
  · intro k e hk1 hfail hok
    have hk : k - 1 + 1 = k := by omega
    have hmade := throughFirstFailure_of_fail _ (k - 1) e hfail hok
    rw [hk] at hmade
    rw [hmade] at h1 h2 h3
    have hkl : k - 1 < (callAll (tools.zip inputs) (effects tr)).length := by
      by_contra hge
      rw [List.getElem?_eq_none (by omega)] at hfail
      simp at hfail
    have hlast : ((callAll (tools.zip inputs) (effects tr)).take k).getLast? =
        (callAll (tools.zip inputs) (effects tr))[k - 1]? := by
      have := getLast?_take_succ (callAll (tools.zip inputs) (effects tr)) (k - 1) hkl
      rwa [hk] at this
    obtain ⟨x, hx⟩ : ∃ x, (callAll (tools.zip inputs) (effects tr))[k - 1]? = some x :=
      ⟨_, List.getElem?_eq_getElem hkl⟩
    have hxe : x.err = some e := by simpa [hx] using hfail
    have hkk : (List.take k (callAll (tools.zip inputs) (effects tr))).length = k := by
      rw [List.length_take]; omega
    refine ⟨h1, hkk, ?_, _, h3, rfl, ?_⟩
    · rw [h2]
      simp [sequenceError, hlast, hx, hxe]
    · rw [List.length_map, hkk]
  · intro hok
    rw [throughFirstFailure_of_ok _ hok] at h1 h2 h3
    rw [sequenceError_of_ok _ hok] at h2 h3
    refine ⟨h1, h2, _, h3, rfl, ?_, ?_⟩
    · simp [hl]
    · simp only [Option.isSome_none, Bool.false_eq_true, ↓reduceIte, lastOutputAfter]
      cases (callAll (tools.zip inputs) (effects tr)).getLast? <;> rfl

/-- C5 on three sample tools of which the second fails: two invocations, two
step records. -/
theorem C5_sequence_stops_at_first_failure_witness :
    calls ((NewBaseChain "demo").ExecuteToolSequence
        [okTool "a" "1", failTool "b" "boom", okTool "c" "3"] ["x", "y", "z"] []).trace =
      [⟨"a", "x", "1", none⟩, ⟨"b", "y", "", some (.errorString "boom")⟩] ∧
    ∃ out, ((NewBaseChain "demo").ExecuteToolSequence
        [okTool "a" "1", failTool "b" "boom", okTool "c" "3"] ["x", "y", "z"] []).out =
        some out ∧ out.Steps.length = 2 := by
  obtain ⟨_, _, h, _⟩ := C5_sequence_stops_at_first_failure (NewBaseChain "demo")
    [okTool "a" "1", failTool "b" "boom", okTool "c" "3"] ["x", "y", "z"] [] _ rfl rfl
  obtain ⟨h1, _, _, out, h4, _, h6⟩ := h 2 (.errorString "boom") (by decide) (by decide)
    (by decide)
  exact ⟨h1, out, h4, h6⟩

/-- C6, as the code has it.  When `BaseChain.ExecuteToolSequence` stops because
the tool at 1-indexed position `k` failed with error `e`, the error it returns
has the message `tool <name of tool k> failed: <message of e>` and wraps `e`.
The message does not carry the step index; `k` is the number of step records
of the returned output. -/
theorem C6_sequence_error_names_tool (c : BaseChain) (tools : List Tool)
    (inputs : List String) (tr : Trace) (k : Nat) (e : GoError)
    (hlen : tools.length = inputs.length) (hk1 : 1 ≤ k)
    (hfail : (callAll (tools.zip inputs) (effects tr))[k - 1]?.bind (fun x => x.err) = some e)
    (hok : ∀ j, j < k - 1 →
      (callAll (tools.zip inputs) (effects tr))[j]?.bind (fun x => x.err) = none) :
    ∃ out err name, (c.ExecuteToolSequence tools inputs tr).out = some out ∧
      (c.ExecuteToolSequence tools inputs tr).err = some err ∧
      tools[k - 1]?.map (fun t => t.Name) = some name ∧
      err.Error = "tool " ++ name ++ " failed: " ++ e.Error ∧
      err.Unwrap = some e ∧
      out.Steps.length = k := by
  obtain ⟨_, h2, h3⟩ := ExecuteToolSequence_spec c tools inputs tr hlen
  have hk : k - 1 + 1 = k := by omega
  have hmade := throughFirstFailure_of_fail _ (k - 1) e hfail hok
  rw [hk] at hmade
  rw [hmade] at h2 h3
  have hkl : k - 1 < (callAll (tools.zip inputs) (effects tr)).length := by
    by_contra hge
    rw [List.getElem?_eq_none (by omega)] at hfail
    simp at hfail
  have hlast : ((callAll (tools.zip inputs) (effects tr)).take k).getLast? =
      (callAll (tools.zip inputs) (effects tr))[k - 1]? := by
    have := getLast?_take_succ (callAll (tools.zip inputs) (effects tr)) (k - 1) hkl
    rwa [hk] at this
  obtain ⟨x, hx⟩ : ∃ x, (callAll (tools.zip inputs) (effects tr))[k - 1]? = some x :=
    ⟨_, List.getElem?_eq_getElem hkl⟩
  have hxe : x.err = some e := by simpa [hx] using hfail
  have hl : (callAll (tools.zip inputs) (effects tr)).length = tools.length := by
    rw [callAll_length, List.length_zip, hlen, Nat.min_self]
  have hname : tools[k - 1]?.map (fun t => t.Name) = some x.tool := by
    have h5 : ((callAll (tools.zip inputs) (effects tr)).map
        (fun x => (x.tool, x.input)))[k - 1]? = some (x.tool, x.input) := by simp [hx]
    rw [callAll_names] at h5
    have h6 := congrArg (Option.map Prod.fst) h5
    simp only [List.getElem?_map, Option.map_map, Option.map_some'] at h6
    rw [← h6]
    have hz : k - 1 < (tools.zip inputs).length := by
      rw [List.length_zip, hlen, Nat.min_self]; omega
    have ht : k - 1 < tools.length := by omega
    simp [List.getElem?_eq_getElem hz, List.getElem?_eq_getElem ht]
  have hkk : (List.take k (callAll (tools.zip inputs) (effects tr))).length = k := by
    rw [List.length_take]; omega
  have herr : sequenceError ((callAll (tools.zip inputs) (effects tr)).take k) =
      some (.wrapError ("tool " ++ x.tool ++ " failed: " ++ e.Error) e) := by
    simp [sequenceError, hlast, hx, hxe]
  rw [herr] at h2
  refine ⟨_, _, x.tool, h3, h2, hname, rfl, rfl, ?_⟩
  rw [List.length_map, hkk]

/-- C6 on two sample tools of which the second fails. -/
theorem C6_sequence_error_names_tool_witness :
    ((NewBaseChain "demo").ExecuteToolSequence [okTool "b" "fine", failTool "a" "boom"]
        ["x", "x"] []).err =
      some (.wrapError "tool a failed: boom" (.errorString "boom")) := by
  obtain ⟨out, err, name, _, h2, h3, h4, h5, _⟩ :=
    C6_sequence_error_names_tool (NewBaseChain "demo") [okTool "b" "fine", failTool "a" "boom"]
      ["x", "x"] [] 2 (.errorString "boom") rfl (by decide) (by decide) (by decide)
  rw [h2]
  have hn : name = "a" := by
    have : some "a" = some name := h3
    exact (Option.some.inj this).symm
  subst hn
  cases err with
  | errorString s => simp [GoError.Unwrap] at h5
  | wrapError m inner =>
    simp only [GoError.Unwrap, Option.some.injEq] at h5
    simp only [GoError.Error] at h4
    rw [h4, h5]
    decide

/-- C6 as stated fails: a run that fails at position 1 and a run that fails at
position 2 return the same error, so the error does not identify the step
index. -/
theorem C6_counterexample :
    ((NewBaseChain "demo").ExecuteToolSequence [failTool "a" "boom"] ["x"] []).err =
      ((NewBaseChain "demo").ExecuteToolSequence [okTool "b" "fine", failTool "a" "boom"]
        ["x", "x"] []).err ∧
    ((NewBaseChain "demo").ExecuteToolSequence [failTool "a" "boom"] ["x"] []).out.map
      (fun o => o.Steps.length) = some 1 ∧
    ((NewBaseChain "demo").ExecuteToolSequence [okTool "b" "fine", failTool "a" "boom"]
      ["x", "x"] []).out.map (fun o => o.Steps.length) = some 2 ∧
    ((NewBaseChain "demo").ExecuteToolSequence [okTool "b" "fine", failTool "a" "boom"]
      ["x", "x"] []).err.map GoError.Error = some "tool a failed: boom" := by
  decide

/-- C7. For tool and input lists of different lengths
`BaseChain.ExecuteToolSequence` returns at once a nil output and the
length-mismatch error stating both lengths, with no tool invoked (the trace
is unchanged); the run returns that error exactly when the lengths differ,
and for equal lengths it returns an output and never an error of that
kind. -/
theorem C7_sequence_length_mismatch (c : BaseChain) (tools : List Tool) (inputs : List String)
    (tr : Trace) :
    (tools.length ≠ inputs.length ↔
      (c.ExecuteToolSequence tools inputs tr).err =
        some (.errorString ("tools and inputs length mismatch: " ++ toString tools.length ++
          " != " ++ toString inputs.length))) ∧
    (tools.length ≠ inputs.length →
      c.ExecuteToolSequence tools inputs tr =
        ⟨none, some (.errorString ("tools and inputs length mismatch: " ++
          toString tools.length ++ " != " ++ toString inputs.length)), tr⟩) ∧
    (tools.length = inputs.length →
      (c.ExecuteToolSequence tools inputs tr).out ≠ none ∧
      ∀ s, (c.ExecuteToolSequence tools inputs tr).err ≠ some (.errorString s)) := by
  have hne : tools.length ≠ inputs.length →
      c.ExecuteToolSequence tools inputs tr =
        ⟨none, some (.errorString ("tools and inputs length mismatch: " ++
          toString tools.length ++ " != " ++ toString inputs.length)), tr⟩ := by
    intro h
    unfold BaseChain.ExecuteToolSequence
    simp only [h, ne_eq, not_false_eq_true, ↓reduceIte]
  have heq : tools.length = inputs.length →
      (c.ExecuteToolSequence tools inputs tr).out ≠ none ∧
      ∀ s, (c.ExecuteToolSequence tools inputs tr).err ≠ some (.errorString s) := by
    intro h
    obtain ⟨_, h2, h3⟩ := ExecuteToolSequence_spec c tools inputs tr h
    refine ⟨by rw [h3]; simp, ?_⟩
    intro s
    rw [h2]
    unfold sequenceError
    cases (throughFirstFailure (callAll (tools.zip inputs) (effects tr))).getLast? with
    | none => simp
    | some x => cases x.err <;> simp
  refine ⟨⟨fun h => by rw [hne h], ?_⟩, hne, heq⟩
  intro herr
  by_contra hnot
  exact (heq hnot).2 _ herr

/-! ## Retrying -/

theorem attemptsLogged_call (tr : Trace) (c : CallRec) :
    attemptsLogged (tr ++ [Event.call c]) = attemptsLogged tr := by
  unfold attemptsLogged
  rw [logsWith_append]
  simp [logsWith]

theorem attemptsLogged_log (tr : Trace) (l : LogRec) :
    attemptsLogged (tr ++ [Event.log l]) =
      attemptsLogged tr + if l.msg = "Attempting chain execution" then 1 else 0 := by
  unfold attemptsLogged
  rw [logsWith_append]
  by_cases h : l.msg = "Attempting chain execution" <;> simp [logsWith, h]

theorem attemptsLogged_invoke (t : Tool) (inp : String) (tr : Trace) :
    attemptsLogged (t.invoke inp tr).2 = attemptsLogged tr := by
  simp only [Tool.invoke, attemptsLogged_call]

theorem Execute_loop_attemptsLogged (videoID : String) (total : Nat)
    (rest : List (Tool × String)) :
    ∀ (i : Nat) (output : ChainOutput) (tr : Trace),
      attemptsLogged (YtbToBiliChain.Execute.loop videoID total rest i output tr).trace =
        attemptsLogged tr := by
  induction rest with
  | nil =>
    intro i output tr
    simp only [YtbToBiliChain.Execute.loop, logInfo, attemptsLogged_log]
    simp
  | cons tc rest ih =>
    intro i output tr
    cases herr : (tc.1.Call (effects tr) tc.2).2 with
    | some e =>
      simp only [YtbToBiliChain.Execute.loop, invoke_fst, effects_logInfo, herr]
      simp only [logError, attemptsLogged_log, attemptsLogged_invoke, logInfo]
      simp
    | none =>
      simp only [YtbToBiliChain.Execute.loop, invoke_fst, effects_logInfo, herr]
      rw [ih, attemptsLogged_invoke]
      simp only [logInfo, attemptsLogged_log]
      simp

/-- `Execute` announces no attempt itself. -/
theorem Execute_attemptsLogged (c : YtbToBiliChain) (input : ChainInput) (tr : Trace) :
    attemptsLogged (c.Execute input tr).trace = attemptsLogged tr := by
  by_cases hm : videoIDMissing input
  · rw [videoIDMissing_iff] at hm
    rw [Execute_missing c input tr hm]
  · obtain ⟨v, hid, hv⟩ := not_videoIDMissing input hm
    rw [Execute_valid_eq c input tr v hid hv, Execute_loop_attemptsLogged]
    simp only [logInfo, attemptsLogged_log]
    simp

theorem Execute_loop_effects (videoID : String) (total : Nat) (rest : List (Tool × String)) :
    ∀ (i : Nat) (output : ChainOutput) (tr : Trace),
      effects (YtbToBiliChain.Execute.loop videoID total rest i output tr).trace =
        effects tr ++ (throughFirstFailure (callAll rest (effects tr))).map Event.call := by
  induction rest with
  | nil =>
    intro i output tr
    simp [YtbToBiliChain.Execute.loop, callAll, throughFirstFailure]
  | cons tc rest ih =>
    intro i output tr
    obtain ⟨t, inp⟩ := tc
    cases herr : (t.Call (effects tr) inp).2 with
    | some e =>
      simp [YtbToBiliChain.Execute.loop, callAll, throughFirstFailure, herr]
    | none =>
      simp only [YtbToBiliChain.Execute.loop, invoke_fst, effects_logInfo, herr]
      rw [ih]
      simp [callAll, throughFirstFailure, herr]

/-- The observable part of the trace that `Execute` leaves. -/
theorem Execute_effects_congr (c : YtbToBiliChain) (input : ChainInput) (tr tr0 : Trace)
    (h : effects tr = effects tr0) :
    effects (c.Execute input tr).trace = effects (c.Execute input tr0).trace := by
  by_cases hm : videoIDMissing input
  · rw [videoIDMissing_iff] at hm
    rw [Execute_missing c input tr hm, Execute_missing c input tr0 hm]
    exact h
  · obtain ⟨v, hid, hv⟩ := not_videoIDMissing input hm
    rw [Execute_valid_eq c input tr v hid hv, Execute_valid_eq c input tr0 v hid hv,
      Execute_loop_effects, Execute_loop_effects]
    simp only [effects_logInfo, h]

/-- The logger is write-only: what `Execute` returns and which tools it invokes
depend on the observable part of the trace only. -/
theorem Execute_congr (c : YtbToBiliChain) (input : ChainInput) (tr tr0 : Trace)
    (h : effects tr = effects tr0) :
    (c.Execute input tr).err = (c.Execute input tr0).err ∧
    (c.Execute input tr).out = (c.Execute input tr0).out ∧
    effects (c.Execute input tr).trace = effects (c.Execute input tr0).trace := by
  refine ⟨?_, ?_, Execute_effects_congr c input tr tr0 h⟩
  · by_cases hm : videoIDMissing input
    · rw [videoIDMissing_iff] at hm
      rw [Execute_missing c input tr hm, Execute_missing c input tr0 hm]
    · obtain ⟨v, hid, hv⟩ := not_videoIDMissing input hm
      obtain ⟨_, a2, _⟩ := Execute_spec c input tr v hid hv
      obtain ⟨_, b2, _⟩ := Execute_spec c input tr0 v hid hv
      rw [h] at a2
      exact a2.trans b2.symm
  · by_cases hm : videoIDMissing input
    · rw [videoIDMissing_iff] at hm
      rw [Execute_missing c input tr hm, Execute_missing c input tr0 hm]
    · obtain ⟨v, hid, hv⟩ := not_videoIDMissing input hm
      obtain ⟨_, _, a3⟩ := Execute_spec c input tr v hid hv
      obtain ⟨_, _, b3⟩ := Execute_spec c input tr0 v hid hv
      rw [h] at a3
      exact a3.trans b3.symm

theorem throughFirstFailure_eq_take (plan : List CallRec) :
    ∃ m, throughFirstFailure plan = plan.take m ∧ m ≤ plan.length ∧ (plan ≠ [] → 1 ≤ m) := by
  induction plan with
  | nil => exact ⟨0, rfl, by simp, by simp⟩
  | cons c rest ih =>
    cases hc : c.err with
    | some e => exact ⟨1, by simp [throughFirstFailure, hc], by simp, by simp⟩
    | none =>
      obtain ⟨m, h1, h2, _⟩ := ih
      exact ⟨m + 1, by simp [throughFirstFailure, hc, h1], by simpa using h2, by simp⟩

/-- Every run of `Execute` on an input with a usable video id invokes
`download_video` exactly once. -/
theorem Execute_download_once (c : YtbToBiliChain) (input : ChainInput) (tr : Trace) (v : String)
    (hid : input.Metadata.get "video_id" = some (.str v)) (hv : v ≠ "") :
    ∃ made, calls (c.Execute input tr).trace = calls tr ++ made ∧
      (made.filter (fun x => x.tool = "download_video")).length = 1 := by
  obtain ⟨h1, _, _⟩ := Execute_spec c input tr v hid hv
  refine ⟨_, h1, ?_⟩
  obtain ⟨m, hm, hle, hpos⟩ := throughFirstFailure_eq_take (callAll (c.toolChain v) (effects tr))
  have hlen := callAll_toolChain_length c v (effects tr)
  have hne : callAll (c.toolChain v) (effects tr) ≠ [] := by
    intro h
    rw [h] at hlen
    simp at hlen
  have hm1 := hpos hne
  rw [hlen] at hle
  have hfm : ∀ l : List CallRec,
      (l.filter (fun x => x.tool = "download_video")).length =
        ((l.map (fun x => x.tool)).filter (fun n => n = "download_video")).length := by
    intro l
    rw [List.filter_map, List.length_map]
    rfl
  rw [hm, hfm, List.map_take, callAll_toolChain_tools]
  interval_cases m <;> decide

theorem attemptRun_download_count (c : YtbToBiliChain) (input : ChainInput) (v : String)
    (hid : input.Metadata.get "video_id" = some (.str v)) (hv : v ≠ "") (n : Nat) :
    ∀ tr, ∃ made, calls (attemptRun c input n tr).trace = calls tr ++ made ∧
      (made.filter (fun x => x.tool = "download_video")).length = n + 1 := by
  induction n with
  | zero =>
    intro tr
    exact Execute_download_once c input tr v hid hv
  | succ n ih =>
    intro tr
    obtain ⟨m1, a1, a2⟩ := Execute_download_once c input tr v hid hv
    obtain ⟨m2, b1, b2⟩ := ih (c.Execute input tr).trace
    refine ⟨m1 ++ m2, ?_, ?_⟩
    · simp only [attemptRun]
      rw [b1, a1, List.append_assoc]
    · rw [List.filter_append, List.length_append, a2, b2]
      omega

theorem attemptRun_ok_valid (c : YtbToBiliChain) (input : ChainInput) (n : Nat) :
    ∀ tr, (attemptRun c input n tr).err = none → ¬ videoIDMissing input := by
  induction n with
  | zero =>
    intro tr h hm
    rw [videoIDMissing_iff] at hm
    simp only [attemptRun] at h
    rw [Execute_missing c input tr hm] at h
    cases h
  | succ n ih =>
    intro tr h
    exact ih _ h

/-! ## Running a named subset -/

theorem resolveSteps_of_known (c : YtbToBiliChain) (v : String) (steps : List String)
    (hsteps : ∀ n ∈ steps, n ∈ pipelineNames) :
    resolveSteps (c.toolMap v) v steps =
      steps.filterMap (fun n => ((c.toolMap v).lookup n).map (fun t => (t, v))) := by
  induction steps with
  | nil => rfl
  | cons n rest ih =>
    obtain ⟨t, ht⟩ := toolMap_lookup_of_mem c v n (hsteps n (by simp))
    have hr : ∀ m ∈ rest, m ∈ pipelineNames := fun m hm => hsteps m (by simp [hm])
    simp [resolveSteps, ht, ih hr]

theorem resolveSteps_names (c : YtbToBiliChain) (v : String) (steps : List String)
    (hsteps : ∀ n ∈ steps, n ∈ pipelineNames) :
    (resolveSteps (c.toolMap v) v steps).map (fun p => (p.1.Name, p.2)) =
      steps.map (fun n => (n, v)) := by
  induction steps with
  | nil => rfl
  | cons n rest ih =>
    obtain ⟨t, ht⟩ := toolMap_lookup_of_mem c v n (hsteps n (by simp))
    have hr : ∀ m ∈ rest, m ∈ pipelineNames := fun m hm => hsteps m (by simp [hm])
    simp [resolveSteps, ht, ih hr, toolMap_name c v n t ht]

/-- C10. For every input with a non-empty video id `v` and every list of step
names drawn from the seven pipeline names, in any order and of any length,
`YtbToBiliChain.PartialExecute` invokes the named tools in the given order, each
with the bare `v` as input, and stops after the first one that fails: when the
first failure is at 1-indexed position `k` it makes the first `k` invocations
and returns `k` step records named after the first `k` given names; when none
fails it makes all invocations, the step records carry the given names in
the given order, the error is nil and `Result` is the output of the last
named step.  `plan` is what the named tools return when invoked in the given
order. -/
theorem C10_partial_execute_order (c : YtbToBiliChain) (input : ChainInput) (tr : Trace)
    (v : String) (steps : List String) (plan : List CallRec)
    (hid : input.Metadata.get "video_id" = some (.str v)) (hv : v ≠ "")
    (hsteps : ∀ n ∈ steps, n ∈ pipelineNames)
    (hplan : plan = callAll
      (steps.filterMap (fun n => ((c.toolMap v).lookup n).map (fun t => (t, v))))
      (effects tr)) :
    plan.map (fun x => (x.tool, x.input)) = steps.map (fun n => (n, v)) ∧
    (∀ k e, 1 ≤ k → plan[k - 1]?.bind (fun x => x.err) = some e →
      (∀ j, j < k - 1 → plan[j]?.bind (fun x => x.err) = none) →
      calls (c.PartialExecute input steps tr).trace = calls tr ++ plan.take k ∧
      ∃ out err name, (c.PartialExecute input steps tr).out = some out ∧
        (c.PartialExecute input steps tr).err = some err ∧
        out.Steps = (plan.take k).map CallRec.toStep ∧
        out.Steps.map (fun s => s.ToolName) = steps.take k ∧
        out.Steps.length = k ∧
        steps[k - 1]? = some name ∧
        err.Error = "partial execution failed at " ++ name ++ ": " ++ e.Error ∧
        err.Unwrap = some e) ∧
    ((∀ x ∈ plan, x.err = none) →
      calls (c.PartialExecute input steps tr).trace = calls tr ++ plan ∧
      (c.PartialExecute input steps tr).err = none ∧
      ∃ out, (c.PartialExecute input steps tr).out = some out ∧
        out.Steps = plan.map CallRec.toStep ∧
        out.Steps.map (fun s => s.ToolName) = steps ∧
        out.Steps.map (fun s => s.Input) = steps.map (fun _ => v) ∧
        out.Result = (plan.getLast?.map (fun x => x.output)).getD "") := by
  rw [← resolveSteps_of_known c v steps hsteps] at hplan
  subst hplan
  obtain ⟨h1, h2, h3⟩ := PartialExecute_spec c input steps tr v hid hv
  have hnames : (callAll (resolveSteps (c.toolMap v) v steps) (effects tr)).map
      (fun x => (x.tool, x.input)) = steps.map (fun n => (n, v)) := by
    rw [callAll_names, resolveSteps_names c v steps hsteps]
  have htool : (callAll (resolveSteps (c.toolMap v) v steps) (effects tr)).map
      (fun x => x.tool) = steps := by
    have := congrArg (List.map Prod.fst) hnames
    simpa [Function.comp_def] using this
  have hinput : (callAll (resolveSteps (c.toolMap v) v steps) (effects tr)).map
      (fun x => x.input) = steps.map (fun _ => v) := by
    have := congrArg (List.map Prod.snd) hnames
    simpa [Function.comp_def] using this
  have hl : (callAll (resolveSteps (c.toolMap v) v steps) (effects tr)).length =
      steps.length := by
    have := congrArg List.length htool
    simpa using this
  refine ⟨hnames, ?_, ?_⟩
  · intro k e hk1 hfail hok
    have hk : k - 1 + 1 = k := by omega
    have hmade := throughFirstFailure_of_fail _ (k - 1) e hfail hok
    rw [hk] at hmade
    rw [hmade] at h1 h2 h3
    have hkl : k - 1 < (callAll (resolveSteps (c.toolMap v) v steps) (effects tr)).length := by
      by_contra hge
      rw [List.getElem?_eq_none (by omega)] at hfail
      simp at hfail
    have hlast : ((callAll (resolveSteps (c.toolMap v) v steps) (effects tr)).take k).getLast? =
        (callAll (resolveSteps (c.toolMap v) v steps) (effects tr))[k - 1]? := by
      have := getLast?_take_succ
        (callAll (resolveSteps (c.toolMap v) v steps) (effects tr)) (k - 1) hkl
      rwa [hk] at this
    obtain ⟨x, hx⟩ : ∃ x,
        (callAll (resolveSteps (c.toolMap v) v steps) (effects tr))[k - 1]? = some x :=
      ⟨_, List.getElem?_eq_getElem hkl⟩
    have hxe : x.err = some e := by simpa [hx] using hfail
    have hxn : steps[k - 1]? = some x.tool := by
      rw [← htool]
      simp [hx]
    have hkk : (List.take k
        (callAll (resolveSteps (c.toolMap v) v steps) (effects tr))).length = k := by
      rw [List.length_take]; omega
    have herr : partialError steps
        ((callAll (resolveSteps (c.toolMap v) v steps) (effects tr)).take k) =
        some (.wrapError ("partial execution failed at " ++ x.tool ++ ": " ++ e.Error) e) := by
      simp [partialError, hlast, hx, hxe]
    rw [herr] at h2 h3
    refine ⟨h1, _, _, x.tool, h3, h2, rfl, ?_, ?_, hxn, rfl, rfl⟩
    · have hmap : List.map (fun s => s.ToolName) (List.map CallRec.toStep
          (List.take k (callAll (resolveSteps (c.toolMap v) v steps) (effects tr)))) =
          List.take k (List.map (fun x => x.tool)
            (callAll (resolveSteps (c.toolMap v) v steps) (effects tr))) := by
        simp [List.map_take, CallRec.toStep, Function.comp_def]
      rw [hmap, htool]
    · rw [List.length_map, hkk]
  · intro hok
    rw [throughFirstFailure_of_ok _ hok] at h1 h2 h3
    have herr : partialError steps
        (callAll (resolveSteps (c.toolMap v) v steps) (effects tr)) = none := by
      unfold partialError
      have hb : (callAll (resolveSteps (c.toolMap v) v steps) (effects tr)).getLast?.bind
          (fun c => c.err.map (fun e => (c.tool, e))) = none := by
        cases hg : (callAll (resolveSteps (c.toolMap v) v steps) (effects tr)).getLast? with
        | none => rfl
        | some x => simp [hok x (List.mem_of_getLast?_eq_some hg)]
      rw [hb, hl]
      simp
    rw [herr] at h2 h3
    refine ⟨h1, h2, _, h3, rfl, ?_, ?_, ?_⟩
    · have hmap : List.map (fun s => s.ToolName) (List.map CallRec.toStep
          (callAll (resolveSteps (c.toolMap v) v steps) (effects tr))) =
          List.map (fun x => x.tool)
            (callAll (resolveSteps (c.toolMap v) v steps) (effects tr)) := by
        simp [CallRec.toStep, Function.comp_def]
      rw [hmap, htool]
    · have hmap : List.map (fun s => s.Input) (List.map CallRec.toStep
          (callAll (resolveSteps (c.toolMap v) v steps) (effects tr))) =
          List.map (fun x => x.input)
            (callAll (resolveSteps (c.toolMap v) v steps) (effects tr)) := by
        simp [CallRec.toStep, Function.comp_def]
      rw [hmap, hinput]
    · simp only [Option.isSome_none, Bool.false_eq_true, ↓reduceIte, resultAfter,
        List.getLast?_map]
      cases (callAll (resolveSteps (c.toolMap v) v steps) (effects tr)).getLast? <;> rfl

/-- C10 at the sample input for three names in an order that is not the
pipeline order: the named tools run in the given order, each on the bare
id. -/
theorem C10_partial_execute_order_witness :
    calls ((NewYtbToBiliChain sampleBodies).PartialExecute sampleInput
        ["upload_to_bilibili", "translate_subtitle", "download_video"] []).trace =
      [⟨"upload_to_bilibili", "abc", "BV1xx411c7mD", none⟩,
       ⟨"translate_subtitle", "abc", "sub_zh.srt", none⟩,
       ⟨"download_video", "abc", "video.mp4", none⟩] ∧
    ((NewYtbToBiliChain sampleBodies).PartialExecute sampleInput
        ["upload_to_bilibili", "translate_subtitle", "download_video"] []).out.map
      (fun o => o.Result) = some "video.mp4" := by
  obtain ⟨_, _, h⟩ := C10_partial_execute_order (NewYtbToBiliChain sampleBodies) sampleInput []
    "abc" ["upload_to_bilibili", "translate_subtitle", "download_video"] _ rfl (by decide)
    (by decide) rfl
  obtain ⟨h1, _, out, h3, _, _, _, h7⟩ := h (by decide)
  refine ⟨by rw [h1]; decide, ?_⟩
  rw [h3, Option.map_some', h7]
  decide

/-! ## Unknown step names -/

theorem toolMap_lookup_none (c : YtbToBiliChain) (v n : String) (hn : n ∉ pipelineNames) :
    (c.toolMap v).lookup n = none := by
  cases h : (c.toolMap v).lookup n with
  | none => rfl
  | some t =>
    exfalso
    apply hn
    have hname := toolMap_name c v n t h
    simp only [YtbToBiliChain.toolMap, List.lookup] at h
    repeat' split at h
    all_goals first
      | (cases h
         simp [NewDownloadVideoTool, NewDownloadThumbnailTool, NewExtractAudioTool,
           NewGenerateSubtitleTool, NewTranslateSubtitleTool, NewGenerateMetadataTool,
           NewUploadToBiliTool] at hname
         simp [pipelineNames, ← hname])
      | simp at h

theorem resolveSteps_append_unknown (c : YtbToBiliChain) (v : String) (known : List String)
    (n : String) (rest : List String) (hknown : ∀ m ∈ known, m ∈ pipelineNames)
    (hn : n ∉ pipelineNames) :
    resolveSteps (c.toolMap v) v (known ++ n :: rest) = resolveSteps (c.toolMap v) v known := by
  induction known with
  | nil => simp [resolveSteps, toolMap_lookup_none c v n hn]
  | cons m ms ih =>
    obtain ⟨t, ht⟩ := toolMap_lookup_of_mem c v m (hknown m (by simp))
    have hr : ∀ x ∈ ms, x ∈ pipelineNames := fun x hx => hknown x (by simp [hx])
    simp [resolveSteps, ht, ih hr]

/-- C11, as the code has it.  `PartialExecute` resolves each name only when the
loop reaches it.  For an input with a non-empty video id and a step list
`known ++ n :: rest` in which `n` is the first name that is not a pipeline name,
the tools named by `known` are invoked in the given order; when they all
succeed the run returns the error `unknown step: n`, an output with one step
record per invocation made and an empty `Result`, and no tool named in `rest`
is invoked.  When the unknown name comes first nothing is invoked and the
output has zero step records. -/
theorem C11_partial_execute_unknown_step (c : YtbToBiliChain) (input : ChainInput) (tr : Trace)
    (v : String) (known : List String) (n : String) (rest : List String) (plan : List CallRec)
    (hid : input.Metadata.get "video_id" = some (.str v)) (hv : v ≠ "")
    (hknown : ∀ m ∈ known, m ∈ pipelineNames) (hn : n ∉ pipelineNames)
    (hplan : plan = callAll
      (known.filterMap (fun m => ((c.toolMap v).lookup m).map (fun t => (t, v))))
      (effects tr))
    (hok : ∀ x ∈ plan, x.err = none) :
    plan.map (fun x => (x.tool, x.input)) = known.map (fun m => (m, v)) ∧
    calls (c.PartialExecute input (known ++ n :: rest) tr).trace = calls tr ++ plan ∧
    (c.PartialExecute input (known ++ n :: rest) tr).err =
      some (.errorString ("unknown step: " ++ n)) ∧
    (∃ out, (c.PartialExecute input (known ++ n :: rest) tr).out = some out ∧
      out.Steps = plan.map CallRec.toStep ∧ out.Steps.length = known.length ∧
      out.Result = "") ∧
    (known = [] →
      calls (c.PartialExecute input (known ++ n :: rest) tr).trace = calls tr ∧
      ∃ out, (c.PartialExecute input (known ++ n :: rest) tr).out = some out ∧
        out.Steps = []) := by
  rw [← resolveSteps_of_known c v known hknown] at hplan
  subst hplan
  obtain ⟨h1, h2, h3⟩ := PartialExecute_spec c input (known ++ n :: rest) tr v hid hv
  rw [resolveSteps_append_unknown c v known n rest hknown hn] at h1 h2 h3
  rw [throughFirstFailure_of_ok _ hok] at h1 h2 h3
  have hnames : (callAll (resolveSteps (c.toolMap v) v known) (effects tr)).map
      (fun x => (x.tool, x.input)) = known.map (fun m => (m, v)) := by
    rw [callAll_names, resolveSteps_names c v known hknown]
  have hl : (callAll (resolveSteps (c.toolMap v) v known) (effects tr)).length =
      known.length := by
    have := congrArg List.length hnames
    simpa using this
  have herr : partialError (known ++ n :: rest)
      (callAll (resolveSteps (c.toolMap v) v known) (effects tr)) =
      some (.errorString ("unknown step: " ++ n)) := by
    unfold partialError
    have hb : (callAll (resolveSteps (c.toolMap v) v known) (effects tr)).getLast?.bind
        (fun c => c.err.map (fun e => (c.tool, e))) = none := by
      cases hg : (callAll (resolveSteps (c.toolMap v) v known) (effects tr)).getLast? with
      | none => rfl
      | some x => simp [hok x (List.mem_of_getLast?_eq_some hg)]
    have hget : (known ++ n :: rest).get? known.length = some n := by
      rw [List.get?_eq_getElem?, List.getElem?_append_right (le_refl _)]
      simp
    rw [hb, hl]
    simp only [hget]
    rfl
  rw [herr] at h2 h3
  refine ⟨hnames, h1, h2, ⟨_, h3, rfl, ?_, rfl⟩, ?_⟩
  · rw [List.length_map, hl]
  · intro hnil
    subst hnil
    refine ⟨?_, _, h3, ?_⟩
    · rw [h1]; simp [resolveSteps, callAll]
    · simp [resolveSteps, callAll]

/-- C11 at the sample input for a list whose second name is unknown: the
first tool is invoked before the error is reported. -/
theorem C11_partial_execute_unknown_step_witness :
    calls ((NewYtbToBiliChain sampleBodies).PartialExecute sampleInput
        (["download_video"] ++ "nope" :: ["extract_audio"]) []).trace =
      [⟨"download_video", "abc", "video.mp4", none⟩] ∧
    ((NewYtbToBiliChain sampleBodies).PartialExecute sampleInput
        (["download_video"] ++ "nope" :: ["extract_audio"]) []).err =
      some (.errorString "unknown step: nope") := by
  obtain ⟨_, h1, h2, _, _⟩ := C11_partial_execute_unknown_step (NewYtbToBiliChain sampleBodies)
    sampleInput [] "abc" ["download_video"] "nope" ["extract_audio"] _ rfl (by decide)
    (by decide) (by decide) rfl (by decide)
  exact ⟨by rw [h1]; decide, by rw [h2]; decide⟩

/-- C11 as stated fails: with the unknown name in second place the tool named
first is invoked and recorded before the error is returned. -/
theorem C11_counterexample :
    (calls ((NewYtbToBiliChain sampleBodies).PartialExecute sampleInput
        ["download_video", "nope"] []).trace).length = 1 ∧
    ((NewYtbToBiliChain sampleBodies).PartialExecute sampleInput
        ["download_video", "nope"] []).out.map (fun o => o.Steps.length) = some 1 ∧
    ((NewYtbToBiliChain sampleBodies).PartialExecute sampleInput
        ["download_video", "nope"] []).err = some (.errorString "unknown step: nope") := by
  decide

/-- C12. The map `toolMap` of `PartialExecute` has exactly the `Name()` values of
the seven tools of `Execute` as keys (each once, in pipeline order here), and
under every key it stores the very tool that `Execute` runs under that name:
the same constructor applied to the same video id.  So `toolMap[k].Name() = k`,
and a name is a key exactly when it is a pipeline name. -/
theorem C12_toolMap_matches_pipeline (c : YtbToBiliChain) (v : String) :
    (c.toolMap v).map Prod.fst = (c.toolChain v).map (fun p => p.1.Name) ∧
    (c.toolMap v).map Prod.snd = (c.toolChain v).map Prod.fst ∧
    (c.toolMap v).map Prod.fst = pipelineNames ∧
    ((c.toolMap v).map Prod.fst).Nodup ∧
    (∀ k t, (c.toolMap v).lookup k = some t → t.Name = k) ∧
    (∀ k t, (c.toolMap v).lookup k = some t → t ∈ (c.toolChain v).map Prod.fst) ∧
    (∀ k, (∃ t, (c.toolMap v).lookup k = some t) ↔ k ∈ pipelineNames) := by
  have hnodup : ((c.toolMap v).map Prod.fst).Nodup := by
    rw [show (c.toolMap v).map Prod.fst = pipelineNames from rfl]
    decide
  refine ⟨rfl, rfl, rfl, hnodup, toolMap_name c v, ?_, ?_⟩
  · intro k t h
    simp only [YtbToBiliChain.toolMap, List.lookup] at h
    repeat' split at h
    all_goals first
      | (cases h; simp [YtbToBiliChain.toolChain])
      | simp at h
  · intro k
    constructor
    · rintro ⟨t, ht⟩
      by_contra hk
      rw [toolMap_lookup_none c v k hk] at ht
      cases ht
    · exact toolMap_lookup_of_mem c v k

/-! ## Result snapshots in the metadata -/

theorem lookup_cons_eq (k k' : String) (v : Any) (rest : List (String × Any)) :
    List.lookup k' ((k, v) :: rest) = if k' = k then some v else List.lookup k' rest := by
  by_cases h : k' = k
  · simp [List.lookup, h]
  · have hb : (k' == k) = false := beq_false_of_ne h
    simp [List.lookup, h, hb]

theorem GoMap.get_set (m : GoMap) (k k' : String) (v : Any) :
    (GoMap.set m k v).get k' = if k' = k then some v else m.get k' := by
  induction m with
  | nil =>
    simp only [GoMap.set, GoMap.get, lookup_cons_eq]
  | cons p rest ih =>
    obtain ⟨k0, v0⟩ := p
    simp only [GoMap.get] at ih ⊢
    by_cases h0 : k0 = k
    · subst h0
      simp only [GoMap.set, ↓reduceIte, lookup_cons_eq]
      by_cases h : k' = k0 <;> simp [h]
    · simp only [GoMap.set, h0, ↓reduceIte, lookup_cons_eq, ih]
      by_cases h : k' = k
      · subst h
        have : ¬ k' = k0 := fun h' => h0 h'.symm
        simp [this]
      · simp [h]

theorem GoMap.keys_set_new (m : GoMap) (k : String) (v : Any) (hk : k ∉ m.map Prod.fst) :
    (GoMap.set m k v).map Prod.fst = m.map Prod.fst ++ [k] := by
  induction m with
  | nil => rfl
  | cons p rest ih =>
    obtain ⟨k0, v0⟩ := p
    have h0 : ¬ k0 = k := fun h => hk (by simp [h])
    have hr : k ∉ rest.map Prod.fst := fun h => hk (by simp at h ⊢; exact Or.inr h)
    simp [GoMap.set, h0, ih hr]

theorem get_recordResults (made : List CallRec) (key : String) :
    ∀ m : GoMap, (recordResults m made).get key =
      match (made.filter (fun c => c.err = none ∧ c.tool ++ "_result" = key)).getLast? with
      | some c => some (Any.str c.output)
      | none => m.get key := by
  induction made with
  | nil => intro m; simp [recordResults]
  | cons c rest ih =>
    intro m
    cases hc : c.err with
    | some e => simp [recordResults, hc, ih m]
    | none =>
      simp only [recordResults, hc]
      rw [ih]
      by_cases hk : c.tool ++ "_result" = key
      · subst hk
        have hfc : (c :: rest).filter
            (fun d => d.err = none ∧ d.tool ++ "_result" = c.tool ++ "_result") =
            c :: rest.filter
              (fun d => d.err = none ∧ d.tool ++ "_result" = c.tool ++ "_result") := by
          simp [List.filter_cons, hc]
        rw [hfc]
        generalize rest.filter
          (fun d => d.err = none ∧ d.tool ++ "_result" = c.tool ++ "_result") = l
        cases l with
        | nil => simp [GoMap.get_set]
        | cons d ds =>
          rw [List.getLast?_cons_cons]
          obtain ⟨x, hx⟩ : ∃ x, (d :: ds).getLast? = some x :=
            ⟨_, List.getLast?_eq_getLast _ (List.cons_ne_nil _ _)⟩
          simp [hx]
      · have hk' : ¬ key = c.tool ++ "_result" := fun h => hk h.symm
        simp [hc, hk, GoMap.get_set, hk']

theorem keys_recordResults (made : List CallRec) :
    ∀ m : GoMap,
      (m.map Prod.fst ++
        (made.filter (fun c => c.err = none)).map (fun c => c.tool ++ "_result")).Nodup →
      (recordResults m made).map Prod.fst =
        m.map Prod.fst ++
          (made.filter (fun c => c.err = none)).map (fun c => c.tool ++ "_result") := by
  induction made with
  | nil => intro m _; simp [recordResults]
  | cons c rest ih =>
    intro m hnd
    cases hc : c.err with
    | some e =>
      simp only [recordResults, hc]
      simp only [hc, List.filter_cons] at hnd
      simpa [hc] using ih m (by simpa using hnd)
    | none =>
      simp only [recordResults, hc]
      have hnd2 : (m.map Prod.fst ++ ((c.tool ++ "_result") ::
          (rest.filter (fun c => c.err = none)).map (fun c => c.tool ++ "_result"))).Nodup := by
        simpa [hc] using hnd
      have hnew : c.tool ++ "_result" ∉ m.map Prod.fst := by
        intro h
        have := (List.nodup_append.mp hnd2).2.2 h (List.mem_cons_self _ _)
        exact this
      have hkeys := GoMap.keys_set_new m (c.tool ++ "_result") (.str c.output) hnew
      have := ih (GoMap.set m (c.tool ++ "_result") (.str c.output))
        (by rw [hkeys, List.append_assoc]; simpa using hnd2)
      rw [this, hkeys]
      simp [hc]

theorem throughFirstFailure_cases (plan : List CallRec) :
    (throughFirstFailure plan = plan ∧ ∀ x ∈ plan, x.err = none) ∨
    (∃ pre x e, throughFirstFailure plan = pre ++ [x] ∧ x.err = some e ∧
      ∀ y ∈ pre, y.err = none) := by
  induction plan with
  | nil => exact Or.inl ⟨rfl, by simp⟩
  | cons c rest ih =>
    cases hc : c.err with
    | some e => exact Or.inr ⟨[], c, e, by simp [throughFirstFailure, hc], hc, by simp⟩
    | none =>
      rcases ih with ⟨h1, h2⟩ | ⟨pre, x, e, h1, h2, h3⟩
      · refine Or.inl ⟨by simp [throughFirstFailure, hc, h1], ?_⟩
        intro y hy
        rcases List.mem_cons.mp hy with h | h
        · rw [h]; exact hc
        · exact h2 y h
      · refine Or.inr ⟨c :: pre, x, e, by simp [throughFirstFailure, hc, h1], h2, ?_⟩
        intro y hy
        rcases List.mem_cons.mp hy with h | h
        · rw [h]; exact hc
        · exact h3 y h

theorem filter_ok_of_ok (l : List CallRec) (h : ∀ x ∈ l, x.err = none) :
    l.filter (fun c => c.err = none) = l := by
  rw [List.filter_eq_self]
  intro x hx
  simp [h x hx]

theorem get_recordResults_steps (made : List CallRec) (key : String) :
    GoMap.get (recordResults [] made) key =
      (((made.map CallRec.toStep).filter
        (fun s => s.Error = none ∧ s.ToolName ++ "_result" = key)).getLast?).map
        (fun s => Any.str s.Output) := by
  rw [get_recordResults, List.filter_map, List.getLast?_map]
  have hf : (fun s : StepRecord => decide (s.Error = none ∧ s.ToolName ++ "_result" = key)) ∘
      CallRec.toStep = fun c => decide (c.err = none ∧ c.tool ++ "_result" = key) := rfl
  rw [hf]
  cases (made.filter (fun c => c.err = none ∧ c.tool ++ "_result" = key)).getLast? with
  | none => rfl
  | some x => rfl

theorem pipeline_keys_nodup (n : Nat) :
    ((pipelineNames.take n).map (fun s => s ++ "_result")).Nodup := by
  have h : (pipelineNames.map (fun s => s ++ "_result")).Nodup := by decide
  exact h.sublist ((List.take_sublist n pipelineNames).map _)

/-- C13. In every output returned by `YtbToBiliChain.Execute` or `PartialExecute`
(with or without an error) the metadata holds under a key exactly the
output of the latest successful step record whose name followed by `_result`
is that key, and holds nothing under a key that no successful record
yields.  For an `Execute` run that fails at position `k` (an error and `k` step
records) the keys are exactly the `<name>_result` of steps 1..k-1, and for a
successful run exactly those of all seven steps. -/
theorem C13_metadata_snapshots (c : YtbToBiliChain) (input : ChainInput) (steps : List String)
    (tr : Trace) :
    (∀ out, (c.Execute input tr).out = some out →
      (∀ key, out.Metadata.get key =
        ((out.Steps.filter
          (fun s => s.Error = none ∧ s.ToolName ++ "_result" = key)).getLast?).map
          (fun s => Any.str s.Output)) ∧
      ((c.Execute input tr).err = none →
        out.Metadata.map Prod.fst = pipelineNames.map (fun n => n ++ "_result")) ∧
      (∀ k, (c.Execute input tr).err ≠ none → out.Steps.length = k →
        out.Metadata.map Prod.fst =
          (pipelineNames.take (k - 1)).map (fun n => n ++ "_result"))) ∧
    (∀ out, (c.PartialExecute input steps tr).out = some out →
      ∀ key, out.Metadata.get key =
        ((out.Steps.filter
          (fun s => s.Error = none ∧ s.ToolName ++ "_result" = key)).getLast?).map
          (fun s => Any.str s.Output)) := by
  constructor
  · intro out hout
    by_cases hm : videoIDMissing input
    · rw [videoIDMissing_iff] at hm
      rw [Execute_missing c input tr hm] at hout
      cases hout
    · obtain ⟨v, hid, hv⟩ := not_videoIDMissing input hm
      obtain ⟨_, h2, h3⟩ := Execute_spec c input tr v hid hv
      rw [h3] at hout
      cases hout
      refine ⟨fun key => get_recordResults_steps _ key, ?_, ?_⟩
      · intro herr
        rw [h2] at herr
        rcases throughFirstFailure_cases (callAll (c.toolChain v) (effects tr)) with
          ⟨h, hok⟩ | ⟨pre, x, e, h, hx, _⟩
        · simp only [h]
          have hk := keys_recordResults (callAll (c.toolChain v) (effects tr)) []
          rw [filter_ok_of_ok _ hok] at hk
          have hn : (callAll (c.toolChain v) (effects tr)).map (fun c => c.tool ++ "_result") =
              pipelineNames.map (fun n => n ++ "_result") := by
            rw [← callAll_toolChain_tools c v (effects tr), List.map_map]
            rfl
          rw [hn] at hk
          exact hk (by simp [pipelineNames])
        · rw [h] at herr
          simp [executeError, hx] at herr
      · intro k herr hlen
        rw [h2] at herr
        rcases throughFirstFailure_cases (callAll (c.toolChain v) (effects tr)) with
          ⟨h, hok⟩ | ⟨pre, x, e, h, hx, hpre⟩
        · rw [h, executeError_of_ok _ _ hok] at herr
          exact absurd rfl herr
        · simp only [h] at hlen ⊢
          have hk1 : k - 1 = pre.length := by
            simp at hlen
            omega
          obtain ⟨m, hm1, _, _⟩ :=
            throughFirstFailure_eq_take (callAll (c.toolChain v) (effects tr))
          have htools : (pre ++ [x]).map (fun c => c.tool) = pipelineNames.take m := by
            rw [← h, hm1, List.map_take, callAll_toolChain_tools]
          have hpt : pre.map (fun c => c.tool) = pipelineNames.take pre.length := by
            have h5 := congrArg (List.take pre.length) htools
            rw [List.map_append, List.take_left' (by simp), List.take_take] at h5
            have hml : pre.length + 1 = (pipelineNames.take m).length := by
              rw [← htools]; simp
            have hle : pre.length ≤ m := by
              rw [List.length_take] at hml
              omega
            rw [Nat.min_eq_left hle] at h5
            exact h5
          have hfil : (pre ++ [x]).filter (fun c => c.err = none) = pre := by
            rw [List.filter_append, filter_ok_of_ok _ hpre]
            simp [hx]
          have hk := keys_recordResults (pre ++ [x]) []
          rw [hfil] at hk
          have hn : pre.map (fun c => c.tool ++ "_result") =
              (pipelineNames.take (k - 1)).map (fun n => n ++ "_result") := by
            rw [hk1, ← hpt, List.map_map]
            rfl
          rw [hn] at hk
          exact hk (by simpa using pipeline_keys_nodup (k - 1))
  · intro out hout key
    by_cases hm : videoIDMissing input
    · rw [videoIDMissing_iff] at hm
      rw [PartialExecute_missing c input steps tr hm] at hout
      cases hout
    · obtain ⟨v, hid, hv⟩ := not_videoIDMissing input hm
      obtain ⟨_, _, h3⟩ := PartialExecute_spec c input steps tr v hid hv
      rw [h3] at hout
      cases hout
      exact get_recordResults_steps _ key

/-! ## The planning loop -/

theorem chats_append (a b : Trace) : chats (a ++ b) = chats a ++ chats b := by
  induction a with
  | nil => rfl
  | cons e rest ih => cases e <;> simp [chats, ih]

@[simp] theorem chats_logInfo (tr : Trace) (m : String) (f : List (String × String)) :
    chats (logInfo tr m f) = chats tr := by
  simp [logInfo, chats_append, chats]

@[simp] theorem chats_invoke (t : Tool) (inp : String) (tr : Trace) :
    chats (t.invoke inp tr).2 = chats tr := by
  simp [Tool.invoke, chats_append, chats]

theorem effects_afterChat (c : AgentChain) (s : AgentState) :
    effects (c.afterChat s) =
      effects s.trace ++ [Event.chat ⟨s.messages, (c.responseAt s).1, (c.responseAt s).2⟩] := by
  simp [AgentChain.afterChat, LLMClient.invoke, effects_append, effects, AgentChain.responseAt]

theorem chats_afterChat (c : AgentChain) (s : AgentState) :
    chats (c.afterChat s) =
      chats s.trace ++ [⟨s.messages, (c.responseAt s).1, (c.responseAt s).2⟩] := by
  simp [AgentChain.afterChat, LLMClient.invoke, chats_append, chats, AgentChain.responseAt]

theorem calls_afterChat (c : AgentChain) (s : AgentState) :
    calls (c.afterChat s) = calls s.trace := by
  simp [AgentChain.afterChat, LLMClient.invoke, calls_append, calls]

theorem actionAt_some (c : AgentChain) (s : AgentState) (a : AgentAction)
    (h : c.actionAt s = some a) :
    (c.responseAt s).2 = none ∧ c.parseAction (c.responseAt s).1 = .ok a := by
  unfold AgentChain.actionAt at h
  cases h2 : (c.responseAt s).2 with
  | some e => simp [h2] at h
  | none =>
    simp only [h2] at h
    cases h3 : c.parseAction (c.responseAt s).1 with
    | error e => simp [h3] at h
    | ok b =>
      simp only [h3, Option.some.injEq] at h
      exact ⟨rfl, by rw [h]⟩

theorem invoke_chat_fst (c : AgentChain) (s : AgentState) :
    (c.agent.LLM.invoke s.messages (logInfo s.trace "Agent iteration"
      [("iteration", toString (s.i + 1)), ("max", toString c.maxIterations)])).1 =
      c.responseAt s := by
  simp [LLMClient.invoke, AgentChain.responseAt]

/-- The loop body when the planner call fails. -/
theorem body_chat_failed (c : AgentChain) (s : AgentState) (e : GoError)
    (h : (c.responseAt s).2 = some e) :
    AgentChain.Execute.body c s = .returned ⟨some s.output,
      some (.wrapError ("LLM chat failed at iteration " ++ toString (s.i + 1) ++ ": " ++
        e.Error) e), c.afterChat s⟩ := by
  unfold AgentChain.Execute.body
  simp only [invoke_chat_fst, h]
  rfl

/-- The loop body when the planner's response does not parse. -/
theorem body_parse_failed (c : AgentChain) (s : AgentState) (e : GoError)
    (h : (c.responseAt s).2 = none) (hp : c.parseAction (c.responseAt s).1 = .error e) :
    AgentChain.Execute.body c s = .returned ⟨some s.output,
      some (.wrapError ("failed to parse LLM response: " ++ e.Error) e), c.afterChat s⟩ := by
  unfold AgentChain.Execute.body
  simp only [invoke_chat_fst, h, hp]
  rfl

/-- The loop body when the planner's response is a finish action. -/
theorem body_finish (c : AgentChain) (s : AgentState) (a : AgentAction)
    (h : c.actionAt s = some a) (hf : a.Type_ = "finish") :
    AgentChain.Execute.body c s = .returned ⟨some { s.output with Result := a.Result }, none,
      logInfo (c.afterChat s) "Agent chain completed"
        [("iterations", toString (s.i + 1)), ("result", a.Result)]⟩ := by
  obtain ⟨h1, h2⟩ := actionAt_some c s a h
  unfold AgentChain.Execute.body
  simp only [invoke_chat_fst, h1, h2, hf, ↓reduceIte]
  rfl

/-- The loop body when the planner names a tool that is not registered. -/
theorem body_unknown_tool (c : AgentChain) (s : AgentState) (a : AgentAction)
    (h : c.actionAt s = some a) (ht : a.Type_ = "tool")
    (hl : c.agent.Tools.lookup a.ToolName = none) :
    AgentChain.Execute.body c s = .returned ⟨some s.output,
      some (.errorString ("unknown tool: " ++ a.ToolName)), c.afterChat s⟩ := by
  obtain ⟨h1, h2⟩ := actionAt_some c s a h
  have hnf : ¬ a.Type_ = "finish" := by rw [ht]; decide
  unfold AgentChain.Execute.body
  simp only [invoke_chat_fst, h1, h2, hnf, ht, hl, ↓reduceIte]
  rfl

/-- The loop body when the planner names a registered tool: the tool is
invoked, a step record and two messages are appended, and the loop goes
on, whether the tool succeeded or not. -/
theorem body_tool (c : AgentChain) (s : AgentState) (a : AgentAction) (t : DescribedTool)
    (h : c.actionAt s = some a) (ht : a.Type_ = "tool")
    (hl : c.agent.Tools.lookup a.ToolName = some t) :
    AgentChain.Execute.body c s = .continued
      { i := s.i + 1
        output := { s.output with
          Steps := s.output.Steps ++
            [⟨a.ToolName, a.ToolInput, (c.toolResultAt s a t).1, (c.toolResultAt s a t).2⟩] }
        messages := s.messages ++ toolMessages (c.responseAt s).1 a (c.toolResultAt s a t)
        trace := (t.toTool.invoke a.ToolInput (logInfo (c.afterChat s) "Agent calling tool"
          [("tool", a.ToolName), ("input", a.ToolInput)])).2 } := by
  obtain ⟨h1, h2⟩ := actionAt_some c s a h
  have hd : ¬ ("tool" : String) = "finish" := by decide
  unfold AgentChain.Execute.body
  simp only [invoke_chat_fst, h1, h2, ht, hd, hl, ↓reduceIte, invoke_fst, effects_logInfo]
  cases hr : (c.toolResultAt s a t).2 with
  | some e =>
    have hr2 : (t.Call (effects (c.afterChat s)) a.ToolInput).2 = some e := hr
    unfold AgentChain.afterChat at hr2
    simp only [AgentChain.toolResultAt, toolMessages, hr2, List.append_assoc,
      List.singleton_append, AgentChain.afterChat]
  | none =>
    have hr2 : (t.Call (effects (c.afterChat s)) a.ToolInput).2 = none := hr
    unfold AgentChain.afterChat at hr2
    simp only [AgentChain.toolResultAt, toolMessages, hr2, List.append_assoc,
      List.singleton_append, AgentChain.afterChat]

/-- The loop body when the action's kind is neither `finish` nor `tool`: nothing
is recorded and the loop goes on. -/
theorem body_other (c : AgentChain) (s : AgentState) (a : AgentAction)
    (h : c.actionAt s = some a) (hnf : a.Type_ ≠ "finish") (hnt : a.Type_ ≠ "tool") :
    AgentChain.Execute.body c s = .continued
      { i := s.i + 1, output := s.output, messages := s.messages, trace := c.afterChat s } := by
  obtain ⟨h1, h2⟩ := actionAt_some c s a h
  unfold AgentChain.Execute.body
  simp only [invoke_chat_fst, h1, h2, hnf, hnt, ↓reduceIte]
  rfl

theorem actionAt_of_parse (c : AgentChain) (s : AgentState) (a : AgentAction)
    (h : (c.responseAt s).2 = none) (hp : c.parseAction (c.responseAt s).1 = .ok a) :
    c.actionAt s = some a := by
  unfold AgentChain.actionAt
  simp only [h, hp]

/-- Every way in which the loop body reaches its end. -/
theorem body_continued_cases (c : AgentChain) (s s' : AgentState)
    (h : AgentChain.Execute.body c s = .continued s') :
    ∃ a, c.actionAt s = some a ∧ a.Type_ ≠ "finish" ∧
      ((a.Type_ = "tool" ∧ ∃ t, c.agent.Tools.lookup a.ToolName = some t ∧
          s' = { i := s.i + 1
                 output := { s.output with
                   Steps := s.output.Steps ++ [⟨a.ToolName, a.ToolInput,
                     (c.toolResultAt s a t).1, (c.toolResultAt s a t).2⟩] }
                 messages := s.messages ++
                   toolMessages (c.responseAt s).1 a (c.toolResultAt s a t)
                 trace := (t.toTool.invoke a.ToolInput
                   (logInfo (c.afterChat s) "Agent calling tool"
                     [("tool", a.ToolName), ("input", a.ToolInput)])).2 }) ∨
       (a.Type_ ≠ "tool" ∧
          s' = { i := s.i + 1, output := s.output, messages := s.messages,
                 trace := c.afterChat s })) := by
  cases h1 : (c.responseAt s).2 with
  | some e => rw [body_chat_failed c s e h1] at h; cases h
  | none =>
    cases h2 : c.parseAction (c.responseAt s).1 with
    | error e => rw [body_parse_failed c s e h1 h2] at h; cases h
    | ok a =>
      have ha := actionAt_of_parse c s a h1 h2
      by_cases hf : a.Type_ = "finish"
      · rw [body_finish c s a ha hf] at h; cases h
      · refine ⟨a, ha, hf, ?_⟩
        by_cases ht : a.Type_ = "tool"
        · cases hl : c.agent.Tools.lookup a.ToolName with
          | none => rw [body_unknown_tool c s a ha ht hl] at h; cases h
          | some t =>
            rw [body_tool c s a t ha ht hl] at h
            exact Or.inl ⟨ht, t, rfl, (Iteration.continued.inj h).symm⟩
        · rw [body_other c s a ha hf ht] at h
          exact Or.inr ⟨ht, (Iteration.continued.inj h).symm⟩

/-- Every way in which the loop body returns. -/
theorem body_returned_cases (c : AgentChain) (s : AgentState) (r : Run)
    (h : AgentChain.Execute.body c s = .returned r) :
    (∃ e, (c.responseAt s).2 = some e ∧
      r = ⟨some s.output, some (.wrapError ("LLM chat failed at iteration " ++
        toString (s.i + 1) ++ ": " ++ e.Error) e), c.afterChat s⟩) ∨
    (∃ e, (c.responseAt s).2 = none ∧ c.parseAction (c.responseAt s).1 = .error e ∧
      r = ⟨some s.output, some (.wrapError ("failed to parse LLM response: " ++ e.Error) e),
        c.afterChat s⟩) ∨
    (∃ a, c.actionAt s = some a ∧ a.Type_ = "finish" ∧
      r = ⟨some { s.output with Result := a.Result }, none,
        logInfo (c.afterChat s) "Agent chain completed"
          [("iterations", toString (s.i + 1)), ("result", a.Result)]⟩) ∨
    (∃ a, c.actionAt s = some a ∧ a.Type_ = "tool" ∧
      c.agent.Tools.lookup a.ToolName = none ∧
      r = ⟨some s.output, some (.errorString ("unknown tool: " ++ a.ToolName)),
        c.afterChat s⟩) := by
  cases h1 : (c.responseAt s).2 with
  | some e =>
    rw [body_chat_failed c s e h1] at h
    exact Or.inl ⟨e, rfl, (Iteration.returned.inj h).symm⟩
  | none =>
    cases h2 : c.parseAction (c.responseAt s).1 with
    | error e =>
      rw [body_parse_failed c s e h1 h2] at h
      exact Or.inr (Or.inl ⟨e, rfl, rfl, (Iteration.returned.inj h).symm⟩)
    | ok a =>
      have ha := actionAt_of_parse c s a h1 h2
      by_cases hf : a.Type_ = "finish"
      · rw [body_finish c s a ha hf] at h
        exact Or.inr (Or.inr (Or.inl ⟨a, ha, hf, (Iteration.returned.inj h).symm⟩))
      · by_cases ht : a.Type_ = "tool"
        · cases hl : c.agent.Tools.lookup a.ToolName with
          | none =>
            rw [body_unknown_tool c s a ha ht hl] at h
            exact Or.inr (Or.inr (Or.inr ⟨a, ha, ht, hl, (Iteration.returned.inj h).symm⟩))
          | some t => rw [body_tool c s a t ha ht hl] at h; cases h
        · rw [body_other c s a ha hf ht] at h; cases h

theorem stateAt_succ (c : AgentChain) (s0 s' : AgentState) (k : Nat)
    (h : c.stateAt s0 (k + 1) = some s') :
    ∃ s, c.stateAt s0 k = some s ∧ AgentChain.Execute.body c s = .continued s' := by
  simp only [AgentChain.stateAt] at h
  cases hs : c.stateAt s0 k with
  | none => simp [hs] at h
  | some s =>
    simp only [hs] at h
    cases hb : AgentChain.Execute.body c s with
    | returned r => simp [hb] at h
    | continued s2 =>
      simp only [hb, Option.some.injEq] at h
      exact ⟨s, rfl, by rw [← h]; exact hb⟩

theorem stateAt_step (c : AgentChain) (s0 s s' : AgentState) (k : Nat)
    (hs : c.stateAt s0 k = some s) (hb : AgentChain.Execute.body c s = .continued s') :
    c.stateAt s0 (k + 1) = some s' := by
  simp only [AgentChain.stateAt, hs, hb]

/-- A run that has reached the top of iteration `k + 1` goes on from there. -/
theorem loop_stateAt (c : AgentChain) (s0 : AgentState) (k : Nat) :
    ∀ (n : Nat) (s : AgentState), c.stateAt s0 k = some s → k ≤ n →
      AgentChain.Execute.loop c n s0 = AgentChain.Execute.loop c (n - k) s := by
  induction k with
  | zero =>
    intro n s hs _
    simp only [AgentChain.stateAt, Option.some.injEq] at hs
    rw [hs, Nat.sub_zero]
  | succ k ih =>
    intro n s' hs hk
    obtain ⟨s, h1, h2⟩ := stateAt_succ c s0 s' k hs
    rw [ih n s h1 (by omega)]
    obtain ⟨m, hm⟩ : ∃ m, n - k = m + 1 := ⟨n - k - 1, by omega⟩
    rw [hm]
    simp only [AgentChain.Execute.loop, h2]
    congr 1
    omega

/-- What one pass through the loop body that reaches its end adds: one
planner call, at most one tool invocation, and a step record exactly when a
tool was invoked. -/
theorem body_continued_counts (c : AgentChain) (s s' : AgentState)
    (h : AgentChain.Execute.body c s = .continued s') :
    s'.i = s.i + 1 ∧
    chats s'.trace = chats s.trace ++ [⟨s.messages, (c.responseAt s).1, none⟩] ∧
    s'.output.Result = s.output.Result ∧
    ∃ cs news, calls s'.trace = calls s.trace ++ cs ∧ cs.length ≤ 1 ∧
      s'.output.Steps = s.output.Steps ++ news ∧
      news.map (fun st => (st.Input, st.Output, st.Error)) =
        cs.map (fun x => (x.input, x.output, x.err)) := by
  obtain ⟨a, ha, _, hc⟩ := body_continued_cases c s s' h
  obtain ⟨hr, _⟩ := actionAt_some c s a ha
  rcases hc with ⟨_, t, _, rfl⟩ | ⟨_, rfl⟩
  · refine ⟨rfl, ?_, rfl, [⟨t.Name, a.ToolInput, (c.toolResultAt s a t).1,
      (c.toolResultAt s a t).2⟩], [⟨a.ToolName, a.ToolInput, (c.toolResultAt s a t).1,
      (c.toolResultAt s a t).2⟩], ?_, by simp, rfl, by simp⟩
    · simp only [chats_invoke, chats_logInfo, chats_afterChat, hr]
    · simp only [calls_invoke, calls_logInfo, calls_afterChat, effects_logInfo]
      rfl
  · refine ⟨rfl, ?_, rfl, [], [], by simp [calls_afterChat], by simp, by simp, rfl⟩
    simp only [chats_afterChat, hr]

/-- What one pass through the loop body that returns adds: one planner call,
no tool invocation and no step record. -/
theorem body_returned_counts (c : AgentChain) (s : AgentState) (r : Run)
    (h : AgentChain.Execute.body c s = .returned r) :
    chats r.trace = chats s.trace ++ [⟨s.messages, (c.responseAt s).1, (c.responseAt s).2⟩] ∧
    calls r.trace = calls s.trace ∧
    ∃ out, r.out = some out ∧ out.Steps = s.output.Steps ∧
      (r.err ≠ none → out.Result = s.output.Result) := by
  rcases body_returned_cases c s r h with ⟨e, _, rfl⟩ | ⟨e, _, _, rfl⟩ | ⟨a, _, _, rfl⟩ |
    ⟨a, _, _, _, rfl⟩
  · exact ⟨chats_afterChat c s, calls_afterChat c s, _, rfl, rfl, fun _ => rfl⟩
  · exact ⟨chats_afterChat c s, calls_afterChat c s, _, rfl, rfl, fun _ => rfl⟩
  · refine ⟨by simp [chats_afterChat], by simp [calls_afterChat], _, rfl, rfl, ?_⟩
    intro hne
    exact absurd rfl hne
  · exact ⟨chats_afterChat c s, calls_afterChat c s, _, rfl, rfl, fun _ => rfl⟩

/-- What holds at the top of iteration `k + 1`: `k` planner calls have been made,
`Result` is untouched, and the step records added so far document, in order,
the tool invocations made so far (at most `k`). -/
theorem stateAt_inv (c : AgentChain) (s0 : AgentState) (k : Nat) :
    ∀ s, c.stateAt s0 k = some s →
      s.i = s0.i + k ∧
      (chats s.trace).length = (chats s0.trace).length + k ∧
      s.output.Result = s0.output.Result ∧
      ∃ cs news, calls s.trace = calls s0.trace ++ cs ∧ cs.length ≤ k ∧
        s.output.Steps = s0.output.Steps ++ news ∧
        news.map (fun st => (st.Input, st.Output, st.Error)) =
          cs.map (fun x => (x.input, x.output, x.err)) := by
  induction k with
  | zero =>
    intro s hs
    simp only [AgentChain.stateAt, Option.some.injEq] at hs
    subst hs
    exact ⟨rfl, rfl, rfl, [], [], by simp, by simp, by simp, rfl⟩
  | succ k ih =>
    intro s' hs
    obtain ⟨s, h1, h2⟩ := stateAt_succ c s0 s' k hs
    obtain ⟨a1, a2, a3, cs, news, a4, a5, a6, a7⟩ := ih s h1
    obtain ⟨b1, b2, b3, cs2, news2, b4, b5, b6, b7⟩ := body_continued_counts c s s' h2
    refine ⟨by omega, ?_, b3.trans a3, cs ++ cs2, news ++ news2, ?_, ?_, ?_, ?_⟩
    · rw [b2, List.length_append, a2]
      simp
      omega
    · rw [b4, a4, List.append_assoc]
    · rw [List.length_append]; omega
    · rw [b6, a6, List.append_assoc]
    · rw [List.map_append, List.map_append, a7, b7]

theorem stateAt_steps_extend (c : AgentChain) (s0 sj : AgentState) (j : Nat)
    (hj : c.stateAt s0 j = some sj) (d : Nat) :
    ∀ sk, c.stateAt s0 (j + d) = some sk →
      ∃ more, sk.output.Steps = sj.output.Steps ++ more := by
  induction d with
  | zero =>
    intro sk hk
    rw [Nat.add_zero, hj] at hk
    cases hk
    exact ⟨[], by simp⟩
  | succ d ih =>
    intro sk hk
    obtain ⟨s, h1, h2⟩ := stateAt_succ c s0 sk (j + d) hk
    obtain ⟨more, hm⟩ := ih s h1
    obtain ⟨_, _, _, _, news, _, _, h6, _⟩ := body_continued_counts c s sk h2
    exact ⟨more ++ news, by rw [h6, hm, List.append_assoc]⟩

/-- A run whose first `k` responses are tool actions naming registered tools
has `k` step records and has made `k` tool invocations at the top of
iteration `k + 1`. -/
theorem stateAt_tools_length (c : AgentChain) (s0 : AgentState) (k : Nat)
    (htools : ∀ j, j < k → ∃ sj aj tj, c.stateAt s0 j = some sj ∧ c.actionAt sj = some aj ∧
      aj.Type_ = "tool" ∧ c.agent.Tools.lookup aj.ToolName = some tj) :
    ∃ s, c.stateAt s0 k = some s ∧
      s.output.Steps.length = s0.output.Steps.length + k ∧
      (calls s.trace).length = (calls s0.trace).length + k := by
  induction k with
  | zero => exact ⟨s0, rfl, rfl, rfl⟩
  | succ k ih =>
    obtain ⟨s, h1, h2, h3⟩ := ih (fun j hj => htools j (by omega))
    obtain ⟨sj, aj, tj, g1, g2, g3, g4⟩ := htools k (by omega)
    rw [h1] at g1
    cases g1
    have hb := body_tool c s aj tj g2 g3 g4
    refine ⟨_, stateAt_step c s0 s _ k h1 hb, ?_, ?_⟩
    · simp only [List.length_append, List.length_singleton, h2]
      omega
    · simp only [calls_invoke, calls_logInfo, calls_afterChat, List.length_append,
        List.length_singleton, h3]
      omega

theorem initState_facts (c : AgentChain) (input : ChainInput) (tr : Trace) :
    (c.initState input tr).i = 0 ∧
    (c.initState input tr).output = { Result := "", Steps := [], Metadata := [] } ∧
    chats (c.initState input tr).trace = chats tr ∧
    calls (c.initState input tr).trace = calls tr ∧
    effects (c.initState input tr).trace = effects tr ∧
    (c.initState input tr).messages =
      [⟨"system", c.buildSystemPrompt, ""⟩, ⟨"user", input.Query, ""⟩] := by
  simp [AgentChain.initState]

/-- A run returns what the loop body returns in the first iteration whose
body returns, when that iteration is within the cap. -/
theorem Execute_returns_at (c : AgentChain) (input : ChainInput) (tr : Trace) (k : Nat)
    (s : AgentState) (r : Run) (hs : c.stateAt (c.initState input tr) k = some s)
    (hk : k < c.maxIterations.toNat) (hb : AgentChain.Execute.body c s = .returned r) :
    c.Execute input tr = r := by
  unfold AgentChain.Execute
  rw [loop_stateAt c _ k _ s hs (by omega)]
  obtain ⟨m, hm⟩ : ∃ m, c.maxIterations.toNat - k = m + 1 :=
    ⟨c.maxIterations.toNat - k - 1, by omega⟩
  rw [hm]
  simp only [AgentChain.Execute.loop, hb]

/-- A run whose `cap` iterations all reach the end of the loop body returns the
exhaustion error. -/
theorem Execute_exhausts_at (c : AgentChain) (input : ChainInput) (tr : Trace)
    (s : AgentState)
    (hs : c.stateAt (c.initState input tr) c.maxIterations.toNat = some s) :
    c.Execute input tr = ⟨some s.output,
      some (.errorString ("reached maximum iterations (" ++ toString c.maxIterations ++
        ") without completion")), s.trace⟩ := by
  unfold AgentChain.Execute
  rw [loop_stateAt c _ _ _ s hs (le_refl _), Nat.sub_self]
  rfl

/-- A state and the action parsed in it, read off from an evaluation. -/
theorem stateAt_action_of_bind (c : AgentChain) (s0 : AgentState) (k : Nat) (a : AgentAction)
    (h : (c.stateAt s0 k).bind (fun s => c.actionAt s) = some a) :
    ∃ s, c.stateAt s0 k = some s ∧ c.actionAt s = some a := by
  cases hs : c.stateAt s0 k with
  | none => simp [hs] at h
  | some s =>
    rw [hs] at h
    exact ⟨s, rfl, h⟩

/-! ## The claims on the planning loop -/

/-- C14. For every run of `AgentChain.Execute` in which the planner's first `i - 1`
responses are tool actions naming registered tools and response `i`, with `i`
within the iteration cap, is a finish action `a`, the run returns at iteration
`i` with a nil error, `Result = a.Result` and exactly the `i - 1` step records of the
tool invocations, in invocation order (record `k + 1` holds the name and input
of action `k + 1` and what its tool returned), after exactly `i` planner calls.
A finish on iteration 1 gives zero step records.  Here `s` is the state in
which iteration `i` starts. -/
theorem C14_agent_finish (c : AgentChain) (input : ChainInput) (tr : Trace) (i : Nat)
    (s : AgentState) (a : AgentAction) (hi : 1 ≤ i) (hcap : (i : Int) ≤ c.maxIterations)
    (htools : ∀ k, k < i - 1 → ∃ sk ak tk,
      c.stateAt (c.initState input tr) k = some sk ∧ c.actionAt sk = some ak ∧
      ak.Type_ = "tool" ∧ c.agent.Tools.lookup ak.ToolName = some tk)
    (hs : c.stateAt (c.initState input tr) (i - 1) = some s)
    (ha : c.actionAt s = some a) (hf : a.Type_ = "finish") :
    (c.Execute input tr).err = none ∧
    (chats (c.Execute input tr).trace).length = (chats tr).length + i ∧
    ∃ out, (c.Execute input tr).out = some out ∧
      out.Result = a.Result ∧
      out.Steps.length = i - 1 ∧
      (i = 1 → out.Steps = []) ∧
      (∀ k sk ak tk, k < i - 1 → c.stateAt (c.initState input tr) k = some sk →
        c.actionAt sk = some ak → c.agent.Tools.lookup ak.ToolName = some tk →
        out.Steps[k]? = some ⟨ak.ToolName, ak.ToolInput, (c.toolResultAt sk ak tk).1,
          (c.toolResultAt sk ak tk).2⟩) ∧
      ∃ cs, calls (c.Execute input tr).trace = calls tr ++ cs ∧ cs.length = i - 1 ∧
        out.Steps.map (fun st => (st.Input, st.Output, st.Error)) =
          cs.map (fun x => (x.input, x.output, x.err)) := by
  obtain ⟨f1, f2, f3, f4, _, _⟩ := initState_facts c input tr
  have hk : i - 1 < c.maxIterations.toNat := by omega
  have hr := Execute_returns_at c input tr (i - 1) s _ hs hk (body_finish c s a ha hf)
  obtain ⟨_, b2, _, cs, news, b4, _, b6, b7⟩ := stateAt_inv c (c.initState input tr) (i - 1) s hs
  obtain ⟨s2, t1, t2, t3⟩ := stateAt_tools_length c (c.initState input tr) (i - 1) htools
  rw [hs] at t1
  cases t1
  rw [f2] at b6 t2
  rw [f3] at b2
  rw [f4] at b4 t3
  simp only [List.nil_append, List.length_nil, Nat.zero_add] at b6 t2
  have hcs : cs.length = i - 1 := by
    have := congrArg List.length b4
    rw [List.length_append] at this
    omega
  rw [hr]
  refine ⟨rfl, ?_, _, rfl, rfl, t2, ?_, ?_, cs, ?_, hcs, ?_⟩
  · simp only [chats_logInfo, chats_afterChat, List.length_append, List.length_singleton, b2]
    omega
  · intro h1
    have h0 : s.output.Steps.length = 0 := by omega
    exact List.length_eq_zero.mp h0
  · intro k sk ak tk hk1 hsk hak hlk
    obtain ⟨sk', ak', tk', g1, g2, g3, g4⟩ := htools k hk1
    rw [hsk] at g1
    cases g1
    rw [hak] at g2
    cases g2
    have hb := body_tool c sk ak tk hak g3 hlk
    have hnext := stateAt_step c _ sk _ k hsk hb
    obtain ⟨sk2, u1, u2, _⟩ := stateAt_tools_length c (c.initState input tr) k
      (fun j hj => htools j (by omega))
    rw [hsk] at u1
    cases u1
    rw [f2] at u2
    simp only [List.length_nil, Nat.zero_add] at u2
    obtain ⟨more, hm⟩ := stateAt_steps_extend c (c.initState input tr) _ (k + 1) hnext
      (i - 1 - (k + 1)) s (by rw [← hs]; congr 1; omega)
    simp only at hm
    simp only [hm, List.append_assoc]
    rw [List.getElem?_append_right (by omega), u2, Nat.sub_self]
    simp
  · simpa [calls_afterChat] using b4
  · rw [b6]
    exact b7

/-- C14 on the sample agent: two tool actions, then finish. -/
theorem C14_agent_finish_witness :
    ((sampleChain [toolAText, toolBText, finishText] 5).Execute sampleQuery []).err = none ∧
    ∃ out, ((sampleChain [toolAText, toolBText, finishText] 5).Execute sampleQuery []).out =
        some out ∧
      out.Result = "done" ∧ out.Steps.length = 2 := by
  obtain ⟨s, hs, ha⟩ := stateAt_action_of_bind (sampleChain [toolAText, toolBText, finishText] 5)
    ((sampleChain [toolAText, toolBText, finishText] 5).initState sampleQuery []) (3 - 1)
    ⟨"finish", "", "", "done", ""⟩ (by decide)
  obtain ⟨h1, _, out, h3, h4, h5, _⟩ := C14_agent_finish
    (sampleChain [toolAText, toolBText, finishText] 5) sampleQuery [] 3 s
    ⟨"finish", "", "", "done", ""⟩ (by decide) (by decide)
    (by
      intro k hk
      have hk2 : k = 0 ∨ k = 1 := by omega
      rcases hk2 with rfl | rfl
      · obtain ⟨sk, g1, g2⟩ := stateAt_action_of_bind
          (sampleChain [toolAText, toolBText, finishText] 5)
          ((sampleChain [toolAText, toolBText, finishText] 5).initState sampleQuery []) 0
          ⟨"tool", "a", "x", "", ""⟩ (by decide)
        exact ⟨sk, _, ⟨okTool "a" "1", "first"⟩, g1, g2, rfl, by rfl⟩
      · obtain ⟨sk, g1, g2⟩ := stateAt_action_of_bind
          (sampleChain [toolAText, toolBText, finishText] 5)
          ((sampleChain [toolAText, toolBText, finishText] 5).initState sampleQuery []) 1
          ⟨"tool", "b", "y", "", ""⟩ (by decide)
        exact ⟨sk, _, ⟨failTool "b" "boom", "second"⟩, g1, g2, rfl, by rfl⟩)
    hs ha rfl
  exact ⟨h1, out, h3, h4, h5⟩

/-- What a run of the loop adds to the state it starts in: step records that
document, one for one, the tool invocations made; planner calls, at least
as many as tool invocations and at most `n`; and when `n > 0` the first planner
call is given the conversation of the start state. -/
theorem loop_extend (c : AgentChain) (n : Nat) :
    ∀ s, ∃ out news mc cs, (AgentChain.Execute.loop c n s).out = some out ∧
      out.Steps = s.output.Steps ++ news ∧
      chats (AgentChain.Execute.loop c n s).trace = chats s.trace ++ mc ∧
      calls (AgentChain.Execute.loop c n s).trace = calls s.trace ++ cs ∧
      news.map (fun st => (st.Input, st.Output, st.Error)) =
        cs.map (fun x => (x.input, x.output, x.err)) ∧
      cs.length ≤ mc.length ∧ mc.length ≤ n ∧
      (0 < n → mc.head? = some ⟨s.messages, (c.responseAt s).1, (c.responseAt s).2⟩) := by
  induction n with
  | zero =>
    intro s
    exact ⟨s.output, [], [], [], rfl, by simp, by simp [AgentChain.Execute.loop],
      by simp [AgentChain.Execute.loop], rfl, by simp, by simp, by simp⟩
  | succ n ih =>
    intro s
    cases hb : AgentChain.Execute.body c s with
    | returned r =>
      obtain ⟨h1, h2, out, h3, h4, _⟩ := body_returned_counts c s r hb
      simp only [AgentChain.Execute.loop, hb]
      exact ⟨out, [], _, [], h3, by simp [h4], h1, by simp [h2], rfl, by simp, by simp,
        by simp⟩
    | continued s' =>
      obtain ⟨_, b2, _, cs0, news0, b4, b5, b6, b7⟩ := body_continued_counts c s s' hb
      obtain ⟨out, news, mc, cs, i1, i2, i3, i4, i5, i6, i7, _⟩ := ih s'
      obtain ⟨hr, _⟩ : (c.responseAt s).2 = none ∧ True := by
        obtain ⟨a, ha, _⟩ := body_continued_cases c s s' hb
        exact ⟨(actionAt_some c s a ha).1, trivial⟩
      simp only [AgentChain.Execute.loop, hb]
      refine ⟨out, news0 ++ news, ⟨s.messages, (c.responseAt s).1, none⟩ :: mc, cs0 ++ cs, i1,
        ?_, ?_, ?_, ?_, ?_, ?_, ?_⟩
      · rw [i2, b6, List.append_assoc]
      · rw [i3, b2, List.append_assoc]
        rfl
      · rw [i4, b4, List.append_assoc]
      · rw [List.map_append, List.map_append, b7, i5]
      · simp only [List.length_append, List.length_cons]
        omega
      · simp only [List.length_cons]
        omega
      · intro _
        simp [hr]

/-- C15. For every run of `AgentChain.Execute`, when the planner's response at an
iteration `i` within the cap is a tool action `a` whose `tool_name` is not a key of
the agent's tool registry, the run returns at once with the error
`unknown tool: <tool_name>`: no tool is invoked and no step record is added
in that iteration, the returned step records are those of the iterations
before, `Result` is empty, and the planner call of iteration `i` is the last
one.  Here `s` is the state in which iteration `i` starts. -/
theorem C15_agent_unknown_tool (c : AgentChain) (input : ChainInput) (tr : Trace) (i : Nat)
    (s : AgentState) (a : AgentAction) (hi : 1 ≤ i) (hcap : (i : Int) ≤ c.maxIterations)
    (hs : c.stateAt (c.initState input tr) (i - 1) = some s)
    (ha : c.actionAt s = some a) (ht : a.Type_ = "tool")
    (hl : c.agent.Tools.lookup a.ToolName = none) :
    (c.Execute input tr).err = some (.errorString ("unknown tool: " ++ a.ToolName)) ∧
    calls (c.Execute input tr).trace = calls s.trace ∧
    (chats (c.Execute input tr).trace).length = (chats tr).length + i ∧
    ∃ out, (c.Execute input tr).out = some out ∧
      out.Steps = s.output.Steps ∧ out.Result = "" ∧ out.Steps.length ≤ i - 1 ∧
      ∃ cs, calls (c.Execute input tr).trace = calls tr ++ cs ∧
        out.Steps.map (fun st => (st.Input, st.Output, st.Error)) =
          cs.map (fun x => (x.input, x.output, x.err)) := by
  obtain ⟨_, f2, f3, f4, _, _⟩ := initState_facts c input tr
  have hk : i - 1 < c.maxIterations.toNat := by omega
  have hr := Execute_returns_at c input tr (i - 1) s _ hs hk (body_unknown_tool c s a ha ht hl)
  obtain ⟨_, b2, b3, cs, news, b4, b5, b6, b7⟩ :=
    stateAt_inv c (c.initState input tr) (i - 1) s hs
  rw [f2] at b6 b3
  rw [f3] at b2
  rw [f4] at b4
  simp only [List.nil_append] at b6
  rw [hr]
  refine ⟨rfl, calls_afterChat c s, ?_, _, rfl, rfl, b3, ?_, cs, ?_, ?_⟩
  · simp only [chats_afterChat, List.length_append, List.length_singleton, b2]
    omega
  · have hl2 : news.length = cs.length := by
      have := congrArg List.length b7
      simpa using this
    rw [b6, hl2]
    exact b5
  · simpa [calls_afterChat] using b4
  · rw [b6]
    exact b7

/-- C15 on the sample agent: a tool action, then an action naming the
unregistered tool `zip`. -/
theorem C15_agent_unknown_tool_witness :
    ((sampleChain [toolAText, toolZipText, finishText] 5).Execute sampleQuery []).err =
      some (.errorString "unknown tool: zip") ∧
    (chats ((sampleChain [toolAText, toolZipText, finishText] 5).Execute sampleQuery
      []).trace).length = 2 := by
  obtain ⟨s, hs, ha⟩ := stateAt_action_of_bind
    (sampleChain [toolAText, toolZipText, finishText] 5)
    ((sampleChain [toolAText, toolZipText, finishText] 5).initState sampleQuery []) (2 - 1)
    ⟨"tool", "zip", "x", "", ""⟩ (by decide)
  obtain ⟨h1, _, h3, _⟩ := C15_agent_unknown_tool
    (sampleChain [toolAText, toolZipText, finishText] 5) sampleQuery [] 2 s
    ⟨"tool", "zip", "x", "", ""⟩ (by decide) (by decide) hs ha rfl (by rfl)
  exact ⟨h1, h3⟩

/-- C19. For every run of `AgentChain.Execute`, when the planner's response at an
iteration `i` within the cap does not parse (`parseAction` returns the error `e`,
which is the decoder's error wrapped as `failed to parse response as JSON`),
the run returns at once with an error of message
`failed to parse LLM response: <message of e>` that wraps `e`: no tool is
invoked in that iteration, the planner call of iteration `i` is the last
one, `Result` is empty and the returned step records are those of the
iterations before.  Here `s` is the state in which iteration `i` starts. -/
theorem C19_agent_parse_failure (c : AgentChain) (input : ChainInput) (tr : Trace) (i : Nat)
    (s : AgentState) (e : GoError) (hi : 1 ≤ i) (hcap : (i : Int) ≤ c.maxIterations)
    (hs : c.stateAt (c.initState input tr) (i - 1) = some s)
    (hchat : (c.responseAt s).2 = none)
    (hparse : c.parseAction (c.responseAt s).1 = .error e) :
    (∃ d, c.unmarshal (c.responseAt s).1 = .error d ∧
      e = .wrapError ("failed to parse response as JSON: " ++ d.Error) d) ∧
    (∃ err, (c.Execute input tr).err = some err ∧
      err.Error = "failed to parse LLM response: " ++ e.Error ∧ err.Unwrap = some e) ∧
    calls (c.Execute input tr).trace = calls s.trace ∧
    (chats (c.Execute input tr).trace).length = (chats tr).length + i ∧
    ∃ out, (c.Execute input tr).out = some out ∧
      out.Steps = s.output.Steps ∧ out.Result = "" ∧
      ∃ cs, calls (c.Execute input tr).trace = calls tr ++ cs ∧
        out.Steps.map (fun st => (st.Input, st.Output, st.Error)) =
          cs.map (fun x => (x.input, x.output, x.err)) := by
  obtain ⟨_, f2, f3, f4, _, _⟩ := initState_facts c input tr
  have hk : i - 1 < c.maxIterations.toNat := by omega
  have hr := Execute_returns_at c input tr (i - 1) s _ hs hk
    (body_parse_failed c s e hchat hparse)
  obtain ⟨_, b2, b3, cs, news, b4, _, b6, b7⟩ :=
    stateAt_inv c (c.initState input tr) (i - 1) s hs
  rw [f2] at b6 b3
  rw [f3] at b2
  rw [f4] at b4
  simp only [List.nil_append] at b6
  rw [hr]
  refine ⟨?_, ⟨_, rfl, rfl, rfl⟩, calls_afterChat c s, ?_, _, rfl, rfl, b3, cs, ?_, ?_⟩
  · unfold AgentChain.parseAction at hparse
    cases hu : c.unmarshal (c.responseAt s).1 with
    | error d =>
      rw [hu] at hparse
      simp only [Except.error.injEq] at hparse
      exact ⟨d, rfl, hparse.symm⟩
    | ok b =>
      rw [hu] at hparse
      cases hparse
  · simp only [chats_afterChat, List.length_append, List.length_singleton, b2]
    omega
  · simpa [calls_afterChat] using b4
  · rw [b6]
    exact b7

/-- C19 on the sample agent: a tool action, then a response that is not
JSON. -/
theorem C19_agent_parse_failure_witness :
    ((sampleChain [toolAText, "not json"] 5).Execute sampleQuery []).err.map GoError.Error =
      some ("failed to parse LLM response: failed to parse response as JSON: " ++
        "invalid character") ∧
    (chats ((sampleChain [toolAText, "not json"] 5).Execute sampleQuery []).trace).length =
      2 := by
  have hs : ((sampleChain [toolAText, "not json"] 5).stateAt
      ((sampleChain [toolAText, "not json"] 5).initState sampleQuery []) (2 - 1)).isSome =
      true := by decide
  obtain ⟨s, hs'⟩ := Option.isSome_iff_exists.mp hs
  have hchat : ((sampleChain [toolAText, "not json"] 5).responseAt s).2 = none := by
    have h2 : (((sampleChain [toolAText, "not json"] 5).stateAt
        ((sampleChain [toolAText, "not json"] 5).initState sampleQuery []) (2 - 1)).map
        (fun s => ((sampleChain [toolAText, "not json"] 5).responseAt s).2)) = some none := by
      decide
    rw [hs'] at h2
    exact Option.some.inj h2
  have hresp : ((sampleChain [toolAText, "not json"] 5).responseAt s).1 = "not json" := by
    have h2 : (((sampleChain [toolAText, "not json"] 5).stateAt
        ((sampleChain [toolAText, "not json"] 5).initState sampleQuery []) (2 - 1)).map
        (fun s => ((sampleChain [toolAText, "not json"] 5).responseAt s).1)) =
        some "not json" := by
      decide
    rw [hs'] at h2
    exact Option.some.inj h2
  obtain ⟨_, ⟨err, h1, h2, _⟩, _, h4, _⟩ := C19_agent_parse_failure
    (sampleChain [toolAText, "not json"] 5) sampleQuery [] 2 s
    (.wrapError ("failed to parse response as JSON: " ++ "invalid character")
      (.errorString "invalid character"))
    (by decide) (by decide) hs' hchat (by rw [hresp]; rfl)
  refine ⟨?_, h4⟩
  rw [h1, Option.map_some', h2]
  rfl

/-- C17. For every run of `AgentChain.Execute`, when the planner's response at an
iteration `i` within the cap is a tool action `a` naming a registered tool `t`
whose call fails with error `e`, the failure is not fatal: the loop body
reaches its end (the run gets to the top of iteration `i + 1`) with the step
record of the failure appended and with the conversation extended by the raw
response as assistant message followed by a tool message named after the
tool with content `Error: <message of e>`; when `i` is below the cap the next
planner call is given exactly that conversation; the failed record is in
the returned output whatever happens later; and a finish action at a later
iteration `j` within the cap yields a nil error.  Here `s` is the state in
which iteration `i` starts. -/
theorem C17_agent_tool_failure_not_fatal (c : AgentChain) (input : ChainInput) (tr : Trace)
    (i : Nat) (s : AgentState) (a : AgentAction) (t : DescribedTool) (e : GoError)
    (hi : 1 ≤ i) (hcap : (i : Int) ≤ c.maxIterations)
    (hs : c.stateAt (c.initState input tr) (i - 1) = some s)
    (ha : c.actionAt s = some a) (ht : a.Type_ = "tool")
    (hl : c.agent.Tools.lookup a.ToolName = some t)
    (hfail : (c.toolResultAt s a t).2 = some e) :
    ∃ s', c.stateAt (c.initState input tr) i = some s' ∧
      s'.output.Steps = s.output.Steps ++
        [⟨a.ToolName, a.ToolInput, (c.toolResultAt s a t).1, some e⟩] ∧
      s'.messages = s.messages ++
        [⟨"assistant", (c.responseAt s).1, ""⟩, ⟨"tool", "Error: " ++ e.Error, a.ToolName⟩] ∧
      ((i : Int) < c.maxIterations →
        ∃ ch, (chats (c.Execute input tr).trace)[(chats tr).length + i]? = some ch ∧
          ch.messages = s'.messages) ∧
      (∃ out, (c.Execute input tr).out = some out ∧
        (⟨a.ToolName, a.ToolInput, (c.toolResultAt s a t).1, some e⟩ : StepRecord) ∈
          out.Steps) ∧
      (∀ j sj fin, i < j → (j : Int) ≤ c.maxIterations →
        c.stateAt (c.initState input tr) (j - 1) = some sj → c.actionAt sj = some fin →
        fin.Type_ = "finish" →
        (c.Execute input tr).err = none ∧
        ∃ out, (c.Execute input tr).out = some out ∧ out.Result = fin.Result ∧
          (⟨a.ToolName, a.ToolInput, (c.toolResultAt s a t).1, some e⟩ : StepRecord) ∈
            out.Steps) := by
  obtain ⟨_, _, f3, _, _, _⟩ := initState_facts c input tr
  have hb := body_tool c s a t ha ht hl
  have hi1 : i - 1 + 1 = i := by omega
  have hnext := stateAt_step c _ s _ (i - 1) hs hb
  rw [hi1] at hnext
  refine ⟨_, hnext, ?_, ?_, ?_, ?_, ?_⟩
  · simp only [hfail]
  · simp only [toolMessages, hfail]
  · intro hlt
    have hrun : c.Execute input tr = AgentChain.Execute.loop c (c.maxIterations.toNat - i) _ :=
      loop_stateAt c _ i _ _ hnext (by omega)
    obtain ⟨out, news, mc, cs, _, _, e3, _, _, _, _, e8⟩ :=
      loop_extend c (c.maxIterations.toNat - i)
        { i := s.i + 1
          output := { s.output with
            Steps := s.output.Steps ++
              [⟨a.ToolName, a.ToolInput, (c.toolResultAt s a t).1, (c.toolResultAt s a t).2⟩] }
          messages := s.messages ++ toolMessages (c.responseAt s).1 a (c.toolResultAt s a t)
          trace := (t.toTool.invoke a.ToolInput (logInfo (c.afterChat s) "Agent calling tool"
            [("tool", a.ToolName), ("input", a.ToolInput)])).2 }
    obtain ⟨_, b2, _⟩ := stateAt_inv c (c.initState input tr) i _ hnext
    rw [f3] at b2
    have hhead := e8 (by omega)
    cases mc with
    | nil => simp at hhead
    | cons ch rest =>
      simp only [List.head?_cons, Option.some.injEq] at hhead
      refine ⟨ch, ?_, by rw [hhead]⟩
      rw [hrun, e3, List.getElem?_append_right (by omega), b2, Nat.sub_self]
      simp
  · have hrun : c.Execute input tr = AgentChain.Execute.loop c (c.maxIterations.toNat - i) _ :=
      loop_stateAt c _ i _ _ hnext (by omega)
    obtain ⟨out, news, _, _, e1, e2, _⟩ :=
      loop_extend c (c.maxIterations.toNat - i)
        { i := s.i + 1
          output := { s.output with
            Steps := s.output.Steps ++
              [⟨a.ToolName, a.ToolInput, (c.toolResultAt s a t).1, (c.toolResultAt s a t).2⟩] }
          messages := s.messages ++ toolMessages (c.responseAt s).1 a (c.toolResultAt s a t)
          trace := (t.toTool.invoke a.ToolInput (logInfo (c.afterChat s) "Agent calling tool"
            [("tool", a.ToolName), ("input", a.ToolInput)])).2 }
    refine ⟨out, by rw [hrun]; exact e1, ?_⟩
    rw [e2]
    simp [hfail]
  · intro j sj fin hij hjcap hsj hfin hft
    have hk : j - 1 < c.maxIterations.toNat := by omega
    have hr := Execute_returns_at c input tr (j - 1) sj _ hsj hk (body_finish c sj fin hfin hft)
    obtain ⟨more, hm⟩ := stateAt_steps_extend c (c.initState input tr) _ i hnext (j - 1 - i) sj
      (by rw [← hsj]; congr 1; omega)
    rw [hr]
    refine ⟨rfl, _, rfl, rfl, ?_⟩
    simp only [hm]
    simp [hfail]

/-- C17 on the sample agent: tool `b` fails at iteration 1, the planner is
called again with the error in the conversation, and the finish at
iteration 2 succeeds. -/
theorem C17_agent_tool_failure_not_fatal_witness :
    ((sampleChain [toolBText, finishText] 5).Execute sampleQuery []).err = none ∧
    ((sampleChain [toolBText, finishText] 5).Execute sampleQuery []).out.map
      (fun o => o.Steps) = some [⟨"b", "y", "", some (.errorString "boom")⟩] ∧
    ((chats ((sampleChain [toolBText, finishText] 5).Execute sampleQuery []).trace)[1]?.map
      (fun ch => ch.messages.drop 2)) =
      some [⟨"assistant", toolBText, ""⟩, ⟨"tool", "Error: boom", "b"⟩] := by
  obtain ⟨s, hs, ha⟩ := stateAt_action_of_bind (sampleChain [toolBText, finishText] 5)
    ((sampleChain [toolBText, finishText] 5).initState sampleQuery []) (1 - 1)
    ⟨"tool", "b", "y", "", ""⟩ (by decide)
  obtain ⟨sj, hsj, haj⟩ := stateAt_action_of_bind (sampleChain [toolBText, finishText] 5)
    ((sampleChain [toolBText, finishText] 5).initState sampleQuery []) (2 - 1)
    ⟨"finish", "", "", "done", ""⟩ (by decide)
  have hs0 : s = (sampleChain [toolBText, finishText] 5).initState sampleQuery [] := by
    simp only [Nat.sub_self, AgentChain.stateAt, Option.some.injEq] at hs
    exact hs.symm
  obtain ⟨s', _, _, _, _, _, h6⟩ := C17_agent_tool_failure_not_fatal
    (sampleChain [toolBText, finishText] 5) sampleQuery [] 1 s ⟨"tool", "b", "y", "", ""⟩
    ⟨failTool "b" "boom", "second"⟩ (.errorString "boom") (by decide) (by decide) hs ha rfl
    (by rfl) (by rw [hs0]; rfl)
  obtain ⟨h7, _⟩ := h6 2 sj ⟨"finish", "", "", "done", ""⟩ (by decide) (by decide) hsj haj rfl
  exact ⟨h7, by decide, by decide⟩

theorem chats_chat_invoke (l : LLMClient) (messages : List Message) (tr : Trace) :
    chats (l.invoke messages tr).2 =
      chats tr ++ [⟨messages, (l.Chat (effects tr) messages).1,
        (l.Chat (effects tr) messages).2⟩] := by
  simp [LLMClient.invoke, chats_append, chats]

theorem calls_chat_invoke (l : LLMClient) (messages : List Message) (tr : Trace) :
    calls (l.invoke messages tr).2 = calls tr := by
  simp [LLMClient.invoke, calls_append, calls]

/-- Every way in which one pass through the loop body of `ExecuteWithCallback`
ends. -/
theorem bodyCb_cases (c : AgentChain) (callback : Bool) (s : AgentState) :
    (∃ out err, out.Steps = s.output.Steps ∧
      AgentChain.ExecuteWithCallback.body c callback s =
        .returned ⟨some out, err, (c.agent.LLM.invoke s.messages s.trace).2⟩) ∨
    (AgentChain.ExecuteWithCallback.body c callback s =
      .continued ⟨s.i + 1, s.output, s.messages, (c.agent.LLM.invoke s.messages s.trace).2⟩) ∨
    (∃ step msgs tool input extra, extra.length ≤ 1 ∧ calls extra = [] ∧ chats extra = [] ∧
      AgentChain.ExecuteWithCallback.body c callback s =
        .continued ⟨s.i + 1, { s.output with Steps := s.output.Steps ++ [step] }, msgs,
          (Tool.invoke tool input (c.agent.LLM.invoke s.messages s.trace).2).2 ++ extra⟩) := by
  unfold AgentChain.ExecuteWithCallback.body
  simp only []
  cases h1 : (c.agent.LLM.invoke s.messages s.trace).1.2 with
  | some e => exact Or.inl ⟨_, _, rfl, rfl⟩
  | none =>
    simp only []
    cases h2 : c.parseAction (c.agent.LLM.invoke s.messages s.trace).1.1 with
    | error e => exact Or.inl ⟨_, _, rfl, rfl⟩
    | ok a =>
      simp only []
      by_cases hf : a.Type_ = "finish"
      · simp only [hf, ↓reduceIte]
        exact Or.inl ⟨{ s.output with Result := a.Result }, none, rfl, rfl⟩
      · simp only [hf, ↓reduceIte]
        by_cases ht : a.Type_ = "tool"
        · simp only [ht, ↓reduceIte]
          cases hl : c.agent.Tools.lookup a.ToolName with
          | none => exact Or.inl ⟨_, _, rfl, rfl⟩
          | some t =>
            simp only []
            cases callback with
            | false =>
              refine Or.inr (Or.inr ⟨⟨a.ToolName, a.ToolInput,
                  (t.toTool.invoke a.ToolInput (c.agent.LLM.invoke s.messages s.trace).2).1.1,
                  (t.toTool.invoke a.ToolInput (c.agent.LLM.invoke s.messages s.trace).2).1.2⟩,
                s.messages ++
                  [⟨"assistant", (c.agent.LLM.invoke s.messages s.trace).1.1, ""⟩,
                   ⟨"tool",
                    (t.toTool.invoke a.ToolInput (c.agent.LLM.invoke s.messages s.trace).2).1.1,
                    a.ToolName⟩],
                t.toTool, a.ToolInput, [], by simp, rfl, rfl, ?_⟩)
              simp
            | true =>
              refine Or.inr (Or.inr ⟨⟨a.ToolName, a.ToolInput,
                  (t.toTool.invoke a.ToolInput (c.agent.LLM.invoke s.messages s.trace).2).1.1,
                  (t.toTool.invoke a.ToolInput (c.agent.LLM.invoke s.messages s.trace).2).1.2⟩,
                s.messages ++
                  [⟨"assistant", (c.agent.LLM.invoke s.messages s.trace).1.1, ""⟩,
                   ⟨"tool",
                    (t.toTool.invoke a.ToolInput (c.agent.LLM.invoke s.messages s.trace).2).1.1,
                    a.ToolName⟩],
                t.toTool, a.ToolInput,
                [Event.callback ⟨a.ToolName, a.ToolInput,
                  (t.toTool.invoke a.ToolInput (c.agent.LLM.invoke s.messages s.trace).2).1.1,
                  (t.toTool.invoke a.ToolInput (c.agent.LLM.invoke s.messages s.trace).2).1.2⟩
                  (c.progressAt s.i)],
                by simp, rfl, rfl, ?_⟩)
              simp [AgentChain.progressAt]
        · simp only [ht, ↓reduceIte]
          exact Or.inr (Or.inl trivial)

/-- What one pass through the loop body of `ExecuteWithCallback` adds: one
planner call, and either nothing else or one tool invocation with its step
record. -/
theorem bodyCb_counts (c : AgentChain) (callback : Bool) (s : AgentState) :
    (∀ r, AgentChain.ExecuteWithCallback.body c callback s = .returned r →
      (chats r.trace).length = (chats s.trace).length + 1 ∧
      calls r.trace = calls s.trace ∧
      ∃ out, r.out = some out ∧ out.Steps = s.output.Steps) ∧
    (∀ s', AgentChain.ExecuteWithCallback.body c callback s = .continued s' →
      (chats s'.trace).length = (chats s.trace).length + 1 ∧
      ∃ cs news, calls s'.trace = calls s.trace ++ cs ∧
        s'.output.Steps = s.output.Steps ++ news ∧ news.length = cs.length ∧
        cs.length ≤ 1) := by
  rcases bodyCb_cases c callback s with ⟨out, err, h1, h2⟩ | h2 |
    ⟨step, msgs, tool, input, extra, h0, h1, h1', h2⟩
  · constructor
    · intro r h
      rw [h2] at h
      cases h
      exact ⟨by simp [chats_chat_invoke], calls_chat_invoke _ _ _, _, rfl, h1⟩
    · intro s' h
      rw [h2] at h
      cases h
  · constructor
    · intro r h
      rw [h2] at h
      cases h
    · intro s' h
      rw [h2] at h
      cases h
      exact ⟨by simp [chats_chat_invoke], [], [], by simp [calls_chat_invoke], by simp, rfl,
        by simp⟩
  · constructor
    · intro r h
      rw [h2] at h
      cases h
    · intro s' h
      rw [h2] at h
      cases h
      refine ⟨by simp [chats_append, chats_chat_invoke, h1'],
        [⟨tool.Name, input,
          (tool.Call (effects (c.agent.LLM.invoke s.messages s.trace).2) input).1,
          (tool.Call (effects (c.agent.LLM.invoke s.messages s.trace).2) input).2⟩],
        [step], ?_, rfl, rfl, by simp⟩
      simp [calls_append, calls_chat_invoke, h1]

/-- What a run of the loop of `ExecuteWithCallback` adds to the state it starts
in: step records, one per tool invocation, and planner calls, at least as
many as tool invocations and at most `n`. -/
theorem loopCb_extend (c : AgentChain) (callback : Bool) (n : Nat) :
    ∀ s, ∃ out news cs, (AgentChain.ExecuteWithCallback.loop c callback n s).out = some out ∧
      out.Steps = s.output.Steps ++ news ∧
      calls (AgentChain.ExecuteWithCallback.loop c callback n s).trace = calls s.trace ++ cs ∧
      news.length = cs.length ∧
      (chats s.trace).length + cs.length ≤
        (chats (AgentChain.ExecuteWithCallback.loop c callback n s).trace).length ∧
      (chats (AgentChain.ExecuteWithCallback.loop c callback n s).trace).length ≤
        (chats s.trace).length + n := by
  induction n with
  | zero =>
    intro s
    exact ⟨s.output, [], [], rfl, by simp, by simp [AgentChain.ExecuteWithCallback.loop], rfl,
      by simp [AgentChain.ExecuteWithCallback.loop],
      by simp [AgentChain.ExecuteWithCallback.loop]⟩
  | succ n ih =>
    intro s
    obtain ⟨hret, hcont⟩ := bodyCb_counts c callback s
    cases hb : AgentChain.ExecuteWithCallback.body c callback s with
    | returned r =>
      obtain ⟨h1, h2, out, h3, h4⟩ := hret r hb
      simp only [AgentChain.ExecuteWithCallback.loop, hb]
      exact ⟨out, [], [], h3, by simp [h4], by simp [h2], rfl, by simp [h1], by omega⟩
    | continued s' =>
      obtain ⟨b1, cs0, news0, b2, b3, b4, b5⟩ := hcont s' hb
      obtain ⟨out, news, cs, i1, i2, i3, i4, i5, i6⟩ := ih s'
      simp only [AgentChain.ExecuteWithCallback.loop, hb]
      refine ⟨out, news0 ++ news, cs0 ++ cs, i1, ?_, ?_, ?_, ?_, ?_⟩
      · rw [i2, b3, List.append_assoc]
      · rw [i3, b2, List.append_assoc]
      · simp only [List.length_append, b4, i4]
      · simp only [List.length_append]
        omega
      · omega

/-- C16. For every chain built by `NewAgentChain(agent, logger, m)` the iteration
cap is `m` when `m > 0` and 10 otherwise, and whatever the planner and the tools
do, a run of `Execute` or of `ExecuteWithCallback` (with or without a callback)
makes at most `cap` planner calls, makes no more tool invocations than
planner calls, and returns one step record per tool invocation, hence at
most `cap` step records. -/
theorem C16_agent_iteration_cap (agent : Agent)
    (unmarshal : String → Except GoError AgentAction) (m : Int) (input : ChainInput)
    (callback : Bool) (tr : Trace) :
    (NewAgentChain agent unmarshal m).maxIterations = (if 0 < m then m else 10) ∧
    (∃ out mc cs,
      ((NewAgentChain agent unmarshal m).Execute input tr).out = some out ∧
      chats ((NewAgentChain agent unmarshal m).Execute input tr).trace = chats tr ++ mc ∧
      calls ((NewAgentChain agent unmarshal m).Execute input tr).trace = calls tr ++ cs ∧
      mc.length ≤ (if 0 < m then m else 10).toNat ∧
      cs.length ≤ mc.length ∧
      out.Steps.length = cs.length ∧
      out.Steps.length ≤ (if 0 < m then m else 10).toNat) ∧
    (∃ out cs,
      ((NewAgentChain agent unmarshal m).ExecuteWithCallback input callback tr).out =
        some out ∧
      calls ((NewAgentChain agent unmarshal m).ExecuteWithCallback input callback tr).trace =
        calls tr ++ cs ∧
      (chats ((NewAgentChain agent unmarshal m).ExecuteWithCallback input callback
        tr).trace).length ≤ (chats tr).length + (if 0 < m then m else 10).toNat ∧
      (chats tr).length + cs.length ≤
        (chats ((NewAgentChain agent unmarshal m).ExecuteWithCallback input callback
          tr).trace).length ∧
      out.Steps.length = cs.length ∧
      out.Steps.length ≤ (if 0 < m then m else 10).toNat) := by
  have hcap : (NewAgentChain agent unmarshal m).maxIterations = (if 0 < m then m else 10) := by
    unfold NewAgentChain
    by_cases h : 0 < m
    · have h2 : ¬ m ≤ 0 := by omega
      simp [h, h2]
    · have h2 : m ≤ 0 := by omega
      simp [h, h2]
  refine ⟨hcap, ?_, ?_⟩
  · obtain ⟨_, f2, f3, f4, _, _⟩ :=
      initState_facts (NewAgentChain agent unmarshal m) input tr
    obtain ⟨out, news, mc, cs, e1, e2, e3, e4, e5, e6, e7, _⟩ :=
      loop_extend (NewAgentChain agent unmarshal m)
        (NewAgentChain agent unmarshal m).maxIterations.toNat
        ((NewAgentChain agent unmarshal m).initState input tr)
    rw [f2] at e2
    rw [f3] at e3
    rw [f4] at e4
    rw [hcap] at e7
    simp only [List.nil_append] at e2
    have hlen : news.length = cs.length := by
      have := congrArg List.length e5
      simpa using this
    refine ⟨out, mc, cs, e1, e3, e4, e7, e6, by rw [e2, hlen], ?_⟩
    rw [e2, hlen]
    omega
  · obtain ⟨out, news, cs, e1, e2, e3, e4, e5, e6⟩ :=
      loopCb_extend (NewAgentChain agent unmarshal m) callback
        (NewAgentChain agent unmarshal m).maxIterations.toNat
        { i := 0
          output := { Result := "", Steps := [], Metadata := [] }
          messages := [⟨"system", (NewAgentChain agent unmarshal m).buildSystemPrompt, ""⟩,
            ⟨"user", input.Query, ""⟩]
          trace := logInfo tr "Starting agent chain with callback" [] }
    simp only [chats_logInfo, calls_logInfo, List.nil_append] at e2 e3 e5 e6
    have hcapN : (NewAgentChain agent unmarshal m).maxIterations.toNat =
        (if 0 < m then m else 10).toNat := by rw [hcap]
    refine ⟨out, cs, e1, e3, by rw [← hcapN]; exact e6, e5, by rw [e2, e4], ?_⟩
    rw [e2, e4, ← hcapN]
    have := le_trans e5 e6
    omega

/-- C18 fails on the code: a response whose kind is neither `tool` nor `finish`
is skipped without a record or an error, the planner is called again, and
a later finish makes the run succeed. -/
theorem C18_unknown_kind_is_skipped :
    ((sampleChain [thinkText, finishText] 5).Execute sampleQuery []).err = none ∧
    (chats ((sampleChain [thinkText, finishText] 5).Execute sampleQuery []).trace).length = 2 ∧
    ((sampleChain [thinkText, finishText] 5).Execute sampleQuery []).out =
      some { Result := "done", Steps := [], Metadata := [] } := by
  decide

/-- C20. For every run of `AgentChain.Execute` in which every response within the
iteration cap parses to an action that is not a finish action and, when it
is a tool action, names a registered tool (so no chat failure, no parse
failure and no unknown tool occurs), the run makes exactly `cap` planner
calls and then returns the error
`reached maximum iterations (<maxIterations>) without completion` together
with an output whose `Result` is empty and whose step records are all the
records accumulated, in invocation order. -/
theorem C20_agent_exhaustion (c : AgentChain) (input : ChainInput) (tr : Trace)
    (hrun : ∀ k s, k < c.maxIterations.toNat → c.stateAt (c.initState input tr) k = some s →
      ∃ a, c.actionAt s = some a ∧ a.Type_ ≠ "finish" ∧
        (a.Type_ = "tool" → ∃ t, c.agent.Tools.lookup a.ToolName = some t)) :
    (c.Execute input tr).err =
      some (.errorString ("reached maximum iterations (" ++ toString c.maxIterations ++
        ") without completion")) ∧
    (chats (c.Execute input tr).trace).length = (chats tr).length + c.maxIterations.toNat ∧
    ∃ out sN, (c.Execute input tr).out = some out ∧
      c.stateAt (c.initState input tr) c.maxIterations.toNat = some sN ∧
      out.Steps = sN.output.Steps ∧ out.Result = "" ∧
      ∃ cs, calls (c.Execute input tr).trace = calls tr ++ cs ∧
        out.Steps.map (fun st => (st.Input, st.Output, st.Error)) =
          cs.map (fun x => (x.input, x.output, x.err)) := by
  have hall : ∀ k, k ≤ c.maxIterations.toNat → ∃ s, c.stateAt (c.initState input tr) k = some s := by
    intro k
    induction k with
    | zero => intro _; exact ⟨_, rfl⟩
    | succ k ih =>
      intro hk
      obtain ⟨s, hs⟩ := ih (by omega)
      obtain ⟨a, ha, hf, ht⟩ := hrun k s (by omega) hs
      by_cases htool : a.Type_ = "tool"
      · obtain ⟨t, hl⟩ := ht htool
        exact ⟨_, stateAt_step c _ s _ k hs (body_tool c s a t ha htool hl)⟩
      · exact ⟨_, stateAt_step c _ s _ k hs (body_other c s a ha hf htool)⟩
  obtain ⟨sN, hN⟩ := hall c.maxIterations.toNat (le_refl _)
  obtain ⟨_, f2, f3, f4, _, _⟩ := initState_facts c input tr
  obtain ⟨_, b2, b3, cs, news, b4, _, b6, b7⟩ :=
    stateAt_inv c (c.initState input tr) c.maxIterations.toNat sN hN
  rw [f2] at b6 b3
  rw [f3] at b2
  rw [f4] at b4
  simp only [List.nil_append] at b6
  rw [Execute_exhausts_at c input tr sN hN]
  exact ⟨rfl, b2, _, sN, rfl, hN, rfl, b3, cs, b4, by rw [b6]; exact b7⟩

/-- C20 on the sample agent with cap 3: a tool action, an action of another
kind and a failing tool action use up the cap. -/
theorem C20_agent_exhaustion_witness :
    ((sampleChain [toolAText, thinkText, toolBText, finishText] 3).Execute sampleQuery
      []).err = some (.errorString "reached maximum iterations (3) without completion") ∧
    (chats ((sampleChain [toolAText, thinkText, toolBText, finishText] 3).Execute sampleQuery
      []).trace).length = 3 := by
  obtain ⟨h1, h2, _⟩ := C20_agent_exhaustion
    (sampleChain [toolAText, thinkText, toolBText, finishText] 3) sampleQuery []
    (by
      intro k s hk hs
      have hk3 : k < 3 := hk
      interval_cases k
      · obtain ⟨sk, g1, g2⟩ := stateAt_action_of_bind
          (sampleChain [toolAText, thinkText, toolBText, finishText] 3)
          ((sampleChain [toolAText, thinkText, toolBText, finishText] 3).initState sampleQuery
            []) 0 ⟨"tool", "a", "x", "", ""⟩ (by decide)
        rw [hs] at g1
        cases g1
        exact ⟨_, g2, by decide, fun _ => ⟨_, by rfl⟩⟩
      · obtain ⟨sk, g1, g2⟩ := stateAt_action_of_bind
          (sampleChain [toolAText, thinkText, toolBText, finishText] 3)
          ((sampleChain [toolAText, thinkText, toolBText, finishText] 3).initState sampleQuery
            []) 1 ⟨"think", "", "", "", ""⟩ (by decide)
        rw [hs] at g1
        cases g1
        exact ⟨_, g2, by decide, fun h => absurd h (by decide)⟩
      · obtain ⟨sk, g1, g2⟩ := stateAt_action_of_bind
          (sampleChain [toolAText, thinkText, toolBText, finishText] 3)
          ((sampleChain [toolAText, thinkText, toolBText, finishText] 3).initState sampleQuery
            []) 2 ⟨"tool", "b", "y", "", ""⟩ (by decide)
        rw [hs] at g1
        cases g1
        exact ⟨_, g2, by decide, fun _ => ⟨_, by rfl⟩⟩)
  exact ⟨by rw [h1]; decide, by rw [h2]; decide⟩

/-! ## `Execute` and the ordered-invocation primitive -/

theorem resultAfter_map_toStep (old : String) (made : List CallRec) :
    resultAfter old (made.map CallRec.toStep) = lastOutputAfter old made := by
  unfold resultAfter lastOutputAfter
  rw [List.getLast?_map]
  cases made.getLast? <;> rfl

theorem executeError_isSome (i : Nat) (made : List CallRec) :
    (executeError i made).isSome = (sequenceError made).isSome := by
  unfold executeError sequenceError
  cases made.getLast? with
  | none => rfl
  | some c => simp only [Option.isSome_map']

/-- C29. For every tool behaviour and every input with a non-empty video id `v`,
`YtbToBiliChain.Execute` behaves on the observable points like
`BaseChain.ExecuteToolSequence` applied to the seven pipeline tools and the
inputs that `Execute` builds for them (the video id, and the translation
request for the fifth): both make the same invocations, both return an output
with the same step records and the same `Result`, and one returns an error
exactly when the other does. -/
theorem C29_execute_as_tool_sequence (c : YtbToBiliChain) (input : ChainInput) (tr : Trace)
    (v : String) (hid : input.Metadata.get "video_id" = some (.str v)) (hv : v ≠ "") :
    ((c.toolChain v).map (fun p => p.1.Name) = pipelineNames ∧
      (c.toolChain v).map Prod.snd = [v, v, v, v, translateInput v, v, v]) ∧
    calls (c.Execute input tr).trace =
      calls (c.toBaseChain.ExecuteToolSequence ((c.toolChain v).map Prod.fst)
        ((c.toolChain v).map Prod.snd) tr).trace ∧
    ((c.Execute input tr).err = none ↔
      (c.toBaseChain.ExecuteToolSequence ((c.toolChain v).map Prod.fst)
        ((c.toolChain v).map Prod.snd) tr).err = none) ∧
    ∃ out out', (c.Execute input tr).out = some out ∧
      (c.toBaseChain.ExecuteToolSequence ((c.toolChain v).map Prod.fst)
        ((c.toolChain v).map Prod.snd) tr).out = some out' ∧
      out.Steps = out'.Steps ∧ out.Result = out'.Result := by
  obtain ⟨e1, e2, e3⟩ := Execute_spec c input tr v hid hv
  obtain ⟨q1, q2, q3⟩ := ExecuteToolSequence_spec c.toBaseChain ((c.toolChain v).map Prod.fst)
    ((c.toolChain v).map Prod.snd) tr (by simp)
  have hz : ((c.toolChain v).map Prod.fst).zip ((c.toolChain v).map Prod.snd) = c.toolChain v :=
    rfl
  rw [hz] at q1 q2 q3
  have hsome := executeError_isSome 0 (throughFirstFailure (callAll (c.toolChain v) (effects tr)))
  refine ⟨⟨rfl, rfl⟩, by rw [e1, q1], ?_, _, _, e3, q3, rfl, ?_⟩
  · rw [e2, q2]
    rw [← Option.not_isSome_iff_eq_none, ← Option.not_isSome_iff_eq_none, hsome]
  · simp only [hsome, resultAfter_map_toStep]

/-- A run of C29: with the sample bodies both operations make seven
invocations, succeed and return the text of the upload. -/
theorem C29_execute_as_tool_sequence_witness :
    ((NewYtbToBiliChain sampleBodies).Execute sampleInput []).err = none ∧
    ((NewYtbToBiliChain sampleBodies).toBaseChain.ExecuteToolSequence
      (((NewYtbToBiliChain sampleBodies).toolChain "abc").map Prod.fst)
      (((NewYtbToBiliChain sampleBodies).toolChain "abc").map Prod.snd) []).err = none :=
  have h := C29_execute_as_tool_sequence (NewYtbToBiliChain sampleBodies) sampleInput [] "abc"
    (by decide) (by decide)
  ⟨by decide, h.2.2.1.mp (by decide)⟩

/-! ## The loop with a progress callback -/

theorem callbacks_append (a b : Trace) : callbacks (a ++ b) = callbacks a ++ callbacks b := by
  induction a with
  | nil => rfl
  | cons e rest ih => cases e <;> simp [callbacks, ih]

/-- The planner call that the iteration starting with variables `s` makes in
`ExecuteWithCallback`, which logs nothing before it. -/
theorem invokeCb_eq (c : AgentChain) (s : AgentState) :
    c.agent.LLM.invoke s.messages s.trace =
      (c.responseAt s,
        s.trace ++ [Event.chat ⟨s.messages, (c.responseAt s).1, (c.responseAt s).2⟩]) := rfl

/-! ## The conversation of the planning loop -/

theorem stateAt_shift (c : AgentChain) (s s' : AgentState)
    (h : AgentChain.Execute.body c s = .continued s') (k : Nat) :
    c.stateAt s (k + 1) = c.stateAt s' k := by
  induction k with
  | zero => simp [AgentChain.stateAt, h]
  | succ k ih =>
    rw [AgentChain.stateAt, ih]
    rfl

/-- The planner calls that a run of the loop of `Execute` adds are those of the
states the loop passes through, one per state, in order. -/
theorem loop_chats_get (c : AgentChain) (n : Nat) :
    ∀ (s : AgentState) (k : Nat) (ch : ChatRec),
      (chats (AgentChain.Execute.loop c n s).trace)[(chats s.trace).length + k]? = some ch →
      ∃ sk, c.stateAt s k = some sk ∧ k < n ∧
        ch = ⟨sk.messages, (c.responseAt sk).1, (c.responseAt sk).2⟩ := by
  induction n with
  | zero =>
    intro s k ch h
    simp only [AgentChain.Execute.loop] at h
    rw [List.getElem?_eq_none (by omega)] at h
    cases h
  | succ n ih =>
    intro s k ch h
    cases hb : AgentChain.Execute.body c s with
    | returned r =>
      obtain ⟨h1, _⟩ := body_returned_counts c s r hb
      simp only [AgentChain.Execute.loop, hb, h1] at h
      cases k with
      | zero =>
        simp at h
        exact ⟨s, rfl, by omega, h.symm⟩
      | succ k =>
        rw [List.getElem?_append_right (by omega)] at h
        simp at h
    | continued s' =>
      obtain ⟨_, h1, _⟩ := body_continued_counts c s s' hb
      obtain ⟨a, ha, _⟩ := body_continued_cases c s s' hb
      obtain ⟨hnone, _⟩ := actionAt_some c s a ha
      simp only [AgentChain.Execute.loop, hb] at h
      cases k with
      | zero =>
        obtain ⟨_, _, mc, _, _, _, hmc, _⟩ := loop_extend c n s'
        rw [hmc, h1, List.append_assoc, Nat.add_zero,
          List.getElem?_append_right (le_refl _)] at h
        simp only [Nat.sub_self, List.singleton_append, List.getElem?_cons_zero,
          Option.some.injEq] at h
        exact ⟨s, rfl, by omega, by rw [← h, hnone]⟩
      | succ k =>
        have hidx : (chats s.trace).length + (k + 1) = (chats s'.trace).length + k := by
          rw [h1]
          simp
          omega
        rw [hidx] at h
        obtain ⟨sk, i1, i2, i3⟩ := ih s' k ch h
        exact ⟨sk, by rw [stateAt_shift c s s' hb k, i1], by omega, i3⟩

/-- One pass through the loop body of `Execute` that reaches its end leaves the
conversation as it is and adds no step, or appends the assistant message and
one tool message to it and adds one step. -/
theorem body_continued_messages (c : AgentChain) (s s' : AgentState)
    (h : AgentChain.Execute.body c s = .continued s') :
    (s'.messages = s.messages ∧ s'.output.Steps = s.output.Steps) ∨
    (∃ m step, m.Role = "tool" ∧
      s'.messages = s.messages ++ [⟨"assistant", (c.responseAt s).1, ""⟩, m] ∧
      s'.output.Steps = s.output.Steps ++ [step]) := by
  obtain ⟨a, _, _, h1 | h1⟩ := body_continued_cases c s s' h
  · obtain ⟨_, t, _, hs⟩ := h1
    right
    subst hs
    cases he : (c.toolResultAt s a t).2 with
    | none => exact ⟨⟨"tool", (c.toolResultAt s a t).1, a.ToolName⟩, _, rfl,
        by simp [toolMessages, he], rfl⟩
    | some e => exact ⟨⟨"tool", "Error: " ++ e.Error, a.ToolName⟩, _, rfl,
        by simp [toolMessages, he], rfl⟩
  · left
    rw [h1.2]
    exact ⟨rfl, rfl⟩

/-- The conversation of a later state extends that of an earlier one, by two
messages per step record added in between. -/
theorem stateAt_messages_extend (c : AgentChain) (s0 sj : AgentState) (j : Nat)
    (hj : c.stateAt s0 j = some sj) (d : Nat) :
    ∀ sk, c.stateAt s0 (j + d) = some sk →
      (∃ more, sk.messages = sj.messages ++ more) ∧
      sk.messages.length + 2 * sj.output.Steps.length =
        sj.messages.length + 2 * sk.output.Steps.length := by
  induction d with
  | zero =>
    intro sk hk
    rw [Nat.add_zero, hj] at hk
    cases hk
    exact ⟨⟨[], by simp⟩, rfl⟩
  | succ d ih =>
    intro sk hk
    obtain ⟨s, hs, hb⟩ := stateAt_succ c s0 sk (j + d) hk
    obtain ⟨⟨more, h1⟩, h2⟩ := ih s hs
    rcases body_continued_messages c s sk hb with ⟨m1, m2⟩ | ⟨m, step, _, m1, m2⟩
    · rw [m1, m2]
      exact ⟨⟨more, h1⟩, h2⟩
    · refine ⟨⟨more ++ [⟨"assistant", (c.responseAt s).1, ""⟩, m], by rw [m1, h1]; simp⟩, ?_⟩
      rw [m1, m2]
      simp only [List.length_append, List.length_cons, List.length_nil]
      omega

/-- C21. In every run of `AgentChain.Execute`, planner call number `k + 1` of the
run is made on the conversation held by the loop at the top of iteration
`k + 1`.  The first call gets exactly the system message with the rendered
prompt and the user message with the query; the conversation of every call
has length 2 + 2 × (number of step records at that point); the conversation of
the next call is either the same (no tool step in between) or the same
extended by the assistant message with the raw response and one tool-role
message; and the conversation of every earlier call is an initial segment of
it. -/
theorem C21_conversation_append_only (c : AgentChain) (input : ChainInput) (tr : Trace)
    (k : Nat) (ch : ChatRec)
    (hk : (chats (c.Execute input tr).trace)[(chats tr).length + k]? = some ch) :
    ∃ s, c.stateAt (c.initState input tr) k = some s ∧
      ch.messages = s.messages ∧
      ch.messages.length = 2 + 2 * s.output.Steps.length ∧
      (k = 0 →
        ch.messages = [⟨"system", c.buildSystemPrompt, ""⟩, ⟨"user", input.Query, ""⟩]) ∧
      (∀ ch', (chats (c.Execute input tr).trace)[(chats tr).length + (k + 1)]? = some ch' →
        ∃ s', c.stateAt (c.initState input tr) (k + 1) = some s' ∧
          ((ch'.messages = ch.messages ∧ s'.output.Steps = s.output.Steps) ∨
           (∃ m step, m.Role = "tool" ∧
             ch'.messages = ch.messages ++ [⟨"assistant", ch.response, ""⟩, m] ∧
             s'.output.Steps = s.output.Steps ++ [step]))) ∧
      (∀ j chj, j ≤ k →
        (chats (c.Execute input tr).trace)[(chats tr).length + j]? = some chj →
        ∃ more, ch.messages = chj.messages ++ more) := by
  obtain ⟨f1, f2, f3, _, _, f6⟩ := initState_facts c input tr
  have hget : ∀ j chj,
      (chats (c.Execute input tr).trace)[(chats tr).length + j]? = some chj →
      ∃ sj, c.stateAt (c.initState input tr) j = some sj ∧
        chj = ⟨sj.messages, (c.responseAt sj).1, (c.responseAt sj).2⟩ := by
    intro j chj hj
    rw [← f3] at hj
    obtain ⟨sj, h1, _, h2⟩ := loop_chats_get c c.maxIterations.toNat (c.initState input tr) j chj hj
    exact ⟨sj, h1, h2⟩
  obtain ⟨s, hs, hch⟩ := hget k ch hk
  have h0 : c.stateAt (c.initState input tr) 0 = some (c.initState input tr) := rfl
  obtain ⟨_, hlen⟩ := stateAt_messages_extend c (c.initState input tr) (c.initState input tr) 0
    h0 k s (by rw [Nat.zero_add]; exact hs)
  rw [f2, f6] at hlen
  simp only [List.length_cons, List.length_nil, Nat.mul_zero, Nat.add_zero] at hlen
  refine ⟨s, hs, by rw [hch], ?_, ?_, ?_, ?_⟩
  · rw [hch]
    simp only []
    omega
  · intro hk0
    subst hk0
    rw [h0] at hs
    cases hs
    rw [hch]
    exact f6
  · intro ch' hk'
    obtain ⟨s', hs', hch'⟩ := hget (k + 1) ch' hk'
    obtain ⟨s2, hs2, hb⟩ := stateAt_succ c (c.initState input tr) s' k hs'
    rw [hs] at hs2
    cases hs2
    refine ⟨s', hs', ?_⟩
    rw [hch, hch']
    exact body_continued_messages c s s' hb
  · intro j chj hj hkj
    obtain ⟨sj, hsj, hchj⟩ := hget j chj hkj
    obtain ⟨hmore, _⟩ := stateAt_messages_extend c (c.initState input tr) sj j hsj (k - j) s
      (by rw [Nat.add_sub_cancel' hj]; exact hs)
    rw [hch, hchj]
    exact hmore

/-- A run of C21: the third planner call of a run with two tool steps is made
on the seed extended by two assistant and two tool messages. -/
theorem C21_conversation_append_only_witness :
    ((chats ((sampleChain [toolAText, toolBText, finishText] 5).Execute sampleQuery
      []).trace)[2]?.map (fun ch => ch.messages.length)) = some 6 ∧
    ∃ s, (sampleChain [toolAText, toolBText, finishText] 5).stateAt
        ((sampleChain [toolAText, toolBText, finishText] 5).initState sampleQuery []) 2 = some s ∧
      s.messages.length = 2 + 2 * s.output.Steps.length := by
  have hk : (chats ((sampleChain [toolAText, toolBText, finishText] 5).Execute sampleQuery
      []).trace)[(chats ([] : Trace)).length + 2]? =
      some ⟨[⟨"system", (sampleChain [toolAText, toolBText, finishText] 5).buildSystemPrompt, ""⟩,
        ⟨"user", "go", ""⟩, ⟨"assistant", toolAText, ""⟩, ⟨"tool", "1", "a"⟩,
        ⟨"assistant", toolBText, ""⟩, ⟨"tool", "Error: boom", "b"⟩], finishText, none⟩ := by
    set_option maxRecDepth 100000 in decide
  obtain ⟨s, h1, h2, h3, _⟩ := C21_conversation_append_only
    (sampleChain [toolAText, toolBText, finishText] 5) sampleQuery [] 2 _ hk
  exact ⟨by decide, s, h1, by rw [← h2]; exact h3⟩

/-! ## `ExecuteWithCallback` against `Execute` -/

/-- C22. `AgentChain.ExecuteWithCallback` is not `AgentChain.Execute` with a
callback added when a tool call fails: after the failing invocation of tool
`b` (error `boom`, empty output) `Execute` gives the planner the tool message
`Error: boom`, `ExecuteWithCallback` gives it the empty output.  With a planner
that finishes once it is told of the error and cap 3, `Execute` makes two
planner calls and returns result `done` with one step record and no error,
while `ExecuteWithCallback`, with or without a callback, makes three planner
calls and returns three step records and the error
`reached maximum iterations`. -/
theorem C22_callback_variant_differs :
    (((cautiousChain 3).Execute sampleQuery []).err = none ∧
      ((cautiousChain 3).Execute sampleQuery []).out =
        some ⟨"done", [⟨"b", "y", "", some (.errorString "boom")⟩], []⟩ ∧
      (chats ((cautiousChain 3).Execute sampleQuery []).trace).length = 2 ∧
      (chats ((cautiousChain 3).Execute sampleQuery []).trace)[1]?.bind
          (fun ch => ch.messages.getLast?) = some ⟨"tool", "Error: boom", "b"⟩) ∧
    ∀ callback : Bool,
      ((cautiousChain 3).ExecuteWithCallback sampleQuery callback []).err =
        some (.errorString "reached maximum iterations") ∧
      ((cautiousChain 3).ExecuteWithCallback sampleQuery callback []).out =
        some ⟨"", [⟨"b", "y", "", some (.errorString "boom")⟩,
          ⟨"b", "y", "", some (.errorString "boom")⟩,
          ⟨"b", "y", "", some (.errorString "boom")⟩], []⟩ ∧
      (chats ((cautiousChain 3).ExecuteWithCallback sampleQuery callback []).trace).length = 3 ∧
      (chats ((cautiousChain 3).ExecuteWithCallback sampleQuery callback []).trace)[1]?.bind
          (fun ch => ch.messages.getLast?) = some ⟨"tool", "", "b"⟩ := by
  refine ⟨by decide, ?_⟩
  intro callback
  cases callback <;> decide

/-! ## The output that comes with an error -/

/-! ## The cap that bounds the planning loop -/

/-- The loop of `Execute` does not read `Agent.MaxIterations`. -/
theorem loop_MaxIterations_irrelevant (agent : Agent)
    (unmarshal : String → Except GoError AgentAction) (m M : Int) (n : Nat) :
    ∀ s, AgentChain.Execute.loop
        (NewAgentChain { agent with MaxIterations := M } unmarshal m) n s =
      AgentChain.Execute.loop (NewAgentChain agent unmarshal m) n s := by
  induction n with
  | zero => intro s; rfl
  | succ n ih =>
    intro s
    have hb : AgentChain.Execute.body
        (NewAgentChain { agent with MaxIterations := M } unmarshal m) s =
        AgentChain.Execute.body (NewAgentChain agent unmarshal m) s := rfl
    simp only [AgentChain.Execute.loop, hb]
    cases AgentChain.Execute.body (NewAgentChain agent unmarshal m) s with
    | returned r => rfl
    | continued s' => exact ih s'

/-- C28, as the code has it.  The loop of `AgentChain.Execute` is bounded by the
chain's own cap, the argument `m` of `NewAgentChain` (10 when `m ≤ 0`), and
not by `Agent.MaxIterations`: a run is the same whatever value `M` that field
has, and it makes at most `cap` planner calls. -/
theorem C28_loop_bounded_by_chain_cap (agent : Agent)
    (unmarshal : String → Except GoError AgentAction) (m M : Int) (input : ChainInput)
    (tr : Trace) :
    (NewAgentChain { agent with MaxIterations := M } unmarshal m).maxIterations =
      (if 0 < m then m else 10) ∧
    (NewAgentChain { agent with MaxIterations := M } unmarshal m).Execute input tr =
      (NewAgentChain agent unmarshal m).Execute input tr ∧
    ∃ mc, chats ((NewAgentChain { agent with MaxIterations := M } unmarshal m).Execute input
        tr).trace = chats tr ++ mc ∧
      mc.length ≤ (if 0 < m then m else 10).toNat := by
  have hcap : (NewAgentChain { agent with MaxIterations := M } unmarshal m).maxIterations =
      (if 0 < m then m else 10) := by
    unfold NewAgentChain
    by_cases h : 0 < m
    · simp [h, not_le.mpr h]
    · simp [h, not_lt.mp h]
  refine ⟨hcap, ?_, ?_⟩
  · exact loop_MaxIterations_irrelevant agent unmarshal m M _ _
  · obtain ⟨_, _, f3, _, _, _⟩ :=
      initState_facts (NewAgentChain { agent with MaxIterations := M } unmarshal m) input tr
    obtain ⟨out, news, mc, cs, _, _, h3, _, _, _, h7, _⟩ :=
      loop_extend (NewAgentChain { agent with MaxIterations := M } unmarshal m)
        (NewAgentChain { agent with MaxIterations := M } unmarshal m).maxIterations.toNat
        ((NewAgentChain { agent with MaxIterations := M } unmarshal m).initState input tr)
    refine ⟨mc, ?_, ?_⟩
    · rw [← f3]
      exact h3
    · rw [← hcap]
      exact h7

/-- A chain with cap 5 over an agent whose `MaxIterations` is 1 makes three
planner calls. -/
theorem C28_counterexample :
    (chats ((NewAgentChain
      { sampleAgent [toolAText, toolAText, finishText] with MaxIterations := 1 }
      sampleUnmarshal 5).Execute sampleQuery []).trace).length = 3 ∧
    ((NewAgentChain
      { sampleAgent [toolAText, toolAText, finishText] with MaxIterations := 1 }
      sampleUnmarshal 5).Execute sampleQuery []).err = none := by
  decide

/-! ## Progress of the pipeline -/

theorem executeError_of_last_failed (i : Nat) (pre : List CallRec) (x : CallRec) (e : GoError)
    (hx : x.err = some e) : executeError i (pre ++ [x]) ≠ none := by
  unfold executeError
  simp [hx]

/-! ## The chain manager -/

theorem lookup_chain_cons (k k' : String) (v : Chain) (rest : List (String × Chain)) :
    List.lookup k' ((k, v) :: rest) = if k' = k then some v else List.lookup k' rest := by
  by_cases h : k' = k
  · simp [List.lookup, h]
  · have hb : (k' == k) = false := beq_false_of_ne h
    simp [List.lookup, h, hb]

theorem lookup_setChain (m : List (String × Chain)) (k k' : String) (v : Chain) :
    (setChain m k v).lookup k' = if k' = k then some v else m.lookup k' := by
  induction m with
  | nil => simp only [setChain, lookup_chain_cons]
  | cons p rest ih =>
    obtain ⟨k0, v0⟩ := p
    by_cases h0 : k0 = k
    · subst h0
      simp only [setChain, ↓reduceIte, lookup_chain_cons]
      by_cases h : k' = k0 <;> simp [h]
    · simp only [setChain, h0, ↓reduceIte, lookup_chain_cons, ih]
      by_cases h : k' = k0
      · simp [h, h0]
      · simp [h]

theorem keys_setChain (m : List (String × Chain)) (k : String) (v : Chain) :
    (setChain m k v).map Prod.fst =
      if k ∈ m.map Prod.fst then m.map Prod.fst else m.map Prod.fst ++ [k] := by
  induction m with
  | nil => simp [setChain]
  | cons p rest ih =>
    obtain ⟨k0, v0⟩ := p
    by_cases h0 : k0 = k
    · subst h0
      simp [setChain]
    · have h0' : ¬ k = k0 := fun h => h0 h.symm
      simp only [setChain, h0, ↓reduceIte, List.map_cons, ih, List.mem_cons, h0', false_or]
      by_cases hk : k ∈ rest.map Prod.fst <;> simp [hk]

theorem ListChains_eq (m : ChainManager) : m.ListChains = m.chains.map Prod.fst := by
  unfold ChainManager.ListChains
  have h : ∀ (l : List (String × Chain)) (acc : List String),
      l.foldl (fun names p => names ++ [p.1]) acc = acc ++ l.map Prod.fst := by
    intro l
    induction l with
    | nil => intro acc; simp
    | cons p rest ih => intro acc; simp [ih]
  simpa using h m.chains []

theorem lookup_isSome_iff_mem (m : List (String × Chain)) (k : String) :
    (∃ ch, m.lookup k = some ch) ↔ k ∈ m.map Prod.fst := by
  induction m with
  | nil => simp
  | cons p rest ih =>
    obtain ⟨k0, v0⟩ := p
    rw [lookup_chain_cons]
    by_cases h : k = k0
    · simp [h]
    · simp only [h, ↓reduceIte, ih, List.map_cons, List.mem_cons, false_or]

/-- C25. For every manager state (a map, so with one entry per name):
`GetChain(n)` returns the chain stored under `n` and a nil error when there is
one, and otherwise no chain and the error `chain not found: n`; after
`RegisterChain(c)`, `GetChain(c.Name())` returns `c` and `GetChain` of every
other name returns what it returned before; `ListChains` returns exactly the
names for which `GetChain` succeeds, each once, also after `RegisterChain`;
and when `NewChainManager` succeeds the names are `ytb_to_bili` and `agent`,
while it returns no manager and an error when the model client cannot be
created. -/
theorem C25_chain_registry (m : ChainManager) (c : Chain) (n : String) (tr : Trace)
    (hwf : (m.chains.map Prod.fst).Nodup) :
    ((∃ ch, m.chains.lookup n = some ch ∧ m.GetChain n = (some ch, none)) ∨
      (m.chains.lookup n = none ∧
        m.GetChain n = (none, some (.errorString ("chain not found: " ++ n))))) ∧
    (m.RegisterChain c tr).1.GetChain c.Name = (some c, none) ∧
    (n ≠ c.Name → (m.RegisterChain c tr).1.GetChain n = m.GetChain n) ∧
    (∀ x, x ∈ m.ListChains ↔ ∃ ch, m.GetChain x = (some ch, none)) ∧
    m.ListChains.Nodup ∧
    (m.RegisterChain c tr).1.ListChains =
      (if c.Name ∈ m.ListChains then m.ListChains else m.ListChains ++ [c.Name]) ∧
    (m.RegisterChain c tr).1.ListChains.Nodup ∧
    (∀ (b : ToolBodies) (description : String → String)
        (unmarshal : String → Except GoError AgentAction) (client : LLMClient)
        (baseURL model : String) (tr0 : Trace),
      ∃ m0 tr1, NewChainManager b description unmarshal (.ok client) baseURL model tr0 =
          (some m0, none, tr1) ∧
        m0.ListChains = ["ytb_to_bili", "agent"]) ∧
    (∀ (b : ToolBodies) (description : String → String)
        (unmarshal : String → Except GoError AgentAction) (err : GoError)
        (baseURL model : String) (tr0 : Trace),
      (NewChainManager b description unmarshal (.error err) baseURL model tr0).1 = none ∧
      (NewChainManager b description unmarshal (.error err) baseURL model tr0).2.1 ≠ none) := by
  have hget : ∀ (mm : ChainManager) (x : String),
      (∃ ch, mm.GetChain x = (some ch, none)) ↔ ∃ ch, mm.chains.lookup x = some ch := by
    intro mm x
    unfold ChainManager.GetChain
    cases mm.chains.lookup x with
    | none => simp
    | some ch => simp
  have hreg : (m.RegisterChain c tr).1.ListChains =
      (if c.Name ∈ m.ListChains then m.ListChains else m.ListChains ++ [c.Name]) := by
    rw [ListChains_eq, ListChains_eq]
    exact keys_setChain m.chains c.Name c
  refine ⟨?_, ?_, ?_, ?_, ?_, hreg, ?_, ?_, ?_⟩
  · unfold ChainManager.GetChain
    cases h : m.chains.lookup n with
    | none => exact Or.inr ⟨rfl, rfl⟩
    | some ch => exact Or.inl ⟨ch, rfl, rfl⟩
  · unfold ChainManager.GetChain ChainManager.RegisterChain
    simp only [lookup_setChain, ↓reduceIte]
  · intro hne
    unfold ChainManager.GetChain ChainManager.RegisterChain
    simp only [lookup_setChain, hne, ↓reduceIte]
  · intro x
    rw [hget, ListChains_eq, lookup_isSome_iff_mem]
  · rw [ListChains_eq]
    exact hwf
  · rw [hreg]
    rw [ListChains_eq]
    by_cases hc : c.Name ∈ m.chains.map Prod.fst
    · simp only [hc, ↓reduceIte]
      exact hwf
    · simp only [hc, ↓reduceIte]
      exact List.Nodup.append hwf (List.nodup_singleton _) (by simpa using hc)
  · intro b description unmarshal client baseURL model tr0
    exact ⟨_, _, rfl, rfl⟩
  · intro b description unmarshal err baseURL model tr0
    exact ⟨rfl, by simp [NewChainManager, NewOpenAICompatibleClient]⟩

/-- A run of C25: after `NewChainManager` over the sample bodies the names are
`ytb_to_bili` and `agent`, a lookup of `nope` fails, and registering the
sample planner-driven chain, whose name is `agent_chain`, adds that name and
makes the chain available under it. -/
theorem C25_chain_registry_witness :
    sampleManager.ListChains = ["ytb_to_bili", "agent"] ∧
    (sampleManager.GetChain "nope").2 = some (.errorString "chain not found: nope") ∧
    (sampleManager.RegisterChain (sampleChain [] 5).toChain []).1.ListChains =
      ["ytb_to_bili", "agent", "agent_chain"] ∧
    (sampleManager.RegisterChain (sampleChain [] 5).toChain []).1.GetChain "agent_chain" =
      (some (sampleChain [] 5).toChain, none) :=
  have h := C25_chain_registry sampleManager (sampleChain [] 5).toChain "nope" [] (by decide)
  ⟨by decide, by decide, by decide, h.2.1⟩

theorem registerAll_lookup_other (n : String) (cs : List Chain) :
    ∀ (m : ChainManager) (tr : Trace), (∀ c ∈ cs, c.Name ≠ n) →
      (registerAll m cs tr).1.GetChain n = m.GetChain n := by
  induction cs with
  | nil => intro m tr _; rfl
  | cons c rest ih =>
    intro m tr h
    have hc : n ≠ c.Name := fun hn => h c (by simp) hn.symm
    have hr : ∀ x ∈ rest, x.Name ≠ n := fun x hx => h x (by simp [hx])
    rw [registerAll, ih _ _ hr]
    unfold ChainManager.GetChain ChainManager.RegisterChain
    simp only [lookup_setChain, hc, ↓reduceIte]

/-- C30. In the manager that `NewChainManager` returns, `ListChains` returns the
name `agent` and `GetChain("agent")` succeeds, but the chain it returns, the
one built by `NewAgentChain`, has `Name()` equal to `agent_chain`, and
`GetChain` of that name finds nothing; this stays so after any sequence of
`RegisterChain` calls that register no chain named `agent`.  The entry
`ytb_to_bili` does hold a chain of that name. -/
theorem C30_agent_key_is_not_its_name (b : ToolBodies) (description : String → String)
    (unmarshal : String → Except GoError AgentAction) (client : LLMClient)
    (baseURL model : String) (tr : Trace) :
    ∃ m0 tr1 ch, NewChainManager b description unmarshal (.ok client) baseURL model tr =
        (some m0, none, tr1) ∧
      "agent" ∈ m0.ListChains ∧
      m0.GetChain "agent" = (some ch, none) ∧
      ch = (NewAgentChain m0.agent unmarshal 10).toChain ∧
      ch.Name = "agent_chain" ∧ ch.Name ≠ "agent" ∧
      m0.GetChain ch.Name = (none, some (.errorString "chain not found: agent_chain")) ∧
      (∀ (cs : List Chain) (tr2 : Trace), (∀ c ∈ cs, c.Name ≠ "agent") →
        (registerAll m0 cs tr2).1.GetChain "agent" = (some ch, none)) ∧
      ∃ y, m0.GetChain "ytb_to_bili" = (some y, none) ∧ y.Name = "ytb_to_bili" := by
  have hne : ("agent_chain" : String) ≠ "agent" := by decide
  refine ⟨_, _, _, rfl, ?_, rfl, rfl, rfl, hne, rfl, ?_, _, rfl, rfl⟩
  · rw [ListChains_eq]
    simp [setChain]
  · intro cs tr2 h
    rw [registerAll_lookup_other "agent" cs _ tr2 h]
    rfl

/-! ## Serialising an output -/

theorem decodeStep_toJSON (s : StepRecord) :
    decodeStep s.toJSON = if s.Error = none then some s else none := by
  obtain ⟨n, i, o, e⟩ := s
  cases e with
  | none => rfl
  | some e => rfl

theorem decodeSteps_toJSON_ok (steps : List StepRecord) (h : ∀ s ∈ steps, s.Error = none) :
    decodeSteps (steps.map StepRecord.toJSON) = some steps := by
  induction steps with
  | nil => rfl
  | cons s rest ih =>
    have hs : s.Error = none := h s (by simp)
    have hr : ∀ x ∈ rest, x.Error = none := fun x hx => h x (by simp [hx])
    simp [decodeSteps, decodeStep_toJSON, hs, ih hr]

theorem decodeSteps_toJSON_failed (steps : List StepRecord) (h : ∃ s ∈ steps, s.Error ≠ none) :
    decodeSteps (steps.map StepRecord.toJSON) = none := by
  induction steps with
  | nil => simp at h
  | cons s rest ih =>
    by_cases hs : s.Error = none
    · obtain ⟨x, hx, hne⟩ := h
      have hxr : x ∈ rest := by
        rcases List.mem_cons.mp hx with h1 | h1
        · subst h1
          exact absurd hs hne
        · exact h1
      simp [decodeSteps, decodeStep_toJSON, hs, ih ⟨x, hxr, hne⟩]
    · simp [decodeSteps, decodeStep_toJSON, hs]

theorem decodeAny_toJSON (v : Any) : decodeAny v.toJSON = some v := by
  cases v <;> rfl

theorem GoMap.keys_set (m : GoMap) (k : String) (v : Any) :
    ∀ x, x ∈ (GoMap.set m k v).map Prod.fst ↔ x ∈ m.map Prod.fst ∨ x = k := by
  induction m with
  | nil => intro x; simp [GoMap.set]
  | cons p rest ih =>
    obtain ⟨k0, v0⟩ := p
    intro x
    by_cases h0 : k0 = k
    · subst h0
      simp only [GoMap.set, ↓reduceIte, List.map_cons, List.mem_cons]
      tauto
    · simp only [GoMap.set, h0, ↓reduceIte, List.map_cons, List.mem_cons, ih]
      tauto

theorem decodeMembers_toJSON (md : GoMap) :
    ∀ m : GoMap, ∃ m', decodeMembers (md.map fun p => (p.1, p.2.toJSON)) m = some m' ∧
      ∀ x, x ∈ m'.map Prod.fst ↔ x ∈ m.map Prod.fst ∨ x ∈ md.map Prod.fst := by
  induction md with
  | nil => intro m; exact ⟨m, rfl, by simp⟩
  | cons p rest ih =>
    obtain ⟨k, v⟩ := p
    intro m
    obtain ⟨m', h1, h2⟩ := ih (m.set k v)
    refine ⟨m', by simp [decodeMembers, decodeAny_toJSON, h1], ?_⟩
    intro x
    rw [h2, GoMap.keys_set]
    simp only [List.map_cons, List.mem_cons]
    tauto

/-- C26, as the code has it.  `ToJSON` writes the output as the object with
members `Result`, `Steps` and `Metadata`, each step record as the object with
members `ToolName`, `Input`, `Output` and `Error`, where `Error` is `null` for
a step without error and the marshalled error value, an object, for a step
with one: there is no success flag and no error message text.  Reading the
document back into a `ChainOutput` succeeds when no step record carries an
error, and then gives back the result text, the step records and the set of
metadata keys; it fails when some step record carries an error. -/
theorem C26_json_round_trip (o : ChainOutput) :
    o.ToJSON = (some o.toJSON, none) ∧
    o.toJSON = .object [("Result", .string o.Result),
      ("Steps", .array (o.Steps.map StepRecord.toJSON)),
      ("Metadata", .object (o.Metadata.map fun p => (p.1, p.2.toJSON)))] ∧
    (∀ s : StepRecord, s.toJSON = .object [("ToolName", .string s.ToolName),
      ("Input", .string s.Input), ("Output", .string s.Output),
      ("Error", match s.Error with
        | none => .null
        | some _ => .object [])]) ∧
    ((∀ s ∈ o.Steps, s.Error = none) →
      ∃ o', unmarshalOutput o.toJSON = some o' ∧ o'.Result = o.Result ∧ o'.Steps = o.Steps ∧
        ∀ x, x ∈ o'.Metadata.map Prod.fst ↔ x ∈ o.Metadata.map Prod.fst) ∧
    ((∃ s ∈ o.Steps, s.Error ≠ none) → unmarshalOutput o.toJSON = none) := by
  refine ⟨rfl, rfl, ?_, ?_, ?_⟩
  · intro s
    cases h : s.Error <;> simp [StepRecord.toJSON, errorToJSON, h]
  · intro h
    obtain ⟨m', h1, h2⟩ := decodeMembers_toJSON o.Metadata []
    have hsteps := decodeSteps_toJSON_ok o.Steps h
    refine ⟨⟨o.Result, o.Steps, m'⟩, ?_, rfl, rfl, ?_⟩
    · show (match decodeString (some (.string o.Result)),
          decodeSteps (o.Steps.map StepRecord.toJSON),
          decodeMembers (o.Metadata.map fun p => (p.1, p.2.toJSON)) [] with
        | some result, some steps, some metadata => some (ChainOutput.mk result steps metadata)
        | _, _, _ => none) = _
      rw [hsteps, h1]
      rfl
    · intro x
      rw [h2]
      simp
  · intro h
    have hsteps := decodeSteps_toJSON_failed o.Steps h
    show (match decodeString (some (.string o.Result)),
        decodeSteps (o.Steps.map StepRecord.toJSON),
        decodeMembers (o.Metadata.map fun p => (p.1, p.2.toJSON)) [] with
      | some result, some steps, some metadata => some (ChainOutput.mk result steps metadata)
      | _, _, _ => none) = _
    rw [hsteps]
    cases decodeMembers (o.Metadata.map fun p => (p.1, p.2.toJSON)) [] <;> rfl

/-- An output whose only step record carries a failure: `ToJSON` succeeds and
writes the `Error` member as an object, and reading the document back
fails. -/
theorem C26_counterexample :
    failedOutput.ToJSON.2 = none ∧
    failedOutput.ToJSON.1 = some (.object [("Result", .string ""),
      ("Steps", .array [.object [("ToolName", .string "download_video"),
        ("Input", .string "abc"), ("Output", .string ""), ("Error", .object [])]]),
      ("Metadata", .object [])]) ∧
    failedOutput.ToJSON.1.bind unmarshalOutput = none := by
  refine ⟨rfl, rfl, ?_⟩
  decide

/-! ## Where `ExecuteWithCallback` and `Execute` agree -/

theorem bodyCb_chat_failed (c : AgentChain) (callback : Bool) (s : AgentState) (e : GoError)
    (h : (c.responseAt s).2 = some e) :
    AgentChain.ExecuteWithCallback.body c callback s = .returned ⟨some s.output, some e,
      s.trace ++ [Event.chat ⟨s.messages, (c.responseAt s).1, (c.responseAt s).2⟩]⟩ := by
  unfold AgentChain.ExecuteWithCallback.body
  simp only [invokeCb_eq, h]

theorem bodyCb_parse_failed (c : AgentChain) (callback : Bool) (s : AgentState) (e : GoError)
    (h : (c.responseAt s).2 = none) (hp : c.parseAction (c.responseAt s).1 = .error e) :
    AgentChain.ExecuteWithCallback.body c callback s = .returned ⟨some s.output, some e,
      s.trace ++ [Event.chat ⟨s.messages, (c.responseAt s).1, (c.responseAt s).2⟩]⟩ := by
  unfold AgentChain.ExecuteWithCallback.body
  simp only [invokeCb_eq, h, hp]

theorem bodyCb_finish (c : AgentChain) (callback : Bool) (s : AgentState) (a : AgentAction)
    (h : c.actionAt s = some a) (hf : a.Type_ = "finish") :
    AgentChain.ExecuteWithCallback.body c callback s =
      .returned ⟨some { s.output with Result := a.Result }, none,
        s.trace ++ [Event.chat ⟨s.messages, (c.responseAt s).1, (c.responseAt s).2⟩]⟩ := by
  obtain ⟨h1, h2⟩ := actionAt_some c s a h
  unfold AgentChain.ExecuteWithCallback.body
  simp only [invokeCb_eq, h1, h2, hf, ↓reduceIte]

theorem bodyCb_unknown_tool (c : AgentChain) (callback : Bool) (s : AgentState)
    (a : AgentAction) (h : c.actionAt s = some a) (ht : a.Type_ = "tool")
    (hl : c.agent.Tools.lookup a.ToolName = none) :
    AgentChain.ExecuteWithCallback.body c callback s = .returned ⟨some s.output,
      some (.errorString ("unknown tool: " ++ a.ToolName)),
      s.trace ++ [Event.chat ⟨s.messages, (c.responseAt s).1, (c.responseAt s).2⟩]⟩ := by
  obtain ⟨h1, h2⟩ := actionAt_some c s a h
  have hd : ¬ ("tool" : String) = "finish" := by decide
  unfold AgentChain.ExecuteWithCallback.body
  simp only [invokeCb_eq, h1, h2, ht, hd, hl, ↓reduceIte]

theorem bodyCb_tool (c : AgentChain) (s : AgentState) (a : AgentAction) (t : DescribedTool)
    (h : c.actionAt s = some a) (ht : a.Type_ = "tool")
    (hl : c.agent.Tools.lookup a.ToolName = some t) :
    AgentChain.ExecuteWithCallback.body c false s = .continued
      { i := s.i + 1
        output := { s.output with
          Steps := s.output.Steps ++
            [⟨a.ToolName, a.ToolInput, (c.toolResultAt s a t).1, (c.toolResultAt s a t).2⟩] }
        messages := s.messages ++
          [⟨"assistant", (c.responseAt s).1, ""⟩, ⟨"tool", (c.toolResultAt s a t).1, a.ToolName⟩]
        trace := s.trace ++
          [Event.chat ⟨s.messages, (c.responseAt s).1, (c.responseAt s).2⟩,
           Event.call ⟨t.Name, a.ToolInput, (c.toolResultAt s a t).1,
             (c.toolResultAt s a t).2⟩] } := by
  obtain ⟨h1, h2⟩ := actionAt_some c s a h
  have hd : ¬ ("tool" : String) = "finish" := by decide
  have hres : c.toolResultAt s a t = t.Call (effects (s.trace ++
      [Event.chat ⟨s.messages, (c.responseAt s).1, (c.responseAt s).2⟩])) a.ToolInput := by
    unfold AgentChain.toolResultAt
    rw [effects_afterChat, effects_append]
    rfl
  unfold AgentChain.ExecuteWithCallback.body
  simp only [invokeCb_eq, h1, h2, ht, hd, hl, ↓reduceIte, Tool.invoke, hres]
  simp

theorem bodyCb_other (c : AgentChain) (callback : Bool) (s : AgentState) (a : AgentAction)
    (h : c.actionAt s = some a) (hnf : a.Type_ ≠ "finish") (hnt : a.Type_ ≠ "tool") :
    AgentChain.ExecuteWithCallback.body c callback s = .continued
      { i := s.i + 1, output := s.output, messages := s.messages,
        trace := s.trace ++
          [Event.chat ⟨s.messages, (c.responseAt s).1, (c.responseAt s).2⟩] } := by
  obtain ⟨h1, h2⟩ := actionAt_some c s a h
  unfold AgentChain.ExecuteWithCallback.body
  simp only [invokeCb_eq, h1, h2, hnf, hnt, ↓reduceIte]

theorem responseAt_congr (c : AgentChain) (s : AgentState) (tr' : Trace)
    (h : effects tr' = effects s.trace) :
    c.responseAt { s with trace := tr' } = c.responseAt s := by
  unfold AgentChain.responseAt
  simp only [h]

theorem actionAt_congr (c : AgentChain) (s : AgentState) (tr' : Trace)
    (h : effects tr' = effects s.trace) :
    c.actionAt { s with trace := tr' } = c.actionAt s := by
  unfold AgentChain.actionAt
  rw [responseAt_congr c s tr' h]

theorem toolResultAt_congr (c : AgentChain) (s : AgentState) (tr' : Trace)
    (h : effects tr' = effects s.trace) (a : AgentAction) (t : DescribedTool) :
    c.toolResultAt { s with trace := tr' } a t = c.toolResultAt s a t := by
  unfold AgentChain.toolResultAt
  rw [effects_afterChat, effects_afterChat, responseAt_congr c s tr' h]
  simp only [h]

/-- A run of the loop of `ExecuteWithCallback` without callback agrees with
the run of the loop of `Execute` from the same variables on the output, on
whether an error is returned, and on the planner calls and tool invocations
made, provided that no step record of the run of `Execute` carries an
error. -/
theorem loopCb_agrees (c : AgentChain) (n : Nat) :
    ∀ (s : AgentState) (tr' : Trace), effects tr' = effects s.trace →
      (∀ out, (AgentChain.Execute.loop c n s).out = some out →
        ∀ st ∈ out.Steps, st.Error = none) →
      (AgentChain.ExecuteWithCallback.loop c false n { s with trace := tr' }).out =
        (AgentChain.Execute.loop c n s).out ∧
      ((AgentChain.ExecuteWithCallback.loop c false n { s with trace := tr' }).err = none ↔
        (AgentChain.Execute.loop c n s).err = none) ∧
      effects (AgentChain.ExecuteWithCallback.loop c false n { s with trace := tr' }).trace =
        effects (AgentChain.Execute.loop c n s).trace := by
  induction n with
  | zero =>
    intro s tr' h _
    exact ⟨rfl, by simp [AgentChain.ExecuteWithCallback.loop, AgentChain.Execute.loop], h⟩
  | succ n ih =>
    intro s tr' h hok
    have hr := responseAt_congr c s tr' h
    have ha := actionAt_congr c s tr' h
    have hchat : effects (tr' ++ [Event.chat ⟨s.messages, (c.responseAt s).1,
        (c.responseAt s).2⟩]) = effects (c.afterChat s) := by
      rw [effects_afterChat, effects_append, h]
      rfl
    cases h1 : (c.responseAt s).2 with
    | some e =>
      have hb := body_chat_failed c s e h1
      have hb' := bodyCb_chat_failed c false { s with trace := tr' } e (by rw [hr]; exact h1)
      simp only [hr] at hb'
      simp only [AgentChain.ExecuteWithCallback.loop, AgentChain.Execute.loop, hb, hb']
      refine ⟨?_, ?_, ?_⟩
      · trivial
      · simp
      · exact hchat
    | none =>
      cases h2 : c.parseAction (c.responseAt s).1 with
      | error e =>
        have hb := body_parse_failed c s e h1 h2
        have hb' := bodyCb_parse_failed c false { s with trace := tr' } e (by rw [hr]; exact h1)
          (by rw [hr]; exact h2)
        simp only [hr] at hb'
        simp only [AgentChain.ExecuteWithCallback.loop, AgentChain.Execute.loop, hb, hb']
        refine ⟨?_, ?_, ?_⟩
        · trivial
        · simp
        · exact hchat
      | ok a =>
        have hact : c.actionAt s = some a := actionAt_of_parse c s a h1 h2
        have hact' : c.actionAt { s with trace := tr' } = some a := by rw [ha]; exact hact
        by_cases hf : a.Type_ = "finish"
        · have hb := body_finish c s a hact hf
          have hb' := bodyCb_finish c false { s with trace := tr' } a hact' hf
          simp only [hr] at hb'
          simp only [AgentChain.ExecuteWithCallback.loop, AgentChain.Execute.loop, hb, hb']
          refine ⟨?_, ?_, ?_⟩
          · trivial
          · simp
          · rw [effects_logInfo]; exact hchat
        · by_cases ht : a.Type_ = "tool"
          · cases hl : c.agent.Tools.lookup a.ToolName with
            | none =>
              have hb := body_unknown_tool c s a hact ht hl
              have hb' := bodyCb_unknown_tool c false { s with trace := tr' } a hact' ht hl
              simp only [hr] at hb'
              simp only [AgentChain.ExecuteWithCallback.loop, AgentChain.Execute.loop, hb, hb']
              refine ⟨?_, ?_, ?_⟩
              · trivial
              · simp
              · exact hchat
            | some t =>
              have hb := body_tool c s a t hact ht hl
              have hb' := bodyCb_tool c { s with trace := tr' } a t hact' ht hl
              rw [toolResultAt_congr c s tr' h a t] at hb'
              simp only [hr] at hb'
              simp only [AgentChain.Execute.loop, hb] at hok
              have hnone : (c.toolResultAt s a t).2 = none := by
                obtain ⟨out, news, _, _, o1, o2, _⟩ := loop_extend c n
                  { i := s.i + 1
                    output := { s.output with
                      Steps := s.output.Steps ++ [⟨a.ToolName, a.ToolInput,
                        (c.toolResultAt s a t).1, (c.toolResultAt s a t).2⟩] }
                    messages := s.messages ++
                      toolMessages (c.responseAt s).1 a (c.toolResultAt s a t)
                    trace := (t.toTool.invoke a.ToolInput
                      (logInfo (c.afterChat s) "Agent calling tool"
                        [("tool", a.ToolName), ("input", a.ToolInput)])).2 }
                have := hok out o1 ⟨a.ToolName, a.ToolInput, (c.toolResultAt s a t).1,
                  (c.toolResultAt s a t).2⟩ (by rw [o2]; simp)
                exact this
              have hmsg : toolMessages (c.responseAt s).1 a (c.toolResultAt s a t) =
                  [⟨"assistant", (c.responseAt s).1, ""⟩,
                   ⟨"tool", (c.toolResultAt s a t).1, a.ToolName⟩] := by
                simp [toolMessages, hnone]
              simp only [AgentChain.ExecuteWithCallback.loop, AgentChain.Execute.loop, hb, hb']
              rw [hmsg] at hok ⊢
              refine ih
                { i := s.i + 1
                  output := { s.output with
                    Steps := s.output.Steps ++ [⟨a.ToolName, a.ToolInput,
                      (c.toolResultAt s a t).1, (c.toolResultAt s a t).2⟩] }
                  messages := s.messages ++
                    [⟨"assistant", (c.responseAt s).1, ""⟩,
                     ⟨"tool", (c.toolResultAt s a t).1, a.ToolName⟩]
                  trace := (t.toTool.invoke a.ToolInput
                    (logInfo (c.afterChat s) "Agent calling tool"
                      [("tool", a.ToolName), ("input", a.ToolInput)])).2 }
                (tr' ++ [Event.chat ⟨s.messages, (c.responseAt s).1, (c.responseAt s).2⟩,
                  Event.call ⟨t.Name, a.ToolInput, (c.toolResultAt s a t).1,
                    (c.toolResultAt s a t).2⟩]) ?_ hok
              simp only [effects_invoke, effects_logInfo, effects_afterChat, effects_append, h]
              simp [effects, AgentChain.toolResultAt, effects_afterChat]
          · have hb := body_other c s a hact hf ht
            have hb' := bodyCb_other c false { s with trace := tr' } a hact' hf ht
            simp only [hr] at hb'
            simp only [AgentChain.ExecuteWithCallback.loop, AgentChain.Execute.loop, hb, hb']
            simp only [AgentChain.Execute.loop, hb] at hok
            exact ih ⟨s.i + 1, s.output, s.messages, c.afterChat s⟩ _ hchat hok

/-- `ExecuteWithCallback` with a nil callback agrees with `Execute` on every
input for which no step record that `Execute` returns carries an error: the
same output, an error in the same cases, and the same planner calls and
tool invocations. -/
theorem ExecuteWithCallback_agrees (c : AgentChain) (input : ChainInput) (tr : Trace)
    (hok : ∀ out, (c.Execute input tr).out = some out → ∀ st ∈ out.Steps, st.Error = none) :
    (c.ExecuteWithCallback input false tr).out = (c.Execute input tr).out ∧
    ((c.ExecuteWithCallback input false tr).err = none ↔ (c.Execute input tr).err = none) ∧
    effects (c.ExecuteWithCallback input false tr).trace = effects (c.Execute input tr).trace :=
  loopCb_agrees c c.maxIterations.toNat (c.initState input tr)
    (logInfo tr "Starting agent chain with callback" [])
    (by simp [AgentChain.initState]) hok

/-! ## Rounding to `float64` -/

theorem roundHalfEven_bounds (x : ℚ) : ⌊x⌋ ≤ roundHalfEven x ∧ roundHalfEven x ≤ ⌊x⌋ + 1 := by
  unfold roundHalfEven
  split_ifs <;> omega

theorem roundHalfEven_intCast (n : Int) : roundHalfEven (n : ℚ) = n := by
  unfold roundHalfEven
  simp

theorem roundHalfEven_mono {x y : ℚ} (h : x ≤ y) : roundHalfEven x ≤ roundHalfEven y := by
  have hf : ⌊x⌋ ≤ ⌊y⌋ := Int.floor_mono h
  rcases lt_or_eq_of_le hf with hlt | heq
  · have := (roundHalfEven_bounds x).2
    have := (roundHalfEven_bounds y).1
    omega
  · unfold roundHalfEven
    rw [← heq]
    have hxy : x - ⌊x⌋ ≤ y - ⌊x⌋ := by linarith
    split_ifs <;> first | omega | (exfalso; linarith)

theorem roundHalfEven_error (x : ℚ) : |(roundHalfEven x : ℚ) - x| ≤ 1 / 2 := by
  have h1 := Int.floor_le x
  have h2 := Int.lt_floor_add_one x
  unfold roundHalfEven
  rw [abs_le]
  split_ifs <;> push_cast <;> constructor <;> linarith

theorem roundHalfEven_eq_of_lt {x : ℚ} {n : Int} (h1 : (n : ℚ) - 1 / 2 < x)
    (h2 : x < (n : ℚ) + 1 / 2) : roundHalfEven x = n := by
  have e := roundHalfEven_error x
  rw [abs_le] at e
  have a : ((roundHalfEven x : Int) : ℚ) < (n : ℚ) + 1 := by linarith [e.2]
  have b : (n : ℚ) - 1 < ((roundHalfEven x : Int) : ℚ) := by linarith [e.1]
  have a' : roundHalfEven x < n + 1 := by exact_mod_cast a
  have b' : n - 1 < roundHalfEven x := by exact_mod_cast b
  omega

theorem roundHalfEven_tie_even {f : Int} (h : f % 2 = 0) :
    roundHalfEven ((f : ℚ) + 1 / 2) = f := by
  have hfl : ⌊(f : ℚ) + 1 / 2⌋ = f := by
    rw [Int.floor_eq_iff]
    constructor <;> linarith
  unfold roundHalfEven
  rw [hfl]
  simp [h]

theorem roundFloat64_of_pos {q : ℚ} (hq : 0 < q) :
    roundFloat64 q = (roundHalfEven (q / 2 ^ (max (Int.log 2 q) (-1022) - 52)) : ℚ) *
      2 ^ (max (Int.log 2 q) (-1022) - 52) := by
  unfold roundFloat64
  have h1 : q ≠ 0 := ne_of_gt hq
  have h2 : ¬ q < 0 := not_lt.mpr (le_of_lt hq)
  simp only [h1, h2, ↓reduceIte, abs_of_pos hq, one_mul]

theorem roundFloat64_zero : roundFloat64 0 = 0 := by
  simp [roundFloat64]

theorem two_zpow_pos (e : Int) : (0 : ℚ) < 2 ^ e := zpow_pos (by norm_num) e

theorem roundFloat64_nonneg {q : ℚ} (hq : 0 ≤ q) : 0 ≤ roundFloat64 q := by
  rcases eq_or_lt_of_le hq with h | h
  · rw [← h, roundFloat64_zero]
  · rw [roundFloat64_of_pos h]
    have hm : 0 ≤ q / 2 ^ (max (Int.log 2 q) (-1022) - 52) :=
      div_nonneg hq (le_of_lt (two_zpow_pos _))
    have hf : (0 : Int) ≤ ⌊q / 2 ^ (max (Int.log 2 q) (-1022) - 52)⌋ := Int.floor_nonneg.mpr hm
    have hr := (roundHalfEven_bounds (q / 2 ^ (max (Int.log 2 q) (-1022) - 52))).1
    have : (0 : ℚ) ≤ (roundHalfEven (q / 2 ^ (max (Int.log 2 q) (-1022) - 52)) : ℚ) := by
      exact_mod_cast le_trans hf hr
    exact mul_nonneg this (le_of_lt (two_zpow_pos _))

theorem zpow_two_mono {a b : Int} (h : a ≤ b) : (2 : ℚ) ^ a ≤ 2 ^ b :=
  zpow_le_zpow_right₀ (by norm_num) h

theorem two_pow53_mul (e : Int) : ((2 ^ 53 : Int) : ℚ) * 2 ^ (e - 52) = 2 ^ (e + 1) := by
  have h : ((2 ^ 53 : Int) : ℚ) = (2 : ℚ) ^ (53 : Int) := by norm_num
  rw [h, ← zpow_add₀ (by norm_num : (2 : ℚ) ≠ 0)]
  congr 1
  omega

theorem two_pow52_mul (e : Int) : ((2 ^ 52 : Int) : ℚ) * 2 ^ (e - 52) = 2 ^ e := by
  have h : ((2 ^ 52 : Int) : ℚ) = (2 : ℚ) ^ (52 : Int) := by norm_num
  rw [h, ← zpow_add₀ (by norm_num : (2 : ℚ) ≠ 0)]
  congr 1
  omega

theorem roundFloat64_le_next {q : ℚ} (hq : 0 < q) :
    roundFloat64 q ≤ 2 ^ (max (Int.log 2 q) (-1022) + 1) := by
  rw [roundFloat64_of_pos hq]
  set e := max (Int.log 2 q) (-1022) with he
  have hlt : q < 2 ^ (e + 1) := by
    have h1 : q < ((2 : ℕ) : ℚ) ^ (Int.log 2 q + 1) := Int.lt_zpow_succ_log_self (by norm_num) q
    have h2 : ((2 : ℕ) : ℚ) ^ (Int.log 2 q + 1) ≤ 2 ^ (e + 1) := by
      push_cast
      exact zpow_two_mono (by omega)
    exact lt_of_lt_of_le h1 h2
  have hm : q / 2 ^ (e - 52) ≤ ((2 ^ 53 : Int) : ℚ) := by
    rw [div_le_iff₀ (two_zpow_pos _)]
    rw [two_pow53_mul]
    exact le_of_lt hlt
  have hr := roundHalfEven_mono hm
  rw [roundHalfEven_intCast] at hr
  have hr' : (roundHalfEven (q / 2 ^ (e - 52)) : ℚ) ≤ ((2 ^ 53 : Int) : ℚ) := by exact_mod_cast hr
  calc (roundHalfEven (q / 2 ^ (e - 52)) : ℚ) * 2 ^ (e - 52)
      ≤ ((2 ^ 53 : Int) : ℚ) * 2 ^ (e - 52) :=
        mul_le_mul_of_nonneg_right hr' (le_of_lt (two_zpow_pos _))
    _ = 2 ^ (e + 1) := two_pow53_mul e

theorem le_roundFloat64_of_normal {q : ℚ} (hq : 0 < q) (hn : -1022 ≤ Int.log 2 q) :
    2 ^ Int.log 2 q ≤ roundFloat64 q := by
  rw [roundFloat64_of_pos hq, max_eq_left hn]
  set e := Int.log 2 q with he
  have hle : (2 : ℚ) ^ e ≤ q := by
    have := Int.zpow_log_le_self (b := 2) (by norm_num) hq
    simpa using this
  have hm : ((2 ^ 52 : Int) : ℚ) ≤ q / 2 ^ (e - 52) := by
    rw [le_div_iff₀ (two_zpow_pos _)]
    rw [two_pow52_mul]
    exact hle
  have hr := roundHalfEven_mono hm
  rw [roundHalfEven_intCast] at hr
  have hr' : ((2 ^ 52 : Int) : ℚ) ≤ (roundHalfEven (q / 2 ^ (e - 52)) : ℚ) := by exact_mod_cast hr
  calc (2 : ℚ) ^ e = ((2 ^ 52 : Int) : ℚ) * 2 ^ (e - 52) := (two_pow52_mul e).symm
    _ ≤ (roundHalfEven (q / 2 ^ (e - 52)) : ℚ) * 2 ^ (e - 52) :=
        mul_le_mul_of_nonneg_right hr' (le_of_lt (two_zpow_pos _))

/-- Rounding to `float64` is monotone on the non-negative rationals. -/
theorem roundFloat64_mono {q q' : ℚ} (hq : 0 ≤ q) (h : q ≤ q') :
    roundFloat64 q ≤ roundFloat64 q' := by
  rcases eq_or_lt_of_le hq with h0 | hpos
  · rw [← h0, roundFloat64_zero]
    exact roundFloat64_nonneg (le_trans hq h)
  · have hpos' : 0 < q' := lt_of_lt_of_le hpos h
    have hlog : Int.log 2 q ≤ Int.log 2 q' := Int.log_mono_right hpos h
    rcases lt_or_eq_of_le (max_le_max hlog (le_refl (-1022 : Int))) with hlt | heq
    · have h1 := roundFloat64_le_next hpos
      have hn : -1022 ≤ Int.log 2 q' := by
        by_contra hc
        rw [max_eq_right (by omega : Int.log 2 q' ≤ -1022)] at hlt
        have := le_max_right (Int.log 2 q) (-1022)
        omega
      have h2 := le_roundFloat64_of_normal hpos' hn
      rw [max_eq_left hn] at hlt
      exact le_trans h1 (le_trans (zpow_two_mono (by omega)) h2)
    · rw [roundFloat64_of_pos hpos, roundFloat64_of_pos hpos', ← heq]
      have hm : q / 2 ^ (max (Int.log 2 q) (-1022) - 52) ≤
          q' / 2 ^ (max (Int.log 2 q) (-1022) - 52) :=
        div_le_div_of_nonneg_right h (le_of_lt (two_zpow_pos _))
      have hr : (roundHalfEven (q / 2 ^ (max (Int.log 2 q) (-1022) - 52)) : ℚ) ≤
          (roundHalfEven (q' / 2 ^ (max (Int.log 2 q) (-1022) - 52)) : ℚ) := by
        exact_mod_cast roundHalfEven_mono hm
      exact mul_le_mul_of_nonneg_right hr (le_of_lt (two_zpow_pos _))

theorem log_eq_of_bounds {q : ℚ} {e : Int} (hq : 0 < q) (h1 : 2 ^ e ≤ q) (h2 : q < 2 ^ (e + 1)) :
    Int.log 2 q = e := by
  have a : e ≤ Int.log 2 q := by
    rw [← Int.zpow_le_iff_le_log (by norm_num) hq]
    simpa using h1
  have b : Int.log 2 q < e + 1 := by
    rw [← Int.lt_zpow_iff_log_lt (by norm_num) hq]
    simpa using h2
  omega

/-- The value of `roundFloat64` at a rational of the normal range that is not
half-way between two neighbours. -/
theorem roundFloat64_eq {q : ℚ} {e n : Int} (hq : 0 < q) (h1 : 2 ^ e ≤ q)
    (h2 : q < 2 ^ (e + 1)) (he : -1022 ≤ e) (h3 : (n : ℚ) - 1 / 2 < q / 2 ^ (e - 52))
    (h4 : q / 2 ^ (e - 52) < (n : ℚ) + 1 / 2) : roundFloat64 q = (n : ℚ) * 2 ^ (e - 52) := by
  rw [roundFloat64_of_pos hq, log_eq_of_bounds hq h1 h2, max_eq_left he,
    roundHalfEven_eq_of_lt h3 h4]

/-- The value of `roundFloat64` at a rational of the normal range half-way
between two neighbours. -/
theorem roundFloat64_eq_tie {q : ℚ} {e f : Int} (hq : 0 < q) (h1 : 2 ^ e ≤ q)
    (h2 : q < 2 ^ (e + 1)) (he : -1022 ≤ e) (h3 : q / 2 ^ (e - 52) = (f : ℚ) + 1 / 2)
    (hf : f % 2 = 0) : roundFloat64 q = (f : ℚ) * 2 ^ (e - 52) := by
  rw [roundFloat64_of_pos hq, log_eq_of_bounds hq h1 h2, max_eq_left he, h3,
    roundHalfEven_tie_even hf]

/-- The value of `roundFloat64` at a rational of the normal range that is a
multiple of the spacing of its binade. -/
theorem roundFloat64_exact {q : ℚ} {e n : Int} (hq : 0 < q) (h1 : 2 ^ e ≤ q)
    (h2 : q < 2 ^ (e + 1)) (he : -1022 ≤ e) (h3 : q = (n : ℚ) * 2 ^ (e - 52)) :
    roundFloat64 q = q := by
  rw [roundFloat64_of_pos hq, log_eq_of_bounds hq h1 h2, max_eq_left he]
  have : q / 2 ^ (e - 52) = (n : ℚ) := by
    rw [div_eq_iff (ne_of_gt (two_zpow_pos _))]
    exact h3
  rw [this, roundHalfEven_intCast, ← h3]

/-- Every natural number below `2 ^ 53` is a `float64`. -/
theorem roundFloat64_natCast {n : Nat} (h : n < 2 ^ 53) : roundFloat64 (n : ℚ) = n := by
  rcases Nat.eq_zero_or_pos n with h0 | hpos
  · subst h0
    simp [roundFloat64_zero]
  · have hq : (0 : ℚ) < n := by exact_mod_cast hpos
    have hk : Nat.log 2 n < 53 := Nat.log_lt_of_lt_pow (by omega) h
    have hlog : Int.log 2 (n : ℚ) = Nat.log 2 n := Int.log_natCast 2 n
    have h1 : (2 : ℚ) ^ ((Nat.log 2 n : Nat) : Int) ≤ n := by
      have := Int.zpow_log_le_self (b := 2) (r := (n : ℚ)) (by norm_num) hq
      rw [hlog] at this
      simpa using this
    have h2 : (n : ℚ) < 2 ^ (((Nat.log 2 n : Nat) : Int) + 1) := by
      have := Int.lt_zpow_succ_log_self (b := 2) (by norm_num) (n : ℚ)
      rw [hlog] at this
      simpa using this
    refine roundFloat64_exact (n := ((n * 2 ^ (52 - Nat.log 2 n) : Nat) : Int)) hq h1 h2
      (by omega) ?_
    push_cast
    rw [mul_assoc, ← zpow_natCast (2 : ℚ) (52 - Nat.log 2 n),
      ← zpow_add₀ (by norm_num : (2 : ℚ) ≠ 0)]
    have : ((52 - Nat.log 2 n : Nat) : Int) + (((Nat.log 2 n : Nat) : Int) - 52) = 0 := by omega
    rw [this, zpow_zero, mul_one]

/-- Rounding to `float64` moves a rational of the normal range by at most the
fraction `2 ^ (-53)` of itself. -/
theorem roundFloat64_error {q : ℚ} (hq : 0 < q) (hn : (2 : ℚ) ^ (-1022 : Int) ≤ q) :
    |roundFloat64 q - q| ≤ q * 2 ^ (-53 : Int) := by
  have hlog : -1022 ≤ Int.log 2 q := by
    rw [← Int.zpow_le_iff_le_log (by norm_num) hq]
    simpa using hn
  rw [roundFloat64_of_pos hq, max_eq_left hlog]
  set e := Int.log 2 q with he
  have hle : (2 : ℚ) ^ e ≤ q := by
    have := Int.zpow_log_le_self (b := 2) (by norm_num) hq
    simpa using this
  have hu := two_zpow_pos (e - 52)
  have herr := roundHalfEven_error (q / 2 ^ (e - 52))
  have hq' : q = q / 2 ^ (e - 52) * 2 ^ (e - 52) := by
    rw [div_mul_cancel₀ _ (ne_of_gt hu)]
  have : (roundHalfEven (q / 2 ^ (e - 52)) : ℚ) * 2 ^ (e - 52) - q =
      ((roundHalfEven (q / 2 ^ (e - 52)) : ℚ) - q / 2 ^ (e - 52)) * 2 ^ (e - 52) := by
    rw [sub_mul, div_mul_cancel₀ _ (ne_of_gt hu)]
  rw [this, abs_mul, abs_of_pos hu]
  have h53 : (2 : ℚ) ^ (e - 52) * (1 / 2) = 2 ^ e * 2 ^ (-53 : Int) := by
    rw [← zpow_add₀ (by norm_num : (2 : ℚ) ≠ 0)]
    have : e + -53 = (e - 52) + (-1) := by omega
    rw [this, zpow_add₀ (by norm_num : (2 : ℚ) ≠ 0)]
    norm_num
  calc |(roundHalfEven (q / 2 ^ (e - 52)) : ℚ) - q / 2 ^ (e - 52)| * 2 ^ (e - 52)
      ≤ 1 / 2 * 2 ^ (e - 52) := mul_le_mul_of_nonneg_right herr (le_of_lt hu)
    _ = 2 ^ e * 2 ^ (-53 : Int) := by rw [mul_comm, h53]
    _ ≤ q * 2 ^ (-53 : Int) := mul_le_mul_of_nonneg_right hle (le_of_lt (two_zpow_pos _))

theorem roundFloat64_one : roundFloat64 1 = 1 := by
  have := roundFloat64_natCast (n := 1) (by norm_num)
  simpa using this

theorem roundFloat64_hundred : roundFloat64 100 = 100 := by
  have := roundFloat64_natCast (n := 100) (by norm_num)
  simpa using this

theorem float64OfInt_natCast {n : Nat} (h : n < 2 ^ 53) : float64OfInt (n : Int) = n := by
  unfold float64OfInt
  simpa using roundFloat64_natCast h

theorem float64OfInt_mono {a b : Int} (ha : 0 ≤ a) (h : a ≤ b) :
    float64OfInt a ≤ float64OfInt b := by
  unfold float64OfInt
  exact roundFloat64_mono (by exact_mod_cast ha) (by exact_mod_cast h)

theorem float64OfInt_one_le {b : Int} (h : 1 ≤ b) : 1 ≤ float64OfInt b := by
  have := float64OfInt_mono (a := 1) (by norm_num) h
  have h1 : float64OfInt 1 = 1 := by
    have := float64OfInt_natCast (n := 1) (by norm_num)
    simpa using this
  rwa [h1] at this

/-- The `float64` value of `float64(a) / float64(b) * 100` for integers
`0 ≤ a ≤ b` with `1 ≤ b` lies between 0 and 100. -/
theorem percent_bounds {a b : Int} (ha : 0 ≤ a) (hab : a ≤ b) (hb : 1 ≤ b) :
    0 ≤ float64Mul (float64Div (float64OfInt a) (float64OfInt b)) 100 ∧
    float64Mul (float64Div (float64OfInt a) (float64OfInt b)) 100 ≤ 100 := by
  have hB := float64OfInt_one_le hb
  have hA : 0 ≤ float64OfInt a := roundFloat64_nonneg (by exact_mod_cast ha)
  have hAB := float64OfInt_mono ha hab
  have hq0 : 0 ≤ float64OfInt a / float64OfInt b := div_nonneg hA (by linarith)
  have hq1 : float64OfInt a / float64OfInt b ≤ 1 := by
    rw [div_le_one (by linarith)]
    exact hAB
  have hd0 : 0 ≤ float64Div (float64OfInt a) (float64OfInt b) := roundFloat64_nonneg hq0
  have hd1 : float64Div (float64OfInt a) (float64OfInt b) ≤ 1 := by
    have := roundFloat64_mono hq0 hq1
    rwa [roundFloat64_one] at this
  constructor
  · exact roundFloat64_nonneg (by positivity)
  · have : roundFloat64 (float64Div (float64OfInt a) (float64OfInt b) * 100) ≤
        roundFloat64 100 := roundFloat64_mono (by positivity) (by linarith)
    rwa [roundFloat64_hundred] at this

/-- The `float64` value of `float64(a) / float64(b) * 100` does not decrease when
`a` grows. -/
theorem percent_mono {a a' b : Int} (ha : 0 ≤ a) (h : a ≤ a') (hb : 1 ≤ b) :
    float64Mul (float64Div (float64OfInt a) (float64OfInt b)) 100 ≤
      float64Mul (float64Div (float64OfInt a') (float64OfInt b)) 100 := by
  have hB := float64OfInt_one_le hb
  have hA : 0 ≤ float64OfInt a := roundFloat64_nonneg (by exact_mod_cast ha)
  have hAA := float64OfInt_mono ha h
  have hq0 : 0 ≤ float64OfInt a / float64OfInt b := div_nonneg hA (by linarith)
  have hq : float64OfInt a / float64OfInt b ≤ float64OfInt a' / float64OfInt b :=
    div_le_div_of_nonneg_right hAA (by linarith)
  have hd0 : 0 ≤ float64Div (float64OfInt a) (float64OfInt b) := roundFloat64_nonneg hq0
  have hd : float64Div (float64OfInt a) (float64OfInt b) ≤
      float64Div (float64OfInt a') (float64OfInt b) := roundFloat64_mono hq0 hq
  exact roundFloat64_mono (by positivity) (by linarith)

theorem roundFloat64_two_zpow {e : Int} (he : -1022 ≤ e) :
    roundFloat64 ((2 : ℚ) ^ e) = 2 ^ e :=
  roundFloat64_exact (n := 2 ^ 52) (two_zpow_pos e) (le_refl _)
    (zpow_lt_zpow_right₀ (by norm_num) (by omega)) he
    (by simpa using (two_pow52_mul e).symm)

/-- Upper and lower bound of the rounded value in the normal range. -/
theorem roundFloat64_between {q : ℚ} (hq : 0 < q) (hn : (2 : ℚ) ^ (-1022 : Int) ≤ q) :
    q * (1 - 2 ^ (-53 : Int)) ≤ roundFloat64 q ∧ roundFloat64 q ≤ q * (1 + 2 ^ (-53 : Int)) := by
  have h := roundFloat64_error hq hn
  rw [abs_le] at h
  constructor <;> linarith [h.1, h.2]

theorem percent_key {x y u l : ℚ} (hu : u = 1 + 2 ^ (-53 : Int)) (hl : l = 1 - 2 ^ (-53 : Int))
    (hx : x ≤ 2 ^ 50) (hxy : x + 1 ≤ y) : x * (u * u) < y * (l * l) := by
  have hll : 0 ≤ l * l := mul_self_nonneg l
  have h2 : (x + 1) * (l * l) ≤ y * (l * l) := mul_le_mul_of_nonneg_right hxy hll
  have h1 : x * (u * u) < (x + 1) * (l * l) := by
    subst hu hl
    norm_num at hx ⊢
    linarith
  linarith

/-- The `float64` value of `float64(a) / float64(b) * 100` grows strictly with
`a` as long as the integers stay below `2 ^ 50`. -/
theorem percent_strict {a a' b : Int} (ha : 1 ≤ a) (h : a < a') (hab : a' ≤ b)
    (hb : b ≤ 2 ^ 50) :
    float64Mul (float64Div (float64OfInt a) (float64OfInt b)) 100 <
      float64Mul (float64Div (float64OfInt a') (float64OfInt b)) 100 := by
  obtain ⟨x, rfl⟩ : ∃ x : Nat, a = x := ⟨a.toNat, by omega⟩
  obtain ⟨y, rfl⟩ : ∃ y : Nat, a' = y := ⟨a'.toNat, by omega⟩
  obtain ⟨c, rfl⟩ : ∃ c : Nat, b = c := ⟨b.toNat, by omega⟩
  have hx53 : x < 2 ^ 53 := by omega
  have hy53 : y < 2 ^ 53 := by omega
  have hc53 : c < 2 ^ 53 := by omega
  rw [float64OfInt_natCast hx53, float64OfInt_natCast hy53, float64OfInt_natCast hc53]
  unfold float64Mul float64Div
  have hx1 : (1 : ℚ) ≤ x := by exact_mod_cast ha
  have hxy : (x : ℚ) + 1 ≤ y := by exact_mod_cast h
  have hyc : (y : ℚ) ≤ c := by exact_mod_cast hab
  have hc50 : (c : ℚ) ≤ 2 ^ 50 := by exact_mod_cast hb
  have hcpos : (0 : ℚ) < c := by linarith
  have hsmall : (2 : ℚ) ^ (-1022 : Int) ≤ 2 ^ (-50 : Int) := zpow_two_mono (by norm_num)
  have h50 : (2 : ℚ) ^ (-50 : Int) ≤ 1 / c := by
    have h1 : (1 : ℚ) / 2 ^ 50 ≤ 1 / c := one_div_le_one_div_of_le hcpos hc50
    have h2 : (2 : ℚ) ^ (-50 : Int) = 1 / 2 ^ 50 := by norm_num
    rw [h2]
    exact h1
  have hlow : ∀ z : ℚ, 1 ≤ z → (2 : ℚ) ^ (-50 : Int) ≤ z / c := by
    intro z hz
    exact le_trans h50 (div_le_div_of_nonneg_right hz (le_of_lt hcpos))
  have hflow : ∀ z : ℚ, 1 ≤ z → (2 : ℚ) ^ (-50 : Int) ≤ roundFloat64 (z / c) := by
    intro z hz
    have := roundFloat64_mono (le_of_lt (two_zpow_pos (-50))) (hlow z hz)
    rwa [roundFloat64_two_zpow (by norm_num)] at this
  have hbetween : ∀ z : ℚ, 1 ≤ z →
      z / c * (1 - 2 ^ (-53 : Int)) ≤ roundFloat64 (z / c) ∧
      roundFloat64 (z / c) ≤ z / c * (1 + 2 ^ (-53 : Int)) ∧
      roundFloat64 (z / c) * 100 * (1 - 2 ^ (-53 : Int)) ≤
        roundFloat64 (roundFloat64 (z / c) * 100) ∧
      roundFloat64 (roundFloat64 (z / c) * 100) ≤
        roundFloat64 (z / c) * 100 * (1 + 2 ^ (-53 : Int)) := by
    intro z hz
    have q := hlow z hz
    have qpos : (0 : ℚ) < z / c := lt_of_lt_of_le (two_zpow_pos _) q
    obtain ⟨b1, b2⟩ := roundFloat64_between qpos (le_trans hsmall q)
    have f := hflow z hz
    have fpos : (0 : ℚ) < roundFloat64 (z / c) := lt_of_lt_of_le (two_zpow_pos _) f
    have ppos : (0 : ℚ) < roundFloat64 (z / c) * 100 := mul_pos fpos (by norm_num)
    have pn : (2 : ℚ) ^ (-1022 : Int) ≤ roundFloat64 (z / c) * 100 := by
      have := le_trans hsmall f
      linarith
    obtain ⟨b3, b4⟩ := roundFloat64_between ppos pn
    exact ⟨b1, b2, b3, b4⟩
  obtain ⟨_, ux, _, uX⟩ := hbetween x hx1
  obtain ⟨ly, _, lY, _⟩ := hbetween y (by linarith)
  generalize hu : (1 : ℚ) + 2 ^ (-53 : Int) = u at ux uX
  generalize hl : (1 : ℚ) - 2 ^ (-53 : Int) = l at ly lY
  have hu0 : 0 ≤ u := by rw [← hu]; norm_num
  have hl0 : 0 ≤ l := by rw [← hl]; norm_num
  have hX : roundFloat64 (roundFloat64 ((x : ℚ) / c) * 100) ≤ 100 / c * ((x : ℚ) * (u * u)) := by
    have h1 : roundFloat64 ((x : ℚ) / c) * 100 * u ≤ (x : ℚ) / c * u * 100 * u :=
      mul_le_mul_of_nonneg_right (mul_le_mul_of_nonneg_right ux (by norm_num)) hu0
    calc roundFloat64 (roundFloat64 ((x : ℚ) / c) * 100)
        ≤ roundFloat64 ((x : ℚ) / c) * 100 * u := uX
      _ ≤ (x : ℚ) / c * u * 100 * u := h1
      _ = 100 / c * ((x : ℚ) * (u * u)) := by ring
  have hY : 100 / c * ((y : ℚ) * (l * l)) ≤ roundFloat64 (roundFloat64 ((y : ℚ) / c) * 100) := by
    have h1 : (y : ℚ) / c * l * 100 * l ≤ roundFloat64 ((y : ℚ) / c) * 100 * l :=
      mul_le_mul_of_nonneg_right (mul_le_mul_of_nonneg_right ly (by norm_num)) hl0
    calc 100 / c * ((y : ℚ) * (l * l)) = (y : ℚ) / c * l * 100 * l := by ring
      _ ≤ roundFloat64 ((y : ℚ) / c) * 100 * l := h1
      _ ≤ roundFloat64 (roundFloat64 ((y : ℚ) / c) * 100) := lY
  have hkey := percent_key hu.symm hl.symm (by linarith : (x : ℚ) ≤ 2 ^ 50) hxy
  have h100 : (0 : ℚ) < 100 / c := div_pos (by norm_num) hcpos
  have hmid := mul_lt_mul_of_pos_left hkey h100
  linarith

/-- Two roundings in a row, each with relative error at most `ε`, around a
multiplication by 100. -/
theorem two_roundings_error {q r1 r2 ε : ℚ} (hq : 0 ≤ q) (hε0 : 0 ≤ ε) (hε1 : ε ≤ 1)
    (l1 : q * (1 - ε) ≤ r1) (u1 : r1 ≤ q * (1 + ε))
    (l2 : r1 * 100 * (1 - ε) ≤ r2) (u2 : r2 ≤ r1 * 100 * (1 + ε)) :
    |r2 - q * 100| ≤ q * 100 * (4 * ε) := by
  have hu : r2 ≤ q * (1 + ε) * 100 * (1 + ε) := by
    have : r1 * 100 * (1 + ε) ≤ q * (1 + ε) * 100 * (1 + ε) :=
      mul_le_mul_of_nonneg_right (mul_le_mul_of_nonneg_right u1 (by norm_num)) (by linarith)
    linarith
  have hl : q * (1 - ε) * 100 * (1 - ε) ≤ r2 := by
    have : q * (1 - ε) * 100 * (1 - ε) ≤ r1 * 100 * (1 - ε) :=
      mul_le_mul_of_nonneg_right (mul_le_mul_of_nonneg_right l1 (by norm_num)) (by linarith)
    linarith
  have hqe : 0 ≤ q * ε := mul_nonneg hq hε0
  have hqee : q * ε * ε ≤ q * ε * 1 := mul_le_mul_of_nonneg_left hε1 hqe
  have hqee0 : 0 ≤ q * ε * ε := mul_nonneg hqe hε0
  rw [abs_le]
  constructor
  · have e1 : q * (1 - ε) * 100 * (1 - ε) = q * 100 - 200 * (q * ε) + 100 * (q * ε * ε) := by
      ring
    have e2 : q * 100 * (4 * ε) = 400 * (q * ε) := by ring
    linarith
  · have e1 : q * (1 + ε) * 100 * (1 + ε) = q * 100 + 200 * (q * ε) + 100 * (q * ε * ε) := by
      ring
    have e2 : q * 100 * (4 * ε) = 400 * (q * ε) := by ring
    linarith

/-- The percentage computed in `float64` from two positive integers below
`2 ^ 53` is within a relative error of `2 ^ (-51)` of the exact quotient times
100. -/
theorem percent_error {a b : Nat} (ha : 1 ≤ a) (ha53 : a < 2 ^ 53) (hb1 : 1 ≤ b)
    (hb : b < 2 ^ 53) :
    |float64Mul (float64Div (float64OfInt (a : Int)) (float64OfInt (b : Int))) 100 -
        (a : ℚ) / b * 100| ≤ (a : ℚ) / b * 100 * 2 ^ (-51 : Int) := by
  rw [float64OfInt_natCast ha53, float64OfInt_natCast hb]
  unfold float64Mul float64Div
  have ha0 : (0 : ℚ) < a := by exact_mod_cast ha
  have hb0 : (0 : ℚ) < b := by exact_mod_cast hb1
  have hbq : (b : ℚ) ≤ 2 ^ 53 := by exact_mod_cast hb.le
  have hq : (0 : ℚ) < (a : ℚ) / b := div_pos ha0 hb0
  have hqlow : (2 : ℚ) ^ (-53 : Int) ≤ (a : ℚ) / b := by
    have h1 : (1 : ℚ) / 2 ^ 53 ≤ 1 / b := one_div_le_one_div_of_le hb0 hbq
    have h2 : (2 : ℚ) ^ (-53 : Int) = 1 / 2 ^ 53 := by norm_num
    have h3 : (1 : ℚ) / b ≤ (a : ℚ) / b :=
      div_le_div_of_nonneg_right (by exact_mod_cast ha) hb0.le
    rw [h2]
    exact le_trans h1 h3
  have hsmall : (2 : ℚ) ^ (-1022 : Int) ≤ 2 ^ (-53 : Int) := zpow_two_mono (by norm_num)
  obtain ⟨l1, u1⟩ := roundFloat64_between hq (le_trans hsmall hqlow)
  have hflow : (2 : ℚ) ^ (-53 : Int) ≤ roundFloat64 ((a : ℚ) / b) := by
    have := roundFloat64_mono (le_of_lt (two_zpow_pos (-53))) hqlow
    rwa [roundFloat64_two_zpow (by norm_num)] at this
  have hr1 : (0 : ℚ) < roundFloat64 ((a : ℚ) / b) := lt_of_lt_of_le (two_zpow_pos _) hflow
  have hr1low : (2 : ℚ) ^ (-1022 : Int) ≤ roundFloat64 ((a : ℚ) / b) * 100 :=
    le_trans (le_trans hsmall hflow) (le_mul_of_one_le_right hr1.le (by norm_num))
  obtain ⟨l2, u2⟩ := roundFloat64_between (mul_pos hr1 (by norm_num : (0 : ℚ) < 100)) hr1low
  have h51 : (2 : ℚ) ^ (-51 : Int) = 4 * 2 ^ (-53 : Int) := by norm_num
  rw [h51]
  exact two_roundings_error hq.le (le_of_lt (two_zpow_pos _)) (by norm_num) l1 u1 l2 u2

/-! ## Retrying with a wrapping counter -/

theorem wrapInt_lower (n : Int) : -2 ^ 63 ≤ wrapInt n := by
  unfold wrapInt
  omega

theorem wrapInt_upper (n : Int) : wrapInt n ≤ maxInt := by
  unfold wrapInt maxInt
  omega

theorem wrapInt_le {n : Int} (h : -2 ^ 63 ≤ n) : wrapInt n ≤ n := by
  unfold wrapInt
  omega

theorem wrapInt_of_le {n : Int} (h : -2 ^ 63 ≤ n) (h' : n ≤ maxInt) : wrapInt n = n := by
  unfold wrapInt maxInt at *
  omega

/-- A run of `ExecuteWithRetry` in which attempt `m + 1` is the first to
succeed, entered with enough fuel and with the counter at most
`maxRetries - m`. -/
theorem retry_loop_success (c : YtbToBiliChain) (input : ChainInput) (maxRetries : Int)
    (m : Nat) :
    ∀ (fuel : Nat) (attempt : Int) (lastErr : Option GoError) (tr tr0 : Trace),
      effects tr = effects tr0 → m + 1 ≤ fuel → -2 ^ 63 ≤ attempt →
      attempt + m ≤ maxRetries →
      (∀ i, i < m → (attemptRun c input i tr0).err ≠ none) →
      (attemptRun c input m tr0).err = none →
      ∃ r, YtbToBiliChain.ExecuteWithRetry.loop c input maxRetries fuel attempt lastErr tr =
          some r ∧
        r.err = none ∧
        r.out = (attemptRun c input m tr0).out ∧
        effects r.trace = effects (attemptRun c input m tr0).trace ∧
        attemptsLogged r.trace = attemptsLogged tr + (m + 1) := by
  induction m with
  | zero =>
    intro fuel attempt lastErr tr tr0 hc hfuel _ hle _ hok
    obtain ⟨n, rfl⟩ : ∃ n, fuel = n + 1 := ⟨fuel - 1, by omega⟩
    have hcond : attempt ≤ maxRetries := by simpa using hle
    obtain ⟨e1, e2, e3⟩ := Execute_congr c input
      (logInfo tr "Attempting chain execution"
        [("attempt", toString attempt), ("max_retries", toString maxRetries)]) tr0
      (by simpa using hc)
    simp only [attemptRun] at hok ⊢
    have herr := e1.trans hok
    simp only [YtbToBiliChain.ExecuteWithRetry.loop, hcond, ↓reduceIte, herr]
    refine ⟨_, rfl, rfl, e2, e3, ?_⟩
    rw [Execute_attemptsLogged]
    simp only [logInfo, attemptsLogged_log]
    simp
  | succ m ih =>
    intro fuel attempt lastErr tr tr0 hc hfuel hlow hle hfail hok
    obtain ⟨n, rfl⟩ : ∃ n, fuel = n + 1 := ⟨fuel - 1, by omega⟩
    have hcond : attempt ≤ maxRetries := by
      push_cast at hle
      omega
    obtain ⟨e1, e2, e3⟩ := Execute_congr c input
      (logInfo tr "Attempting chain execution"
        [("attempt", toString attempt), ("max_retries", toString maxRetries)]) tr0
      (by simpa using hc)
    have h0 := hfail 0 (by omega)
    simp only [attemptRun] at h0
    obtain ⟨err, herr⟩ : ∃ err, (c.Execute input (logInfo tr "Attempting chain execution"
        [("attempt", toString attempt), ("max_retries", toString maxRetries)])).err =
        some err := by
      rw [e1]
      exact Option.ne_none_iff_exists'.mp h0
    have hw := wrapInt_le (n := attempt + 1) (by omega)
    obtain ⟨r, r0, r1, r2, r3, r4⟩ := ih n (wrapInt (attempt + 1)) (some err)
      (logWarn (c.Execute input (logInfo tr "Attempting chain execution"
        [("attempt", toString attempt), ("max_retries", toString maxRetries)])).trace
        "Chain execution failed, will retry"
        [("attempt", toString attempt), ("error", err.Error)])
      (c.Execute input tr0).trace (by simpa using e3) (by omega) (wrapInt_lower _)
      (by push_cast at hle; omega)
      (fun i hi => by
        have := hfail (i + 1) (by omega)
        simpa only [attemptRun] using this)
      (by simpa only [attemptRun] using hok)
    simp only [YtbToBiliChain.ExecuteWithRetry.loop, hcond, ↓reduceIte, herr, attemptRun]
    refine ⟨r, r0, r1, r2, r3, ?_⟩
    rw [r4]
    simp only [logWarn, attemptsLogged_log, Execute_attemptsLogged, logInfo]
    simp
    omega

/-- A run of `ExecuteWithRetry` in which all `n` attempts that the counter
allows fail, entered with enough fuel, for a `maxRetries` below the largest
`int`. -/
theorem retry_loop_exhaust (c : YtbToBiliChain) (input : ChainInput) (maxRetries : Int)
    (hmax : maxRetries < maxInt) (n : Nat) :
    ∀ (fuel : Nat) (attempt : Int) (lastErr : Option GoError) (tr tr0 : Trace),
      effects tr = effects tr0 → n + 1 ≤ fuel → -2 ^ 63 ≤ attempt →
      n = (maxRetries + 1 - attempt).toNat →
      (∀ i, i < n → (attemptRun c input i tr0).err ≠ none) →
      ∃ r, YtbToBiliChain.ExecuteWithRetry.loop c input maxRetries fuel attempt lastErr tr =
          some r ∧
        r.out = none ∧
        r.err = some (retryError maxRetries
          (if n = 0 then lastErr else (attemptRun c input (n - 1) tr0).err)) ∧
        effects r.trace =
          (if n = 0 then effects tr else effects (attemptRun c input (n - 1) tr0).trace) ∧
        attemptsLogged r.trace = attemptsLogged tr + n := by
  induction n with
  | zero =>
    intro fuel attempt lastErr tr tr0 _ hfuel _ hn _
    obtain ⟨k, rfl⟩ : ∃ k, fuel = k + 1 := ⟨fuel - 1, by omega⟩
    have hcond : ¬ attempt ≤ maxRetries := by omega
    simp only [YtbToBiliChain.ExecuteWithRetry.loop, hcond, ↓reduceIte]
    exact ⟨_, rfl, rfl, rfl, rfl, rfl⟩
  | succ n ih =>
    intro fuel attempt lastErr tr tr0 hc hfuel hlow hn hfail
    obtain ⟨k, rfl⟩ : ∃ k, fuel = k + 1 := ⟨fuel - 1, by omega⟩
    have hcond : attempt ≤ maxRetries := by omega
    obtain ⟨e1, e2, e3⟩ := Execute_congr c input
      (logInfo tr "Attempting chain execution"
        [("attempt", toString attempt), ("max_retries", toString maxRetries)]) tr0
      (by simpa using hc)
    have h0 := hfail 0 (by omega)
    simp only [attemptRun] at h0
    obtain ⟨err, herr⟩ : ∃ err, (c.Execute input (logInfo tr "Attempting chain execution"
        [("attempt", toString attempt), ("max_retries", toString maxRetries)])).err =
        some err := by
      rw [e1]
      exact Option.ne_none_iff_exists'.mp h0
    have hw : wrapInt (attempt + 1) = attempt + 1 :=
      wrapInt_of_le (by omega) (by unfold maxInt at *; omega)
    obtain ⟨r, r0, r1, r2, r3, r4⟩ := ih k (wrapInt (attempt + 1)) (some err)
      (logWarn (c.Execute input (logInfo tr "Attempting chain execution"
        [("attempt", toString attempt), ("max_retries", toString maxRetries)])).trace
        "Chain execution failed, will retry"
        [("attempt", toString attempt), ("error", err.Error)])
      (c.Execute input tr0).trace (by simpa using e3) (by omega) (wrapInt_lower _)
      (by rw [hw]; omega)
      (fun i hi => by
        have := hfail (i + 1) (by omega)
        simpa only [attemptRun] using this)
    simp only [YtbToBiliChain.ExecuteWithRetry.loop, hcond, ↓reduceIte, herr]
    refine ⟨r, r0, r1, ?_, ?_, ?_⟩
    · rw [r2]
      cases n with
      | zero => simp [attemptRun, ← e1, herr]
      | succ j => simp [attemptRun]
    · rw [r3]
      cases n with
      | zero => simp [attemptRun, e3]
      | succ j => simp [attemptRun]
    · rw [r4]
      simp only [logWarn, attemptsLogged_log, Execute_attemptsLogged, logInfo]
      simp
      omega

/-- When `maxRetries` is the largest `int` and every run of `Execute` fails, the
loop of `ExecuteWithRetry` does not return, whatever the fuel: the counter
wraps around and never exceeds `maxRetries`. -/
theorem retry_loop_diverges (c : YtbToBiliChain) (input : ChainInput) (maxRetries : Int)
    (hmax : maxInt ≤ maxRetries) (hfail : ∀ tr, (c.Execute input tr).err ≠ none) (fuel : Nat) :
    ∀ (attempt : Int) (lastErr : Option GoError) (tr : Trace), attempt ≤ maxInt →
      YtbToBiliChain.ExecuteWithRetry.loop c input maxRetries fuel attempt lastErr tr = none := by
  induction fuel with
  | zero => intro attempt lastErr tr _; rfl
  | succ n ih =>
    intro attempt lastErr tr ha
    have hcond : attempt ≤ maxRetries := le_trans ha hmax
    obtain ⟨err, herr⟩ := Option.ne_none_iff_exists'.mp (hfail
      (logInfo tr "Attempting chain execution"
        [("attempt", toString attempt), ("max_retries", toString maxRetries)]))
    simp only [YtbToBiliChain.ExecuteWithRetry.loop, hcond, ↓reduceIte, herr]
    exact ih _ _ _ (wrapInt_upper _)

/-- C8. For every `maxRetries` and every `j` with `1 ≤ j ≤ maxRetries`, if the
`Execute` attempts 1..j-1 fail and attempt `j` succeeds,
`YtbToBiliChain.ExecuteWithRetry` returns (`j` tests of the loop condition
suffice), performs exactly `j` attempts (it announces `j` attempts and
invokes exactly the tools that `j` successive runs of `Execute` invoke,
`download_video` being invoked `j` times: every attempt starts again from the
first pipeline tool), and returns the output of attempt `j` with a nil
error. -/
theorem C8_retry_until_success (c : YtbToBiliChain) (input : ChainInput) (tr : Trace)
    (maxRetries : Int) (j fuel : Nat) (hj1 : 1 ≤ j) (hjm : (j : Int) ≤ maxRetries)
    (hfuel : j ≤ fuel)
    (hfail : ∀ i, i < j - 1 → (attemptRun c input i tr).err ≠ none)
    (hok : (attemptRun c input (j - 1) tr).err = none) :
    ∃ r, c.ExecuteWithRetry input maxRetries fuel tr = some r ∧
      r.err = none ∧
      r.out = (attemptRun c input (j - 1) tr).out ∧
      attemptsLogged r.trace = attemptsLogged tr + j ∧
      calls r.trace = calls (attemptRun c input (j - 1) tr).trace ∧
      ∃ made, calls r.trace = calls tr ++ made ∧
        (made.filter (fun x => x.tool = "download_video")).length = j := by
  have hj : j - 1 + 1 = j := by omega
  obtain ⟨r, r0, r1, r2, r3, r4⟩ := retry_loop_success c input maxRetries (j - 1) fuel 1
    none tr tr rfl (by omega) (by norm_num) (by omega) hfail hok
  rw [hj] at r4
  obtain ⟨v, hid, hv⟩ := not_videoIDMissing input (attemptRun_ok_valid c input (j - 1) tr hok)
  obtain ⟨made, m1, m2⟩ := attemptRun_download_count c input v hid hv (j - 1) tr
  rw [hj] at m2
  have r3c : calls r.trace = calls (attemptRun c input (j - 1) tr).trace := by
    rw [← calls_effects r.trace, ← calls_effects (attemptRun c input (j - 1) tr).trace]
    exact congrArg calls r3
  exact ⟨r, r0, r1, r2, r4, r3c, made, r3c.trans m1, m2⟩

/-- C8 on sample tools whose download fails twice and then succeeds, with five
retries allowed: three attempts. -/
theorem C8_retry_until_success_witness :
    ((NewYtbToBiliChain flakyBodies).ExecuteWithRetry sampleInput 5 3 []).map
      (fun r => r.err) = some none ∧
    ((NewYtbToBiliChain flakyBodies).ExecuteWithRetry sampleInput 5 3 []).map
      (fun r => attemptsLogged r.trace) = some 3 ∧
    ((NewYtbToBiliChain flakyBodies).ExecuteWithRetry sampleInput 5 3 []).map
      (fun r => r.out.map (fun o => o.Result)) = some (some "BV1xx411c7mD") := by
  obtain ⟨r, h0, h1, h2, h3, _, _⟩ := C8_retry_until_success (NewYtbToBiliChain flakyBodies)
    sampleInput [] 5 3 3 (by decide) (by decide) (by decide) (by decide) (by decide)
  rw [h0]
  refine ⟨by rw [Option.map_some', h1], by rw [Option.map_some', h3]; decide, ?_⟩
  rw [Option.map_some', h2]
  decide

/-- C9 for every `maxRetries` below the largest `int`.  If every `Execute`
attempt fails, `YtbToBiliChain.ExecuteWithRetry` returns (`maxRetries + 1`
tests of the loop condition suffice), performs exactly `maxRetries` attempts
when `maxRetries ≥ 1` and none at all when `maxRetries ≤ 0` (the trace is then
unchanged), and returns a nil output with an error whose message starts
`chain failed after <maxRetries> attempts: `; for `maxRetries ≥ 1` that error
wraps the error of the last attempt. -/
theorem C9_retry_exhausted (c : YtbToBiliChain) (input : ChainInput) (tr : Trace)
    (maxRetries : Int) (fuel : Nat) (hmax : maxRetries < maxInt)
    (hfuel : maxRetries.toNat + 1 ≤ fuel)
    (hfail : ∀ i, i < maxRetries.toNat → (attemptRun c input i tr).err ≠ none) :
    ∃ r, c.ExecuteWithRetry input maxRetries fuel tr = some r ∧
      r.out = none ∧
      attemptsLogged r.trace = attemptsLogged tr + maxRetries.toNat ∧
      (maxRetries ≤ 0 →
        r.trace = tr ∧
        r.err = some (.errorString ("chain failed after " ++ toString maxRetries ++
          " attempts: %!w(<nil>)"))) ∧
      (1 ≤ maxRetries →
        calls r.trace = calls (attemptRun c input (maxRetries.toNat - 1) tr).trace ∧
        ∃ e err, (attemptRun c input (maxRetries.toNat - 1) tr).err = some e ∧
          r.err = some err ∧
          err.Error = "chain failed after " ++ toString maxRetries ++ " attempts: " ++
            e.Error ∧
          err.Unwrap = some e) := by
  by_cases hle : maxRetries ≤ 0
  · obtain ⟨k, rfl⟩ : ∃ k, fuel = k + 1 := ⟨fuel - 1, by omega⟩
    have hcond : ¬ (1 : Int) ≤ maxRetries := by omega
    have h0 : maxRetries.toNat = 0 := by omega
    refine ⟨⟨none, some (retryError maxRetries none), tr⟩, ?_, rfl, by simp [h0], ?_, ?_⟩
    · unfold YtbToBiliChain.ExecuteWithRetry
      simp only [YtbToBiliChain.ExecuteWithRetry.loop, hcond, ↓reduceIte]
    · intro _
      exact ⟨rfl, rfl⟩
    · intro hge
      exact absurd hge hcond
  · obtain ⟨r, r0, r1, r2, r3, r4⟩ := retry_loop_exhaust c input maxRetries hmax
      maxRetries.toNat fuel 1 none tr tr rfl hfuel (by norm_num) (by omega) hfail
    have hpos : maxRetries.toNat ≠ 0 := by omega
    simp only [hpos, ↓reduceIte] at r2 r3
    refine ⟨r, r0, r1, r4, fun h => absurd h hle, ?_⟩
    intro _
    obtain ⟨e, he⟩ := Option.ne_none_iff_exists'.mp (hfail (maxRetries.toNat - 1) (by omega))
    have r3c : calls r.trace = calls (attemptRun c input (maxRetries.toNat - 1) tr).trace := by
      rw [← calls_effects r.trace,
        ← calls_effects (attemptRun c input (maxRetries.toNat - 1) tr).trace]
      exact congrArg calls r3
    refine ⟨r3c, e, _, he, r2, ?_, ?_⟩
    · rw [he]; rfl
    · rw [he]; rfl

/-- C9 on sample tools whose download always fails, with three retries: three
attempts, and the error wraps the failure of the third. -/
theorem C9_retry_exhausted_witness :
    ((NewYtbToBiliChain downBodies).ExecuteWithRetry sampleInput 3 4 []).map
      (fun r => attemptsLogged r.trace) = some 3 ∧
    ((NewYtbToBiliChain downBodies).ExecuteWithRetry sampleInput 3 4 []).map
      (fun r => r.err.map GoError.Error) =
      some (some ("chain failed after 3 attempts: chain failed at step 1 (download_video): " ++
        "network down #2")) := by
  obtain ⟨r, h0, _, h2, _, h4⟩ := C9_retry_exhausted (NewYtbToBiliChain downBodies)
    sampleInput [] 3 4 (by decide) (by decide) (by decide)
  rw [h0]
  refine ⟨by rw [Option.map_some', h2]; decide, ?_⟩
  obtain ⟨_, e, err, he, herr, hmsg, _⟩ := h4 (by decide)
  have he2 : (attemptRun (NewYtbToBiliChain downBodies) sampleInput ((3 : Int).toNat - 1)
      []).err = some (.wrapError "chain failed at step 1 (download_video): network down #2"
        (.errorString "network down #2")) := by decide
  rw [he2] at he
  cases he
  rw [Option.map_some', herr]
  simp only [Option.map_some', hmsg]
  decide

/-- Every run of `Execute` over the sample bodies whose download always fails
returns an error. -/
theorem Execute_down_fails (tr : Trace) :
    ((NewYtbToBiliChain downBodies).Execute sampleInput tr).err ≠ none := by
  obtain ⟨_, h2, _⟩ := Execute_spec (NewYtbToBiliChain downBodies) sampleInput tr "abc"
    (by decide) (by decide)
  rw [h2]
  simp [YtbToBiliChain.toolChain, callAll, throughFirstFailure, NewDownloadVideoTool,
    NewYtbToBiliChain, downBodies, executeError]

/-- C9 at the largest `int`: when `maxRetries` is `2 ^ 63 - 1` and every attempt
fails, `ExecuteWithRetry` never returns.  After attempt `2 ^ 63 - 1` the
statement `attempt++` wraps the counter around to `-2 ^ 63`, which is again at
most `maxRetries`, so no number of tests of the loop condition reaches the
`return` after the loop. -/
theorem C9_counterexample :
    maxInt = 9223372036854775807 ∧
    wrapInt (maxInt + 1) = -9223372036854775808 ∧
    (∀ tr : Trace, ((NewYtbToBiliChain downBodies).Execute sampleInput tr).err ≠ none) ∧
    ∀ fuel : Nat,
      (NewYtbToBiliChain downBodies).ExecuteWithRetry sampleInput maxInt fuel [] = none := by
  refine ⟨by decide, by decide, Execute_down_fails, ?_⟩
  intro fuel
  exact retry_loop_diverges (NewYtbToBiliChain downBodies) sampleInput maxInt (le_refl _)
    Execute_down_fails fuel 1 none [] (by decide)

/-! ## The loop with a progress callback: trace and progress values -/

/-- Every way in which one pass through the loop body of `ExecuteWithCallback`
ends, with the exact state or result it ends in. -/
theorem bodyCb_shape (c : AgentChain) (callback : Bool) (s : AgentState) :
    (∃ out err, out.Steps = s.output.Steps ∧
      (err ≠ none → out = s.output) ∧
      AgentChain.ExecuteWithCallback.body c callback s =
        .returned ⟨some out, err,
          s.trace ++ [Event.chat ⟨s.messages, (c.responseAt s).1, (c.responseAt s).2⟩]⟩) ∨
    (AgentChain.ExecuteWithCallback.body c callback s =
      .continued ⟨s.i + 1, s.output, s.messages,
        s.trace ++ [Event.chat ⟨s.messages, (c.responseAt s).1, (c.responseAt s).2⟩]⟩) ∨
    (∃ a t cr, (c.responseAt s).2 = none ∧ c.parseAction (c.responseAt s).1 = .ok a ∧
      a.Type_ = "tool" ∧ c.agent.Tools.lookup a.ToolName = some t ∧
      cr = ⟨t.Name, a.ToolInput,
        (t.Call (effects (s.trace ++
          [Event.chat ⟨s.messages, (c.responseAt s).1, (c.responseAt s).2⟩])) a.ToolInput).1,
        (t.Call (effects (s.trace ++
          [Event.chat ⟨s.messages, (c.responseAt s).1, (c.responseAt s).2⟩])) a.ToolInput).2⟩ ∧
      AgentChain.ExecuteWithCallback.body c callback s =
        .continued ⟨s.i + 1,
          { s.output with
            Steps := s.output.Steps ++ [⟨a.ToolName, a.ToolInput, cr.output, cr.err⟩] },
          s.messages ++ [⟨"assistant", (c.responseAt s).1, ""⟩, ⟨"tool", cr.output, a.ToolName⟩],
          s.trace ++ Event.chat ⟨s.messages, (c.responseAt s).1, (c.responseAt s).2⟩ ::
            Event.call cr ::
            (if callback then
              [Event.callback ⟨a.ToolName, a.ToolInput, cr.output, cr.err⟩
                (c.progressAt s.i)]
             else [])⟩) := by
  unfold AgentChain.ExecuteWithCallback.body
  simp only [invokeCb_eq]
  cases h1 : (c.responseAt s).2 with
  | some e => exact Or.inl ⟨_, _, rfl, fun _ => rfl, rfl⟩
  | none =>
    simp only []
    cases h2 : c.parseAction (c.responseAt s).1 with
    | error e => exact Or.inl ⟨_, _, rfl, fun _ => rfl, rfl⟩
    | ok a =>
      simp only []
      by_cases hf : a.Type_ = "finish"
      · simp only [hf, ↓reduceIte]
        exact Or.inl ⟨{ s.output with Result := a.Result }, none, rfl, fun h => absurd rfl h, rfl⟩
      · simp only [hf, ↓reduceIte]
        by_cases ht : a.Type_ = "tool"
        · simp only [ht, ↓reduceIte]
          cases hl : c.agent.Tools.lookup a.ToolName with
          | none => exact Or.inl ⟨_, _, rfl, fun _ => rfl, rfl⟩
          | some t =>
            simp only []
            refine Or.inr (Or.inr ⟨a, t, _, ?_, ?_, ht, ?_, rfl, ?_⟩)
            · trivial
            · trivial
            · trivial
            · cases callback <;> simp [Tool.invoke, AgentChain.progressAt]
        · simp only [ht, ↓reduceIte]
          exact Or.inr (Or.inl trivial)

/-- What a run of the loop of `ExecuteWithCallback` with a callback adds to the
trace: one block of events per iteration, the progress values being those of
iterations with growing counters. -/
theorem loopCb_blocks (c : AgentChain) (n : Nat) :
    ∀ s, ∃ (blocks : List (List Event)) (out : ChainOutput),
        (AgentChain.ExecuteWithCallback.loop c true n s).trace = s.trace ++ blocks.flatten ∧
        (AgentChain.ExecuteWithCallback.loop c true n s).out = some out ∧
        out.Steps = s.output.Steps ++ (callbacks blocks.flatten).map Prod.fst ∧
        blocks.length ≤ n ∧
        (∀ k blk, blocks[k]? = some blk → c.callbackBlock (s.i + k) blk) ∧
        ((callbacks blocks.flatten).map Prod.snd).Pairwise
          (fun p q => ∃ j k, s.i ≤ j ∧ j < k ∧ k < s.i + n ∧
            p = c.progressAt j ∧ q = c.progressAt k) ∧
        ∀ p ∈ (callbacks blocks.flatten).map Prod.snd,
          ∃ j, s.i ≤ j ∧ j < s.i + n ∧ p = c.progressAt j := by
  induction n with
  | zero =>
    intro s
    exact ⟨[], s.output, by simp [AgentChain.ExecuteWithCallback.loop],
      by simp [AgentChain.ExecuteWithCallback.loop], by simp [callbacks], by simp,
      by simp, by simp [callbacks], by simp [callbacks]⟩
  | succ n ih =>
    intro s
    rcases bodyCb_shape c true s with ⟨out, err, h1, _, h2⟩ | h2 | ⟨a, t, cr, e1, e2, e3, e4, e5, h2⟩
    · simp only [AgentChain.ExecuteWithCallback.loop, h2]
      exact ⟨[[Event.chat ⟨s.messages, (c.responseAt s).1, (c.responseAt s).2⟩]], out,
        by simp, rfl, by simp [callbacks, h1], by simp,
        by
          intro k blk hk
          cases k with
          | zero => simp at hk; subst hk; exact Or.inl ⟨_, rfl⟩
          | succ k => simp at hk,
        by simp [callbacks], by simp [callbacks]⟩
    · simp only [AgentChain.ExecuteWithCallback.loop, h2]
      obtain ⟨blocks, out, i1, i2, i3, i4, i5, i6, i7⟩ :=
        ih ⟨s.i + 1, s.output, s.messages,
          s.trace ++ [Event.chat ⟨s.messages, (c.responseAt s).1, (c.responseAt s).2⟩]⟩
      simp only [] at i1 i2 i3 i5 i6 i7
      refine ⟨[Event.chat ⟨s.messages, (c.responseAt s).1, (c.responseAt s).2⟩] :: blocks, out,
        by simp [i1], i2, by simp [i3, callbacks_append, callbacks], by simp; omega, ?_, ?_, ?_⟩
      · intro k blk hk
        cases k with
        | zero => simp at hk; subst hk; exact Or.inl ⟨_, rfl⟩
        | succ k =>
          simp only [List.getElem?_cons_succ] at hk
          have := i5 k blk hk
          rwa [show s.i + 1 + k = s.i + (k + 1) by omega] at this
      · simp only [List.flatten_cons, callbacks_append, callbacks, List.nil_append]
        refine List.Pairwise.imp ?_ i6
        rintro p q ⟨j, k, a1, a2, a3, a4, a5⟩
        exact ⟨j, k, by omega, a2, by omega, a4, a5⟩
      · intro p hp
        simp only [List.flatten_cons, callbacks_append, callbacks, List.nil_append] at hp
        obtain ⟨j, a1, a2, a3⟩ := i7 p hp
        exact ⟨j, by omega, by omega, a3⟩
    · simp only [AgentChain.ExecuteWithCallback.loop, h2]
      obtain ⟨blocks, out, i1, i2, i3, i4, i5, i6, i7⟩ :=
        ih ⟨s.i + 1,
          { s.output with
            Steps := s.output.Steps ++ [⟨a.ToolName, a.ToolInput, cr.output, cr.err⟩] },
          s.messages ++ [⟨"assistant", (c.responseAt s).1, ""⟩, ⟨"tool", cr.output, a.ToolName⟩],
          s.trace ++ Event.chat ⟨s.messages, (c.responseAt s).1, (c.responseAt s).2⟩ ::
            Event.call cr ::
            (if true then
              [Event.callback ⟨a.ToolName, a.ToolInput, cr.output, cr.err⟩ (c.progressAt s.i)]
             else [])⟩
      simp only [↓reduceIte] at i1 i2 i3 i5 i6 i7
      refine ⟨[Event.chat ⟨s.messages, (c.responseAt s).1, (c.responseAt s).2⟩,
          Event.call cr, Event.callback ⟨a.ToolName, a.ToolInput, cr.output, cr.err⟩
            (c.progressAt s.i)] :: blocks, out,
        by simp [i1], i2, by simp [i3, callbacks_append, callbacks], by simp; omega, ?_, ?_, ?_⟩
      · intro k blk hk
        cases k with
        | zero =>
          simp at hk
          subst hk
          refine Or.inr ⟨⟨s.messages, (c.responseAt s).1, (c.responseAt s).2⟩, cr, a, t, e1, e2,
            e3, e4, by rw [e5], by rw [e5], rfl⟩
        | succ k =>
          simp only [List.getElem?_cons_succ] at hk
          have := i5 k blk hk
          rwa [show s.i + 1 + k = s.i + (k + 1) by omega] at this
      · simp only [List.flatten_cons, callbacks_append, callbacks, List.nil_append,
          List.singleton_append, List.map_cons, List.pairwise_cons]
        refine ⟨?_, List.Pairwise.imp ?_ i6⟩
        · intro p hp
          obtain ⟨j, a1, a2, a3⟩ := i7 p hp
          exact ⟨s.i, j, le_refl _, by omega, by omega, rfl, a3⟩
        · rintro p q ⟨j, k, a1, a2, a3, a4, a5⟩
          exact ⟨j, k, by omega, a2, by omega, a4, a5⟩
      · intro p hp
        simp only [List.flatten_cons, callbacks_append, callbacks, List.nil_append,
          List.singleton_append, List.map_cons, List.mem_cons] at hp
        rcases hp with hp | hp
        · exact ⟨s.i, le_refl _, by omega, hp⟩
        · obtain ⟨j, a1, a2, a3⟩ := i7 p hp
          exact ⟨j, by omega, by omega, a3⟩

/-- The progress passed in an iteration within the cap is within a relative
error of `2 ^ (-51)` of the exact quotient `(i + 1) / maxIterations × 100`,
when `maxIterations` is below `2 ^ 53`. -/
theorem progressAt_error (c : AgentChain) (k : Nat) (h1 : (k : Int) + 1 ≤ c.maxIterations)
    (h2 : c.maxIterations < 2 ^ 53) :
    |c.progressAt k - ((k : ℚ) + 1) / c.maxIterations * 100| ≤
      ((k : ℚ) + 1) / c.maxIterations * 100 * 2 ^ (-51 : Int) := by
  obtain ⟨m, hm⟩ : ∃ m : Nat, c.maxIterations = m := ⟨c.maxIterations.toNat, by omega⟩
  have h := percent_error (a := k + 1) (b := m) (by omega) (by omega) (by omega) (by omega)
  unfold AgentChain.progressAt
  rw [hm]
  push_cast at h ⊢
  exact h

/-- C23, as the code has it.  In every run of `AgentChain.ExecuteWithCallback`
with a callback, what the run adds to the trace after its opening log line is
one block of events per loop iteration, at most `maxIterations` blocks; the
block of iteration `k + 1` is either the planner call alone, or the planner
call (whose response parsed to a `tool` action on a registered tool), the
tool invocation, and directly after it, before any further planner call, one
call of the callback with the step record of that invocation and the
`float64` progress `float64(k + 1) / float64(maxIterations) * 100`.  So
iterations that return (finish, failed chat, parse failure, unknown tool)
call no callback, and the step records passed to the callback are, in
order, exactly the step records of the output.  The progress values passed
never decrease and lie between 0 and 100; they are strictly increasing when
`maxIterations` is at most `2 ^ 50`, and within a relative error of
`2 ^ (-51)` of `(k + 1) / maxIterations × 100` when `maxIterations` is below
`2 ^ 53`. -/
theorem C23_callback_once_per_step (c : AgentChain) (input : ChainInput) (tr : Trace) :
    ∃ (blocks : List (List Event)) (out : ChainOutput),
      (c.ExecuteWithCallback input true tr).trace =
        tr ++ Event.log ⟨"info", "Starting agent chain with callback", []⟩ :: blocks.flatten ∧
      (c.ExecuteWithCallback input true tr).out = some out ∧
      blocks.length ≤ c.maxIterations.toNat ∧
      (∀ k blk, blocks[k]? = some blk → c.callbackBlock k blk) ∧
      (callbacks blocks.flatten).map Prod.fst = out.Steps ∧
      ((callbacks blocks.flatten).map Prod.snd).Pairwise (· ≤ ·) ∧
      (∀ p ∈ (callbacks blocks.flatten).map Prod.snd, 0 ≤ p ∧ p ≤ 100) ∧
      (c.maxIterations ≤ 2 ^ 50 →
        ((callbacks blocks.flatten).map Prod.snd).Pairwise (· < ·)) ∧
      (c.maxIterations < 2 ^ 53 → ∀ k, k < blocks.length →
        |c.progressAt k - ((k : ℚ) + 1) / c.maxIterations * 100| ≤
          ((k : ℚ) + 1) / c.maxIterations * 100 * 2 ^ (-51 : Int)) := by
  obtain ⟨blocks, out, h1, h2, h3, h4, h5, h6, h7⟩ :=
    loopCb_blocks c c.maxIterations.toNat
      { i := 0
        output := { Result := "", Steps := [], Metadata := [] }
        messages := [⟨"system", c.buildSystemPrompt, ""⟩, ⟨"user", input.Query, ""⟩]
        trace := logInfo tr "Starting agent chain with callback" [] }
  simp only [List.nil_append, Nat.zero_add] at h3 h5 h6 h7
  refine ⟨blocks, out, ?_, h2, h4, h5, h3.symm, ?_, ?_, ?_, ?_⟩
  · unfold AgentChain.ExecuteWithCallback
    rw [h1]
    simp [logInfo]
  · refine List.Pairwise.imp ?_ h6
    rintro p q ⟨j, k, _, a2, a3, a4, a5⟩
    rw [a4, a5]
    exact percent_mono (by omega) (by omega) (by omega)
  · intro p hp
    obtain ⟨j, _, a2, a3⟩ := h7 p hp
    rw [a3]
    exact percent_bounds (by omega) (by omega) (by omega)
  · intro hcap
    refine List.Pairwise.imp ?_ h6
    rintro p q ⟨j, k, _, a2, a3, a4, a5⟩
    rw [a4, a5]
    exact percent_strict (by omega) (by omega) (by omega) hcap
  · intro hcap k hk
    exact progressAt_error c k (by omega) hcap

theorem bodyCb_tool_callback (c : AgentChain) (s : AgentState) (a : AgentAction)
    (t : DescribedTool) (h : c.actionAt s = some a) (ht : a.Type_ = "tool")
    (hl : c.agent.Tools.lookup a.ToolName = some t) :
    AgentChain.ExecuteWithCallback.body c true s = .continued
      { i := s.i + 1
        output := { s.output with
          Steps := s.output.Steps ++
            [⟨a.ToolName, a.ToolInput, (c.toolResultAt s a t).1, (c.toolResultAt s a t).2⟩] }
        messages := s.messages ++
          [⟨"assistant", (c.responseAt s).1, ""⟩, ⟨"tool", (c.toolResultAt s a t).1, a.ToolName⟩]
        trace := s.trace ++
          [Event.chat ⟨s.messages, (c.responseAt s).1, (c.responseAt s).2⟩,
           Event.call ⟨t.Name, a.ToolInput, (c.toolResultAt s a t).1,
             (c.toolResultAt s a t).2⟩,
           Event.callback ⟨a.ToolName, a.ToolInput, (c.toolResultAt s a t).1,
             (c.toolResultAt s a t).2⟩ (c.progressAt s.i)] } := by
  obtain ⟨h1, h2⟩ := actionAt_some c s a h
  have hd : ¬ ("tool" : String) = "finish" := by decide
  have hres : c.toolResultAt s a t = t.Call (effects (s.trace ++
      [Event.chat ⟨s.messages, (c.responseAt s).1, (c.responseAt s).2⟩])) a.ToolInput := by
    unfold AgentChain.toolResultAt
    rw [effects_afterChat, effects_append]
    rfl
  unfold AgentChain.ExecuteWithCallback.body
  simp only [invokeCb_eq, h1, h2, ht, hd, hl, ↓reduceIte, Tool.invoke, hres]
  simp [AgentChain.progressAt]

/-- The progress values of a run of the loop of `ExecuteWithCallback` in which
the planner asks for the same registered tool in every iteration: one value
per iteration. -/
theorem loopCb_progress_of_tools (c : AgentChain) (a : AgentAction) (t : DescribedTool)
    (hact : ∀ s, c.actionAt s = some a) (ht : a.Type_ = "tool")
    (hl : c.agent.Tools.lookup a.ToolName = some t) (n : Nat) :
    ∀ s, (callbacks (AgentChain.ExecuteWithCallback.loop c true n s).trace).map Prod.snd =
      (callbacks s.trace).map Prod.snd ++ (List.range n).map (fun k => c.progressAt (s.i + k)) := by
  induction n with
  | zero =>
    intro s
    simp [AgentChain.ExecuteWithCallback.loop]
  | succ n ih =>
    intro s
    have hb := bodyCb_tool_callback c s a t (hact s) ht hl
    simp only [AgentChain.ExecuteWithCallback.loop, hb]
    rw [ih]
    simp only [callbacks_append, callbacks, List.map_append, List.map_cons, List.map_nil,
      List.append_assoc, List.singleton_append, List.nil_append]
    rw [List.range_succ_eq_map]
    simp only [List.map_cons, List.map_map, Nat.add_zero]
    congr 2
    apply List.map_congr_left
    intro k _
    simp only [Function.comp_apply]
    congr 1
    omega

theorem steadyChain_actionAt (m : Int) (s : AgentState) :
    (steadyChain m).actionAt s = some ⟨"tool", "a", "x", "", ""⟩ := by
  rfl

theorem roundFloat64_two_pow53 : roundFloat64 (2 ^ 53) = 2 ^ 53 := by
  have := roundFloat64_two_zpow (e := 53) (by norm_num)
  norm_num at this ⊢
  exact this

theorem roundFloat64_two_pow53_succ : roundFloat64 (2 ^ 53 + 1) = 2 ^ 53 := by
  have h := roundFloat64_eq_tie (q := 2 ^ 53 + 1) (e := 53) (f := 2 ^ 52) (by norm_num)
    (by norm_num) (by norm_num) (by norm_num) (by norm_num) (by norm_num)
  rw [h]
  norm_num

/-- C23 as stated fails for a huge cap.  With `maxIterations = 2 ^ 53 + 1` and a
planner that asks for a registered tool in every iteration, the callback is
called in every iteration, and in the last two iterations, `2 ^ 53` and
`2 ^ 53 + 1`, it gets the same progress 100, because `float64(2 ^ 53 + 1)` is
`2 ^ 53`: the progress values are not strictly increasing. -/
theorem C23_counterexample :
    (steadyChain (2 ^ 53 + 1)).maxIterations = 2 ^ 53 + 1 ∧
    ((callbacks ((steadyChain (2 ^ 53 + 1)).ExecuteWithCallback sampleQuery true
      []).trace).map Prod.snd)[2 ^ 53 - 1]? = some 100 ∧
    ((callbacks ((steadyChain (2 ^ 53 + 1)).ExecuteWithCallback sampleQuery true
      []).trace).map Prod.snd)[2 ^ 53]? = some 100 ∧
    ¬ ((callbacks ((steadyChain (2 ^ 53 + 1)).ExecuteWithCallback sampleQuery true
      []).trace).map Prod.snd).Pairwise (· < ·) := by
  have hcap : (steadyChain (2 ^ 53 + 1)).maxIterations = 2 ^ 53 + 1 := by decide
  have hn : (steadyChain (2 ^ 53 + 1)).maxIterations.toNat = 2 ^ 53 + 1 := by
    rw [hcap]
    decide
  have hrun := loopCb_progress_of_tools (steadyChain (2 ^ 53 + 1)) ⟨"tool", "a", "x", "", ""⟩
    ⟨okTool "a" "1", "first"⟩ (steadyChain_actionAt _) rfl rfl
    (steadyChain (2 ^ 53 + 1)).maxIterations.toNat
    { i := 0
      output := { Result := "", Steps := [], Metadata := [] }
      messages := [⟨"system", (steadyChain (2 ^ 53 + 1)).buildSystemPrompt, ""⟩,
        ⟨"user", sampleQuery.Query, ""⟩]
      trace := logInfo [] "Starting agent chain with callback" [] }
  have hlist : (callbacks ((steadyChain (2 ^ 53 + 1)).ExecuteWithCallback sampleQuery true
      []).trace).map Prod.snd =
      (List.range (2 ^ 53 + 1)).map (fun k => (steadyChain (2 ^ 53 + 1)).progressAt k) := by
    have h0 : (callbacks (logInfo [] "Starting agent chain with callback" [])).map Prod.snd =
        ([] : List ℚ) := by
      rfl
    have hfun : (fun k : Nat => (steadyChain (2 ^ 53 + 1)).progressAt (0 + k)) =
        fun k => (steadyChain (2 ^ 53 + 1)).progressAt k := by
      funext k
      rw [Nat.zero_add]
    unfold AgentChain.ExecuteWithCallback
    rw [hrun, hn, h0, List.nil_append, hfun]
  have hC : float64OfInt (2 ^ 53 + 1) = 2 ^ 53 := by
    have h : ((2 ^ 53 + 1 : Int) : ℚ) = 2 ^ 53 + 1 := by norm_num
    unfold float64OfInt
    rw [h]
    exact roundFloat64_two_pow53_succ
  have hA : float64OfInt (2 ^ 53) = 2 ^ 53 := by
    have h : ((2 ^ 53 : Int) : ℚ) = 2 ^ 53 := by norm_num
    unfold float64OfInt
    rw [h]
    exact roundFloat64_two_pow53
  have hval : float64Mul (float64Div (2 ^ 53) (2 ^ 53)) 100 = 100 := by
    unfold float64Mul float64Div
    rw [div_self (by norm_num), roundFloat64_one, one_mul, roundFloat64_hundred]
  have hp1 : (steadyChain (2 ^ 53 + 1)).progressAt (2 ^ 53 - 1) = 100 := by
    unfold AgentChain.progressAt
    rw [hcap, hC]
    have : (((2 ^ 53 - 1 : Nat) : Int) + 1) = 2 ^ 53 := by norm_num
    rw [this, hA, hval]
  have hp2 : (steadyChain (2 ^ 53 + 1)).progressAt (2 ^ 53) = 100 := by
    unfold AgentChain.progressAt
    rw [hcap, hC]
    have : (((2 ^ 53 : Nat) : Int) + 1) = 2 ^ 53 + 1 := by norm_num
    rw [this, hC, hval]
  have g1 : ((callbacks ((steadyChain (2 ^ 53 + 1)).ExecuteWithCallback sampleQuery true
      []).trace).map Prod.snd)[2 ^ 53 - 1]? = some 100 := by
    rw [hlist, List.getElem?_map, List.getElem?_range (by norm_num), Option.map_some', hp1]
  have g2 : ((callbacks ((steadyChain (2 ^ 53 + 1)).ExecuteWithCallback sampleQuery true
      []).trace).map Prod.snd)[2 ^ 53]? = some 100 := by
    rw [hlist, List.getElem?_map, List.getElem?_range (by norm_num), Option.map_some', hp2]
  refine ⟨hcap, g1, g2, ?_⟩
  intro hpw
  rw [List.pairwise_iff_getElem] at hpw
  have hlen : ((callbacks ((steadyChain (2 ^ 53 + 1)).ExecuteWithCallback sampleQuery true
      []).trace).map Prod.snd).length = 2 ^ 53 + 1 := by
    rw [hlist, List.length_map, List.length_range]
  have h := hpw (2 ^ 53 - 1) (2 ^ 53) (by rw [hlen]; norm_num) (by rw [hlen]; norm_num)
    (by norm_num)
  have e1 := List.getElem?_eq_getElem (l := (callbacks ((steadyChain (2 ^ 53 + 1)).ExecuteWithCallback
    sampleQuery true []).trace).map Prod.snd) (n := 2 ^ 53 - 1) (by rw [hlen]; norm_num)
  have e2 := List.getElem?_eq_getElem (l := (callbacks ((steadyChain (2 ^ 53 + 1)).ExecuteWithCallback
    sampleQuery true []).trace).map Prod.snd) (n := 2 ^ 53) (by rw [hlen]; norm_num)
  rw [g1] at e1
  rw [g2] at e2
  have e1' := Option.some.inj e1
  have e2' := Option.some.inj e2
  rw [← e1', ← e2'] at h
  exact lt_irrefl _ h

/-- A run of `ExecuteWithCallback` with a callback and cap 4: two tool steps,
then finish; the callback is called after each tool invocation, with
progress 25 and 50. -/
theorem callback_run_example :
    (callbacks ((sampleChain [toolAText, toolBText, finishText] 4).ExecuteWithCallback
      sampleQuery true []).trace).map Prod.fst =
      [⟨"a", "x", "1", none⟩, ⟨"b", "y", "", some (.errorString "boom")⟩] ∧
    (callbacks ((sampleChain [toolAText, toolBText, finishText] 4).ExecuteWithCallback
      sampleQuery true []).trace).map Prod.snd = [25, 50] := by
  have h : (callbacks ((sampleChain [toolAText, toolBText, finishText] 4).ExecuteWithCallback
      sampleQuery true []).trace).map Prod.snd =
      [(sampleChain [toolAText, toolBText, finishText] 4).progressAt 0,
       (sampleChain [toolAText, toolBText, finishText] 4).progressAt 1] := by
    rfl
  have h4 : float64OfInt 4 = 4 := by
    simpa using float64OfInt_natCast (n := 4) (by norm_num)
  have h1 : float64OfInt 1 = 1 := by
    simpa using float64OfInt_natCast (n := 1) (by norm_num)
  have h2 : float64OfInt 2 = 2 := by
    simpa using float64OfInt_natCast (n := 2) (by norm_num)
  have q1 : roundFloat64 (1 / 4) = 1 / 4 := by
    have := roundFloat64_two_zpow (e := -2) (by norm_num)
    norm_num at this ⊢
    exact this
  have q2 : roundFloat64 (1 / 2) = 1 / 2 := by
    have := roundFloat64_two_zpow (e := -1) (by norm_num)
    norm_num at this ⊢
    exact this
  have v25 : roundFloat64 25 = 25 := by
    simpa using roundFloat64_natCast (n := 25) (by norm_num)
  have v50 : roundFloat64 50 = 50 := by
    simpa using roundFloat64_natCast (n := 50) (by norm_num)
  have hcap : (sampleChain [toolAText, toolBText, finishText] 4).maxIterations = 4 := by decide
  refine ⟨by decide, ?_⟩
  rw [h]
  unfold AgentChain.progressAt float64Mul float64Div
  rw [hcap, h4]
  norm_num [h1, h2, q1, q2, v25, v50]

/-! ## Output and error together -/

/-- The loop of `ExecuteWithRetry` returns once its fuel covers the attempts
that are left, when `maxRetries` is below the largest `int`. -/
theorem retry_loop_returns (c : YtbToBiliChain) (input : ChainInput) (maxRetries : Int)
    (hmax : maxRetries < maxInt) (n : Nat) :
    ∀ (fuel : Nat) (attempt : Int) (lastErr : Option GoError) (tr : Trace),
      n + 1 ≤ fuel → -2 ^ 63 ≤ attempt → n = (maxRetries + 1 - attempt).toNat →
      ∃ r, YtbToBiliChain.ExecuteWithRetry.loop c input maxRetries fuel attempt lastErr tr =
        some r := by
  induction n with
  | zero =>
    intro fuel attempt lastErr tr hfuel _ hn
    obtain ⟨k, rfl⟩ : ∃ k, fuel = k + 1 := ⟨fuel - 1, by omega⟩
    have hcond : ¬ attempt ≤ maxRetries := by omega
    simp only [YtbToBiliChain.ExecuteWithRetry.loop, hcond, ↓reduceIte]
    exact ⟨_, rfl⟩
  | succ n ih =>
    intro fuel attempt lastErr tr hfuel hlow hn
    obtain ⟨k, rfl⟩ : ∃ k, fuel = k + 1 := ⟨fuel - 1, by omega⟩
    have hcond : attempt ≤ maxRetries := by omega
    have hw : wrapInt (attempt + 1) = attempt + 1 :=
      wrapInt_of_le (by omega) (by unfold maxInt at *; omega)
    cases herr : (c.Execute input (logInfo tr "Attempting chain execution"
        [("attempt", toString attempt), ("max_retries", toString maxRetries)])).err with
    | none =>
      simp only [YtbToBiliChain.ExecuteWithRetry.loop, hcond, ↓reduceIte, herr]
      exact ⟨_, rfl⟩
    | some err =>
      simp only [YtbToBiliChain.ExecuteWithRetry.loop, hcond, ↓reduceIte, herr]
      exact ih k _ _ _ (by omega) (wrapInt_lower _) (by rw [hw]; omega)

/-- The loop of `ExecuteWithRetry` returns an output only together with a nil
error. -/
theorem retry_loop_out (c : YtbToBiliChain) (input : ChainInput) (maxRetries : Int)
    (fuel : Nat) :
    ∀ (attempt : Int) (lastErr : Option GoError) (tr : Trace) (r : Run),
      YtbToBiliChain.ExecuteWithRetry.loop c input maxRetries fuel attempt lastErr tr =
        some r →
      r.err ≠ none → r.out = none := by
  induction fuel with
  | zero =>
    intro attempt lastErr tr r h
    simp [YtbToBiliChain.ExecuteWithRetry.loop] at h
  | succ n ih =>
    intro attempt lastErr tr r h hne
    by_cases hcond : attempt ≤ maxRetries
    · cases herr : (c.Execute input (logInfo tr "Attempting chain execution"
          [("attempt", toString attempt), ("max_retries", toString maxRetries)])).err with
      | none =>
        simp only [YtbToBiliChain.ExecuteWithRetry.loop, hcond, ↓reduceIte, herr] at h
        cases h
        exact absurd rfl hne
      | some err =>
        simp only [YtbToBiliChain.ExecuteWithRetry.loop, hcond, ↓reduceIte, herr] at h
        exact ih _ _ _ r h hne
    · simp only [YtbToBiliChain.ExecuteWithRetry.loop, hcond, ↓reduceIte] at h
      cases h
      rfl

/-- The step records that a run of the loop of `ExecuteWithCallback` adds
document, in order, the tool invocations it makes. -/
theorem loopCb_steps (c : AgentChain) (callback : Bool) (n : Nat) :
    ∀ s, ∃ out cs, (AgentChain.ExecuteWithCallback.loop c callback n s).out = some out ∧
      calls (AgentChain.ExecuteWithCallback.loop c callback n s).trace = calls s.trace ++ cs ∧
      out.Steps.map (fun st => (st.Input, st.Output, st.Error)) =
        s.output.Steps.map (fun st => (st.Input, st.Output, st.Error)) ++
          cs.map (fun x => (x.input, x.output, x.err)) := by
  induction n with
  | zero =>
    intro s
    exact ⟨s.output, [], rfl, by simp [AgentChain.ExecuteWithCallback.loop], by simp⟩
  | succ n ih =>
    intro s
    rcases bodyCb_shape c callback s with ⟨out, err, h1, _, h2⟩ | h2 | ⟨a, t, cr, _, _, _, _, _, h2⟩
    · simp only [AgentChain.ExecuteWithCallback.loop, h2]
      exact ⟨out, [], rfl, by simp [calls_append, calls], by simp [h1]⟩
    · simp only [AgentChain.ExecuteWithCallback.loop, h2]
      obtain ⟨out, cs, i1, i2, i3⟩ := ih ⟨s.i + 1, s.output, s.messages,
        s.trace ++ [Event.chat ⟨s.messages, (c.responseAt s).1, (c.responseAt s).2⟩]⟩
      exact ⟨out, cs, i1, by simpa [calls_append, calls] using i2, i3⟩
    · simp only [AgentChain.ExecuteWithCallback.loop, h2]
      obtain ⟨out, cs, i1, i2, i3⟩ := ih ⟨s.i + 1,
        { s.output with
          Steps := s.output.Steps ++ [⟨a.ToolName, a.ToolInput, cr.output, cr.err⟩] },
        s.messages ++ [⟨"assistant", (c.responseAt s).1, ""⟩, ⟨"tool", cr.output, a.ToolName⟩],
        s.trace ++ Event.chat ⟨s.messages, (c.responseAt s).1, (c.responseAt s).2⟩ ::
          Event.call cr ::
          (if callback then
            [Event.callback ⟨a.ToolName, a.ToolInput, cr.output, cr.err⟩
              (c.progressAt s.i)]
           else [])⟩
      refine ⟨out, cr :: cs, i1, ?_, ?_⟩
      · rw [i2]
        cases callback <;> simp [calls_append, calls]
      · rw [i3]
        subst_vars
        simp

/-- C24, as the code has it.  An error comes with an output that documents the
invocations made so far in these cases: `BaseChain.ExecuteToolSequence` on
lists of equal length, `YtbToBiliChain.Execute` and `PartialExecute` on an
input with a video id, and `AgentChain.Execute` and `ExecuteWithCallback`
always (these five return an output on every run, the step records
documenting exactly the invocations made).  An error comes with a nil output
in the others: `ExecuteToolSequence` on lists of different length, `Execute`
and `PartialExecute` without a video id, and `ExecuteWithRetry` whenever it
returns an error (it returns, given fuel for `maxRetries + 1` rounds, whenever
`maxRetries` is below the largest `int`). -/
theorem C24_output_with_error (b : BaseChain) (tools : List Tool) (inputs : List String)
    (y : YtbToBiliChain) (g : AgentChain) (input : ChainInput) (steps : List String)
    (maxRetries : Int) (callback : Bool) (tr : Trace) :
    (tools.length = inputs.length →
      ∃ out made, (b.ExecuteToolSequence tools inputs tr).out = some out ∧
        calls (b.ExecuteToolSequence tools inputs tr).trace = calls tr ++ made ∧
        out.Steps = made.map CallRec.toStep) ∧
    (tools.length ≠ inputs.length →
      (b.ExecuteToolSequence tools inputs tr).err ≠ none ∧
      (b.ExecuteToolSequence tools inputs tr).out = none) ∧
    (¬ videoIDMissing input →
      (∃ out made, (y.Execute input tr).out = some out ∧
        calls (y.Execute input tr).trace = calls tr ++ made ∧
        out.Steps = made.map CallRec.toStep) ∧
      (∃ out made, (y.PartialExecute input steps tr).out = some out ∧
        calls (y.PartialExecute input steps tr).trace = calls tr ++ made ∧
        out.Steps = made.map CallRec.toStep)) ∧
    (videoIDMissing input →
      (y.Execute input tr).err ≠ none ∧ (y.Execute input tr).out = none ∧
      (y.PartialExecute input steps tr).err ≠ none ∧
      (y.PartialExecute input steps tr).out = none) ∧
    (maxRetries < maxInt →
      ∃ r, y.ExecuteWithRetry input maxRetries (maxRetries.toNat + 1) tr = some r) ∧
    (∀ fuel r, y.ExecuteWithRetry input maxRetries fuel tr = some r →
      r.err ≠ none → r.out = none) ∧
    (∃ out made, (g.Execute input tr).out = some out ∧
      calls (g.Execute input tr).trace = calls tr ++ made ∧
      out.Steps.map (fun st => (st.Input, st.Output, st.Error)) =
        made.map (fun x => (x.input, x.output, x.err))) ∧
    (∃ out made, (g.ExecuteWithCallback input callback tr).out = some out ∧
      calls (g.ExecuteWithCallback input callback tr).trace = calls tr ++ made ∧
      out.Steps.map (fun st => (st.Input, st.Output, st.Error)) =
        made.map (fun x => (x.input, x.output, x.err))) := by
  refine ⟨?_, ?_, ?_, ?_, ?_, ?_, ?_, ?_⟩
  · intro hlen
    obtain ⟨h1, _, h3⟩ := ExecuteToolSequence_spec b tools inputs tr hlen
    exact ⟨_, _, h3, h1, rfl⟩
  · intro hlen
    unfold BaseChain.ExecuteToolSequence
    simp [hlen]
  · intro hv
    obtain ⟨v, hid, hne⟩ := not_videoIDMissing input hv
    obtain ⟨h1, _, h3⟩ := Execute_spec y input tr v hid hne
    obtain ⟨p1, _, p3⟩ := PartialExecute_spec y input steps tr v hid hne
    exact ⟨⟨_, _, h3, h1, rfl⟩, ⟨_, _, p3, p1, rfl⟩⟩
  · intro hv
    rw [videoIDMissing_iff] at hv
    rw [Execute_missing y input tr hv, PartialExecute_missing y input steps tr hv]
    simp
  · intro hmax
    exact retry_loop_returns y input maxRetries hmax maxRetries.toNat _ 1 none tr
      (le_refl _) (by norm_num) (by simp)
  · intro fuel r h
    exact retry_loop_out y input maxRetries fuel 1 none tr r h
  · obtain ⟨f1, f2, _, f4, _, _⟩ := initState_facts g input tr
    obtain ⟨out, news, mc, cs, h1, h2, _, h4, h5, _⟩ :=
      loop_extend g g.maxIterations.toNat (g.initState input tr)
    refine ⟨out, cs, h1, ?_, ?_⟩
    · rw [← f4]
      exact h4
    · rw [h2, f2]
      simpa using h5
  · obtain ⟨out, cs, h1, h2, h3⟩ := loopCb_steps g callback g.maxIterations.toNat
      { i := 0
        output := { Result := "", Steps := [], Metadata := [] }
        messages := [⟨"system", g.buildSystemPrompt, ""⟩, ⟨"user", input.Query, ""⟩]
        trace := logInfo tr "Starting agent chain with callback" [] }
    refine ⟨out, cs, h1, ?_, ?_⟩
    · rw [calls_logInfo] at h2
      exact h2
    · simpa using h3

/-- Runs that return an error and a nil output: `ExecuteToolSequence` on one
tool and no input; `Execute` on an input without video id; and
`ExecuteWithRetry` after two failed attempts, each of which invoked the
download tool. -/
theorem C24_counterexample :
    (((NewBaseChain "seq").ExecuteToolSequence [okTool "a" "1"] [] []).err ≠ none ∧
      ((NewBaseChain "seq").ExecuteToolSequence [okTool "a" "1"] [] []).out = none) ∧
    (((NewYtbToBiliChain sampleBodies).Execute ⟨"", []⟩ []).err ≠ none ∧
      ((NewYtbToBiliChain sampleBodies).Execute ⟨"", []⟩ []).out = none) ∧
    ((NewYtbToBiliChain downBodies).ExecuteWithRetry sampleInput 2 3 []).map
      (fun r => (r.err.isSome, r.out.isNone, (calls r.trace).length)) =
      some (true, true, 2) := by
  decide

/-! ## `GetProgress` -/

/-- The value of `GetProgress` depends on the number of step records only. -/
theorem GetProgress_eq (c : YtbToBiliChain) (output : Option ChainOutput) :
    c.GetProgress output =
      match output.map (fun o => o.Steps.length) with
      | none => 0
      | some n => float64Mul (float64Div (float64OfInt (n : Int)) (float64OfInt 7)) 100 := by
  cases output <;> rfl

theorem roundFloat64_one_seventh :
    roundFloat64 (1 / 7) = 2573485501354569 / 18014398509481984 := by
  have h := roundFloat64_eq (q := 1 / 7) (e := -3) (n := 5146971002709138) (by norm_num)
    (by norm_num) (by norm_num) (by norm_num) (by norm_num) (by norm_num)
  rw [h]
  norm_num

theorem roundFloat64_one_seventh_percent :
    roundFloat64 (2573485501354569 / 18014398509481984 * 100) =
      2010535547933257 / 140737488355328 := by
  have h := roundFloat64_eq (q := 2573485501354569 / 18014398509481984 * 100) (e := 3)
    (n := 8042142191733028) (by norm_num) (by norm_num) (by norm_num) (by norm_num)
    (by norm_num) (by norm_num)
  rw [h]
  norm_num

theorem roundFloat64_four_sevenths :
    roundFloat64 (4 / 7) = 2573485501354569 / 4503599627370496 := by
  have h := roundFloat64_eq (q := 4 / 7) (e := -1) (n := 5146971002709138) (by norm_num)
    (by norm_num) (by norm_num) (by norm_num) (by norm_num) (by norm_num)
  rw [h]
  norm_num

theorem roundFloat64_four_sevenths_percent :
    roundFloat64 (2573485501354569 / 4503599627370496 * 100) =
      2010535547933257 / 35184372088832 := by
  have h := roundFloat64_eq (q := 2573485501354569 / 4503599627370496 * 100) (e := 5)
    (n := 8042142191733028) (by norm_num) (by norm_num) (by norm_num) (by norm_num)
    (by norm_num) (by norm_num)
  rw [h]
  norm_num

theorem float64OfInt_seven : float64OfInt 7 = 7 := by
  simpa using float64OfInt_natCast (n := 7) (by norm_num)

/-- C27, as the code has it.  `YtbToBiliChain.GetProgress` returns 0 for a nil
output.  For an output with `n` step records (`n` below `2 ^ 53`) it returns
the `float64` result of `float64(n) / float64(7) * 100`, that is the quotient
`n / 7` rounded to a `float64`, times 100, rounded again; this is within a
relative error of `2 ^ (-51)` of `n / 7 × 100`, and it is 100 for seven step
records, but it is not `n / 7 × 100` in general.  For the output of every run
of `YtbToBiliChain.Execute` the value lies between 0 and 100, and when the run
returns no error it is 100. -/
theorem C27_progress (c : YtbToBiliChain) (input : ChainInput) (tr : Trace) :
    c.GetProgress none = 0 ∧
    (∀ o : ChainOutput, o.Steps.length < 2 ^ 53 →
      c.GetProgress (some o) =
        roundFloat64 (roundFloat64 ((o.Steps.length : ℚ) / 7) * 100)) ∧
    (∀ o : ChainOutput, o.Steps.length < 2 ^ 53 →
      |c.GetProgress (some o) - (o.Steps.length : ℚ) / 7 * 100| ≤
        (o.Steps.length : ℚ) / 7 * 100 * 2 ^ (-51 : Int)) ∧
    (∀ o : ChainOutput, o.Steps.length = 7 → c.GetProgress (some o) = 100) ∧
    0 ≤ c.GetProgress (c.Execute input tr).out ∧
    c.GetProgress (c.Execute input tr).out ≤ 100 ∧
    ((c.Execute input tr).err = none → c.GetProgress (c.Execute input tr).out = 100) := by
  have hsome : ∀ o : ChainOutput, c.GetProgress (some o) =
      float64Mul (float64Div (float64OfInt ((o.Steps.length : Nat) : Int))
        (float64OfInt ((7 : Nat) : Int))) 100 := by
    intro o
    rfl
  have hseven : ∀ o : ChainOutput, o.Steps.length = 7 → c.GetProgress (some o) = 100 := by
    intro o h
    rw [hsome, h, float64OfInt_natCast (by norm_num)]
    unfold float64Mul float64Div
    rw [div_self (by norm_num), roundFloat64_one, one_mul, roundFloat64_hundred]
  refine ⟨rfl, ?_, ?_, hseven, ?_⟩
  · intro o h
    rw [hsome, float64OfInt_natCast h, float64OfInt_natCast (by norm_num)]
    unfold float64Mul float64Div
    norm_num
  · intro o h
    rw [hsome]
    rcases Nat.eq_zero_or_pos o.Steps.length with h0 | h0
    · rw [h0, float64OfInt_natCast (by norm_num), float64OfInt_natCast (by norm_num)]
      unfold float64Mul float64Div
      simp [roundFloat64_zero]
    · have := percent_error h0 h (by norm_num : 1 ≤ 7) (by norm_num : 7 < 2 ^ 53)
      simpa using this
  by_cases hv : videoIDMissing input
  · rw [videoIDMissing_iff] at hv
    rw [Execute_missing c input tr hv]
    refine ⟨le_refl _, ?_, ?_⟩
    · show (0 : ℚ) ≤ 100
      norm_num
    · intro h
      cases h
  · obtain ⟨v, hid, hne⟩ := not_videoIDMissing input hv
    obtain ⟨_, h2, h3⟩ := Execute_spec c input tr v hid hne
    obtain ⟨m, hm, hle, _⟩ := throughFirstFailure_eq_take (callAll (c.toolChain v) (effects tr))
    have hlen7 : (callAll (c.toolChain v) (effects tr)).length = 7 := by
      rw [callAll_length]
      rfl
    have hlen : (throughFirstFailure (callAll (c.toolChain v) (effects tr))).length ≤ 7 := by
      rw [hm, List.length_take]
      omega
    rw [h3]
    have hb := percent_bounds
      (a := (((throughFirstFailure (callAll (c.toolChain v) (effects tr))).map
        CallRec.toStep).length : Int)) (b := 7) (by positivity)
      (by rw [List.length_map]; exact_mod_cast hlen) (by norm_num)
    refine ⟨hb.1, hb.2, ?_⟩
    intro herr
    rw [h2] at herr
    rcases throughFirstFailure_cases (callAll (c.toolChain v) (effects tr)) with
      ⟨hall, _⟩ | ⟨pre, x, e, hpre, hx, _⟩
    · apply hseven
      rw [List.length_map, hall, hlen7]
    · rw [hpre] at herr
      exact absurd herr (executeError_of_last_failed 0 pre x e hx)

/-- C27 as stated fails on a run of `Execute` whose first tool fails: the
output has one step record, and `GetProgress` returns the `float64`
14.285714285714285, which is `2010535547933257 / 2 ^ 47` and not `100 / 7`. -/
theorem C27_counterexample :
    ((NewYtbToBiliChain downBodies).Execute sampleInput []).out.map
      (fun o => o.Steps.length) = some 1 ∧
    (NewYtbToBiliChain downBodies).GetProgress
      ((NewYtbToBiliChain downBodies).Execute sampleInput []).out =
      2010535547933257 / 140737488355328 ∧
    (NewYtbToBiliChain downBodies).GetProgress
      ((NewYtbToBiliChain downBodies).Execute sampleInput []).out ≠ (1 : ℚ) / 7 * 100 := by
  have hlen : ((NewYtbToBiliChain downBodies).Execute sampleInput []).out.map
      (fun o => o.Steps.length) = some 1 := by decide
  have hval : (NewYtbToBiliChain downBodies).GetProgress
      ((NewYtbToBiliChain downBodies).Execute sampleInput []).out =
      2010535547933257 / 140737488355328 := by
    rw [GetProgress_eq, hlen]
    show float64Mul (float64Div (float64OfInt ((1 : Nat) : Int)) (float64OfInt 7)) 100 = _
    rw [float64OfInt_natCast (by norm_num), float64OfInt_seven]
    unfold float64Mul float64Div
    rw [Nat.cast_one, roundFloat64_one_seventh, roundFloat64_one_seventh_percent]
  refine ⟨hlen, hval, ?_⟩
  rw [hval]
  norm_num

/-- Two runs of C27: with the sample bodies the progress of the output is 100;
when the subtitle generator, the fourth tool, fails, the output has four step
records and the progress is the `float64` 57.14285714285714. -/
theorem progress_example :
    (NewYtbToBiliChain sampleBodies).GetProgress
      ((NewYtbToBiliChain sampleBodies).Execute sampleInput []).out = 100 ∧
    (NewYtbToBiliChain subtitleFailsBodies).GetProgress
      ((NewYtbToBiliChain subtitleFailsBodies).Execute sampleInput []).out =
      2010535547933257 / 35184372088832 := by
  have h7 : ((NewYtbToBiliChain sampleBodies).Execute sampleInput []).out.map
      (fun o => o.Steps.length) = some 7 := by decide
  have h4 : ((NewYtbToBiliChain subtitleFailsBodies).Execute sampleInput []).out.map
      (fun o => o.Steps.length) = some 4 := by decide
  constructor
  · rw [GetProgress_eq, h7]
    show float64Mul (float64Div (float64OfInt ((7 : Nat) : Int)) (float64OfInt 7)) 100 = _
    rw [float64OfInt_natCast (by norm_num), float64OfInt_seven]
    unfold float64Mul float64Div
    rw [Nat.cast_ofNat, div_self (by norm_num), roundFloat64_one, one_mul, roundFloat64_hundred]
  · rw [GetProgress_eq, h4]
    show float64Mul (float64Div (float64OfInt ((4 : Nat) : Int)) (float64OfInt 7)) 100 = _
    rw [float64OfInt_natCast (by norm_num), float64OfInt_seven]
    unfold float64Mul float64Div
    rw [Nat.cast_ofNat, roundFloat64_four_sevenths, roundFloat64_four_sevenths_percent]

end Ytb2Bili
